import Mathlib

/-!
# SignalR client engine (`golang/signalr`): embedding and properties

The development follows the Go package `signalr` of the repository:
`client.go` (constants, `readConn`, `handshake`, `negotiateOnce`, `negotiate`,
`SendInvocation`, `Listen`) and `handler.go` (`dispatch`), and the template
handler of package `handlers`. What the code uses of the standard library
(`encoding/json`, `reflect`, `strings`) and of the socket is modelled from its
documented behaviour.

Conventions of the embedding:
* a Go `[]byte` is a `List Nat` (each element a byte value);
* a Go `string` that the client decodes or spells out is a `String` (valid
  UTF-8); a Go `string` that a caller hands in is a `GoString`, its bytes, and
  `utf8Bytes` takes the first to the second;
* a Go `error` is identified by its message text (`err.Error()`), `nil` is `none`;
* a run-time panic is an explicit outcome of the function that raises it;
* calls into collaborators (socket, HTTP server, handler) are recorded in a trace.
-/

namespace Signalr

/-! ## The constant block of `client.go` -/

/-- One line of a Go `const ( ... )` block. -/
inductive ConstSpec where
  /-- `name T = <literal>` -/
  | literal (name : String) (value : Int)
  /-- `name T = iota` -/
  | iotaExpr (name : String)
  /-- `name` alone: the previous expression is repeated -/
  | repeated (name : String)
  deriving DecidableEq, Repr

/-- The expression a line of a constant block currently stands for. -/
inductive ConstExpr where
  | lit (value : Int)
  | iota
  deriving DecidableEq, Repr

/-- Value of an expression on the line whose index in the block is `idx`. -/
def ConstExpr.eval (idx : Nat) : ConstExpr → Int
  | .lit v => v
  | .iota => (idx : Int)

/-- Evaluate the lines of a block from line index `idx` on; `prev` is the
expression of the preceding line. `iota` is the index of the line in the block. -/
def evalConstBlock : Nat → ConstExpr → List ConstSpec → List (String × Int)
  | _, _, [] => []
  | idx, _, .literal n v :: rest => (n, v) :: evalConstBlock (idx + 1) (.lit v) rest
  | idx, _, .iotaExpr n :: rest => (n, (idx : Int)) :: evalConstBlock (idx + 1) .iota rest
  | idx, prev, .repeated n :: rest => (n, prev.eval idx) :: evalConstBlock (idx + 1) prev rest

/-- The block at `client.go` lines 66 to 76, line by line. -/
def clientConstBlock : List ConstSpec :=
  [ .literal "messageTerminator" 0x1E,
    .iotaExpr "invocationMessageType",
    .repeated "streamItemMessageType",
    .repeated "completionMessageType",
    .repeated "streamInvocationMessageType",
    .repeated "cancelInvocationMessageType",
    .repeated "pingMessageType",
    .repeated "closeMessageType" ]

/-- Value of a constant declared in the block (0 when the name is not declared). -/
def constValue (name : String) : Int :=
  match (evalConstBlock 0 (.lit 0) clientConstBlock).lookup name with
  | some v => v
  | none => 0

/-- Go type `messageType int`. -/
abbrev messageType := Int

def messageTerminator : Nat := (constValue "messageTerminator").toNat
def invocationMessageType : messageType := constValue "invocationMessageType"
def streamItemMessageType : messageType := constValue "streamItemMessageType"
def completionMessageType : messageType := constValue "completionMessageType"
def streamInvocationMessageType : messageType := constValue "streamInvocationMessageType"
def cancelInvocationMessageType : messageType := constValue "cancelInvocationMessageType"
def pingMessageType : messageType := constValue "pingMessageType"
def closeMessageType : messageType := constValue "closeMessageType"

/-- The seven message kinds in their declared order. -/
def messageKinds : List messageType :=
  [ invocationMessageType, streamItemMessageType, completionMessageType,
    streamInvocationMessageType, cancelInvocationMessageType, pingMessageType,
    closeMessageType ]

/-! ## Basic types -/

/-- Go `error`, identified by its message. -/
abbrev GoError := String

/-- Go `json.RawMessage`: the undecoded bytes of one JSON value. -/
abbrev RawMessage := List Nat

/-- Go `string` as Go code can build it: a sequence of bytes, valid UTF-8 or not. -/
abbrev GoString := List Nat

/-- Result of a Go function returning `(T, error)` that may also panic. -/
inductive Res (α : Type) where
  | ok (a : α)
  | err (e : GoError)
  | panic (reason : String)
  deriving DecidableEq, Repr

/-- How a Go function returning `error` ends: it returns (`nil` is `none`) or panics. -/
inductive Completion where
  | returned (e : Option GoError)
  | panicked (reason : String)
  deriving DecidableEq, Repr

/-! ## Frame stripping (`readConn`, `handshake`) -/

/-- The index expression `bits[len(bits)-1]`: panics on an empty slice. -/
def lastByte (bits : List Nat) : Option Nat :=
  if bits.length = 0 then none else bits[bits.length - 1]?

/-- The statement shared by `readConn` (lines 222 to 224) and `handshake`
(lines 264 to 266):
`if bits[len(bits)-1] == messageTerminator { bits = bits[0 : len(bits)-1] }`.
`none` is the index-out-of-range panic. -/
def stripTerminator (bits : List Nat) : Option (List Nat) :=
  match lastByte bits with
  | none => none
  | some b => if b = messageTerminator then some (bits.take (bits.length - 1)) else some bits

/-- What one read of a whole message from the socket gives:
`conn.Reader` followed by `ioutil.ReadAll`. -/
inductive ReadOutcome where
  /-- `conn.Reader` or `ReadAll` returned an error -/
  | fail (e : GoError)
  /-- the bytes of one message -/
  | data (bits : List Nat)
  deriving DecidableEq, Repr

/-- Function `readConn` (lines 208 to 227) on the outcome of the socket read. -/
def readConn : ReadOutcome → Res (List Nat)
  | .fail e => .err e
  | .data bits =>
    match stripTerminator bits with
    | none => .panic "index out of range [-1]"
    | some b => .ok b

/-! ## Envelope and handler (`client.go` lines 56 to 63, `handler.go`) -/

/-- Struct `InvocationMessage` over the representation `σ` of its strings;
field `Type` is `MsgType` here (`Type` is reserved). A nil map is `none`. -/
structure InvocationMessageOf (σ : Type) where
  MsgType : messageType
  Headers : Option (List (σ × σ))
  InvocationID : σ
  Target : σ
  Arguments : List RawMessage
  Error : σ
  deriving DecidableEq, Repr

/-- An `InvocationMessage` as `json.Unmarshal` fills it, the only kind that
`Listen` hands to `dispatch`: the decoder stores valid UTF-8 only, so its
strings are `String`s. A message built by Go code, such as the envelope of
`SendInvocation`, is an `InvocationMessageOf GoString`. -/
abbrev InvocationMessage := InvocationMessageOf String

/-- Go types that occur as parameter types of handler methods. -/
inductive GoType where
  /-- `context.Context` -/
  | context
  /-- `interface{}` -/
  | emptyInterface
  | int
  | string
  | bool
  /-- `[]json.RawMessage` -/
  | rawMessages
  /-- any other type, by name -/
  | named (name : String)
  deriving DecidableEq, Repr

/-- Values passed to handler methods. -/
inductive GoValue where
  /-- the `ctx` of the running `dispatch` call -/
  | ctx
  | int (n : Int)
  | str (s : String)
  | bool (b : Bool)
  | raws (l : List RawMessage)
  /-- a value of another type, described by the type and the JSON it was decoded from -/
  | other (ty : String) (json : RawMessage)
  deriving DecidableEq, Repr

/-- The `reflect.Kind` of a value returned by `Value.Call`. -/
inductive Kind where
  | Bool | Int | Float | String | Struct | Array
  | Chan | Func | Interface | Map | Pointer | Slice
  deriving DecidableEq, Repr

/-- What `dispatch` can observe of a returned `reflect.Value`: its kind, whether
it is nil (for the kinds that can be), and, for a non-nil interface or pointer,
the outcome of `Elem().Interface().(error)` (`some e` when the assertion
succeeds, with `e` the error it yields). -/
structure ReflectValue where
  kind : Kind
  nil : Bool
  elemError : Option GoError
  deriving DecidableEq, Repr

/-- `reflect.Value.IsNil`: panics (`none`) unless the kind is chan, func,
interface, map, pointer or slice. -/
def ReflectValue.IsNil (v : ReflectValue) : Option Bool :=
  match v.kind with
  | .Chan | .Func | .Interface | .Map | .Pointer | .Slice => some v.nil
  | _ => none

/-- `v.Elem().Interface().(error)` for a non-nil `v`: `Elem` panics (`none`)
unless the kind is interface or pointer; otherwise the outcome of the type
assertion. -/
def ReflectValue.ElemAsError (v : ReflectValue) : Option (Option GoError) :=
  match v.kind with
  | .Interface | .Pointer => some v.elemError
  | _ => none

/-- A value of static type `error` as `Value.Call` returns it. -/
def errorValue : Option GoError → ReflectValue
  | none => { kind := .Interface, nil := true, elemError := none }
  | some e => { kind := .Interface, nil := false, elemError := some e }

/-- An exported method of the handler's dynamic type, as reflection sees it:
`ins` are the parameter types after the receiver, so `NumIn() = ins.length + 1`
and `In(k) = ins[k-1]` for `k ≥ 1`; `body` gives the returned values. -/
structure Method where
  name : String
  ins : List GoType
  body : List GoValue → List ReflectValue

/-- `mt.NumIn()` of the method taken from the type: the receiver counts. -/
def Method.NumIn (m : Method) : Nat := m.ins.length + 1

/-- `mt.In(k)`: `none` is the index panic; `In(0)` is the receiver type. -/
def Method.In (m : Method) (k : Nat) : Option GoType :=
  if k = 0 then some (.named "receiver") else m.ins[k - 1]?

/-- A value implementing interface `Handler`: its `Handle` method, and the
exported methods of its dynamic type other than `Handle` and `OnStart`. -/
structure Handler where
  Handle : String → List RawMessage → Option GoError
  methods : List Method

/-- Method `Handle(ctx, target, args) error` as reflection sees it. -/
def Handler.handleMethod (h : Handler) : Method where
  name := "Handle"
  ins := [.context, .string, .rawMessages]
  body := fun args =>
    match args with
    | [.ctx, .str target, .raws a] => [errorValue (h.Handle target a)]
    | _ => []

/-- Method `OnStart()` as reflection sees it. -/
def Handler.onStartMethod : Method where
  name := "OnStart"
  ins := []
  body := fun _ => []

/-- The method set of the handler's dynamic type. -/
def Handler.methodSet (h : Handler) : List Method :=
  h.handleMethod :: Handler.onStartMethod ::
    h.methods.filter (fun m => m.name ≠ "Handle" ∧ m.name ≠ "OnStart")

/-- `reflect.TypeOf(handler).MethodByName(name)`. -/
def Handler.MethodByName (h : Handler) (name : String) : Option Method :=
  h.methodSet.find? (fun m => m.name = name)

/-- Calls into collaborators, in the order they happen. -/
inductive Event where
  /-- `actualTarget.Call(args)`: the method of that name runs with these arguments -/
  | reflectCall (name : String) (args : List GoValue)
  /-- `handler.Handle(ctx, target, args)` -/
  | handleCall (target : String) (args : List RawMessage)
  /-- `handler.OnStart()` -/
  | onStart
  /-- `fmt.Printf("didn't know how to deal with: ...")` -/
  | diagnostic
  /-- `conn.Close(status, reason)` -/
  | connClose (status : Nat) (reason : String)
  deriving DecidableEq, Repr

/-- What a run leaves behind: the calls made and how it ended. -/
structure Outcome where
  trace : List Event
  result : Completion
  deriving DecidableEq, Repr

/-- Type of `json.Unmarshal(raw, &newArgPtr)` where `newArgPtr` holds a fresh
pointer to the given type: the decoded value or the error. -/
abbrev ArgDecoder := GoType → RawMessage → Except GoError GoValue

/-- Outcome of the argument loop of `dispatch` (lines 26 to 36). -/
inductive ArgLoop where
  | decoded (vals : List GoValue)
  | decodeError
  | indexPanic
  deriving DecidableEq, Repr

/-- The loop `for i := 0; i < len(msg.Arguments); i++` from index `i` on, over
the arguments not yet visited. -/
def decodeArgs (unmarshal : ArgDecoder) (m : Method) : Nat → List RawMessage → ArgLoop
  | _, [] => .decoded []
  | i, raw :: rest =>
    match m.In (i + 2) with
    | none => .indexPanic
    | some argType =>
      match unmarshal argType raw with
      | .error _ => .decodeError
      | .ok v =>
        match decodeArgs unmarshal m (i + 1) rest with
        | .decoded vs => .decoded (v :: vs)
        | other => other

/-- `reflect.Value.Call` checks that the first argument, the context, is
assignable to the first parameter. -/
def acceptsContext : Option GoType → Bool
  | some .context => true
  | some .emptyInterface => true
  | _ => false

/-- Lines 40 to 53 of `dispatch`: what becomes of the returned values. -/
def handleReturns (returns : List ReflectValue) : Outcome :=
  match returns with
  | [] => ⟨[], .returned none⟩
  | r :: _ =>
    match r.IsNil with
    | none => ⟨[], .panicked "reflect: call of reflect.Value.IsNil on non-nillable Value"⟩
    | some true => ⟨[], .returned none⟩
    | some false =>
      match r.ElemAsError with
      | none => ⟨[], .panicked "reflect: call of reflect.Value.Elem on non-pointer Value"⟩
      | some (some e) => ⟨[], .returned (some e)⟩
      | some none => ⟨[.diagnostic], .returned none⟩

/-- The fallback `return handler.Handle(ctx, msg.Target, msg.Arguments)`. -/
def fallback (handler : Handler) (msg : InvocationMessage) : Outcome :=
  ⟨[.handleCall msg.Target msg.Arguments], .returned (handler.Handle msg.Target msg.Arguments)⟩

/-- Function `dispatch` (`handler.go` lines 18 to 58). -/
def dispatch (unmarshal : ArgDecoder) (handler : Handler) (msg : InvocationMessage) : Outcome :=
  match handler.MethodByName msg.Target with
  | some method =>
    let numIn := method.NumIn
    if numIn = msg.Arguments.length + 2 ∧ method.name ≠ "Default" then
      match decodeArgs unmarshal method 0 msg.Arguments with
      | .decodeError => fallback handler msg
      | .indexPanic => ⟨[], .panicked "reflect: Func index out of bounds"⟩
      | .decoded vals =>
        let args := GoValue.ctx :: vals
        if acceptsContext (method.In 1) then
          let returns := method.body args
          let o := handleReturns returns
          ⟨.reflectCall msg.Target args :: o.trace, o.result⟩
        else
          ⟨[], .panicked "reflect: Call using context as another type"⟩
    else fallback handler msg
  | none => fallback handler msg

/-- Predicate: an event is the reflective call of a typed operation. -/
def Event.isReflectCall : Event → Bool
  | .reflectCall _ _ => true
  | _ => false

/-- Predicate: an event is the direct call `handler.Handle(...)`. -/
def Event.isHandleCall : Event → Bool
  | .handleCall _ _ => true
  | _ => false

/-- The target and arguments that method `Handle` of the handler receives in
an event, whichever call site reaches it. -/
def Event.handleReceives : Event → Option (String × List RawMessage)
  | .handleCall target args => some (target, args)
  | .reflectCall "Handle" [.ctx, .str target, .raws args] => some (target, args)
  | _ => none

/-! ## The receive loop of `Listen` (`client.go` lines 138 to 162) -/

/-- Type of `json.Unmarshal(bits, &msg)` for `msg InvocationMessage`. -/
abbrev MessageDecoder := List Nat → Except GoError InvocationMessage

/-- `websocket.StatusNormalClosure`. -/
def StatusNormalClosure : Nat := 1000

/-- The error text that `Listen` treats as a clean end. -/
def contextCanceledText : GoError := "failed to get reader: context canceled"

/-- The error of a read that meets the 10 second deadline set by `readConn`. -/
def deadlineExceededText : GoError := "failed to get reader: context deadline exceeded"

/-- The Go conversion `string(msg.Type)` of an integer: the text of that code point. -/
def stringOfInt (n : Int) : String := String.singleton (Char.ofNat n.toNat)

/-- What the loop leaves behind: the calls made, how `Listen` ended, and the
socket reads that were never performed. -/
structure LoopOutcome where
  trace : List Event
  result : Completion
  unread : List ReadOutcome
  deriving DecidableEq, Repr

/-- One pass through the body of the `for` loop on the outcome `r` of the
socket read: `none` when the pass falls through to the next iteration,
otherwise what `Listen` returns with. `closeResult` is what `conn.Close`
reports when it is called. -/
def loopBody (unmarshalMsg : MessageDecoder) (unmarshalArg : ArgDecoder) (handler : Handler)
    (closeResult : Option GoError) (r : ReadOutcome) : Option Outcome :=
  match readConn r with
  | .panic reason => some ⟨[], .panicked reason⟩
  | .err e =>
    if e = contextCanceledText then some ⟨[], .returned none⟩
    else some ⟨[], .returned (some e)⟩
  | .ok bits =>
    match unmarshalMsg bits with
    | .error e => some ⟨[], .returned (some e)⟩
    | .ok msg =>
      if msg.MsgType = pingMessageType then none
      else if msg.MsgType = invocationMessageType then
        some (dispatch unmarshalArg handler msg)
      else if msg.MsgType = streamInvocationMessageType ∨ msg.MsgType = streamItemMessageType
          ∨ msg.MsgType = cancelInvocationMessageType ∨ msg.MsgType = completionMessageType then
        some ⟨[], .returned (some ("unhandled InvocationMessage type: " ++ stringOfInt msg.MsgType))⟩
      else if msg.MsgType = closeMessageType then
        some ⟨[.connClose StatusNormalClosure "received close message from SignalR service"],
          .returned closeResult⟩
      else none

/-- The `for` loop of `Listen` over the successive outcomes of the socket
reads. When the socket has nothing more to deliver, the read ends at the
deadline of `readConn`. -/
def receiveLoop (unmarshalMsg : MessageDecoder) (unmarshalArg : ArgDecoder) (handler : Handler)
    (closeResult : Option GoError) : List ReadOutcome → LoopOutcome
  | [] => ⟨[], .returned (some deadlineExceededText), []⟩
  | r :: rest =>
    match loopBody unmarshalMsg unmarshalArg handler closeResult r with
    | some o => ⟨o.trace, o.result, rest⟩
    | none => receiveLoop unmarshalMsg unmarshalArg handler closeResult rest

/-! ## Negotiation (`client.go` lines 289 to 352) -/

/-- Struct `transport`. -/
structure transport where
  Name : String
  Formats : List String
  deriving DecidableEq, Repr

/-- Struct `negotiateResponse`. -/
structure negotiateResponse where
  ConnectionID : String
  AvailableTransports : List transport
  deriving DecidableEq, Repr

/-- Variable `websocketTransportType`. -/
def websocketTransportType : String := "WebSockets"

/-- Struct `Client`: `connURL` holds `c.connURL.String()`; the socket is not
part of negotiation. -/
structure Client where
  name : String
  hubName : String
  connID : String
  connURL : String
  deriving DecidableEq, Repr

/-- `http.StatusBadRequest`. -/
def StatusBadRequest : Nat := 400

/-- What `client.Do(req)` followed by `ioutil.ReadAll(res.Body)` gives. -/
inductive HttpOutcome where
  /-- `Do` returned an error -/
  | doError (e : GoError)
  /-- a response arrived; `body` is the outcome of reading it -/
  | response (StatusCode : Nat) (Status : String) (body : Except GoError (List Nat))

/-- The HTTP side: whether `http.NewRequest` accepts a URI, and what the
server answers to the POST that follows `n` earlier ones. -/
structure Http where
  NewRequest : String → Option GoError
  Do : Nat → String → HttpOutcome

/-- Type of `json.Unmarshal(bodyBits, &negRes)`. -/
abbrev NegotiateDecoder := List Nat → Except GoError negotiateResponse

/-- Method `getURI`. -/
def Client.getURI (c : Client) : String := c.connURL ++ "/" ++ c.hubName

/-- Method `negotiate` (lines 317 to 352). `sent` lists the URIs of the POST
requests issued so far; the function returns it extended when it issues one. -/
def Client.negotiate (http : Http) (unmarshal : NegotiateDecoder) (c : Client)
    (sent : List String) : Except GoError negotiateResponse × List String :=
  let negotiateURI := c.getURI ++ "/negotiate"
  match http.NewRequest negotiateURI with
  | some e => (.error e, sent)
  | none =>
    match http.Do sent.length negotiateURI with
    | .doError e => (.error e, sent ++ [negotiateURI])
    | .response code status body =>
      match body with
      | .error e => (.error e, sent ++ [negotiateURI])
      | .ok bodyBits =>
        if code ≥ StatusBadRequest then (.error status, sent ++ [negotiateURI])
        else
          match unmarshal bodyBits with
          | .error e => (.error e, sent ++ [negotiateURI])
          | .ok negRes => (.ok negRes, sent ++ [negotiateURI])

/-- The search loop of `negotiateOnce` (lines 299 to 305). -/
def transportFound (trs : List transport) : Bool :=
  trs.any (fun tr => tr.Name = websocketTransportType)

/-- What `negotiateOnce` leaves: the returned error, the client, the requests sent. -/
structure NegotiateOutcome where
  err : Option GoError
  client : Client
  sent : List String
  deriving DecidableEq, Repr

/-- Method `negotiateOnce` (lines 289 to 315); the lock is held throughout. -/
def Client.negotiateOnce (http : Http) (unmarshal : NegotiateDecoder) (c : Client)
    (sent : List String) : NegotiateOutcome :=
  if c.connID = "" then
    match c.negotiate http unmarshal sent with
    | (.error e, sent1) => ⟨some e, c, sent1⟩
    | (.ok res, sent1) =>
      if ¬ transportFound res.AvailableTransports then
        ⟨some "WebSockets transport is not supported by the service", c, sent1⟩
      else
        ⟨none, { c with connID := res.ConnectionID }, sent1⟩
  else ⟨none, c, sent⟩

/-! ## JSON values -/

/-- The text `json.Marshal` returns for a Go value, as its syntax tree. The
library returns valid, compact, HTML-escaped JSON whatever the value (a
built-in type, a `json.Marshaler`, a `json.RawMessage`), and such a text is
the rendering of exactly one tree. A number carries its literal text; a string
and the key of a member carry the bytes between the quotes, escapes as
written. -/
inductive JValue where
  | null
  | bool (b : Bool)
  | number (lit : List Nat)
  | string (body : List Nat)
  | array (items : List JValue)
  | object (fields : List (List Nat × JValue))

/-- The JSON form of a Go `int`. -/
def JValue.ofNat (n : Nat) : JValue := .number ((toString n).toList.map Char.toNat)

/-- The bytes of an ASCII text. -/
def ascii (s : String) : List Nat := s.toList.map Char.toNat

/-- Value of a run of decimal digits, most significant first. -/
def digitsValue : Nat → List Nat → Option Nat
  | acc, [] => some acc
  | acc, d :: ds => if 48 ≤ d ∧ d ≤ 57 then digitsValue (acc * 10 + (d - 48)) ds else none

/-! ## `encoding/json` as the client uses it

The functions of this section model the Go standard library, which is not part
of the repository: `json.Marshal` on the values the client serialises and
`json.Unmarshal` into `InvocationMessage`. Texts are bytes; a decoded Go
`string` is a `String` (a sequence of Unicode scalar values), a Go `string` to
encode is a `GoString`. Error texts of the
library are not reproduced: a syntax error and a type error are told apart,
nothing more. -/

/-- The four JSON white space bytes. -/
def isSpace (b : Nat) : Bool := b = 0x20 ∨ b = 0x09 ∨ b = 0x0A ∨ b = 0x0D

/-- Drop leading white space. -/
def skipSpace : List Nat → List Nat
  | [] => []
  | b :: bs => if isSpace b then skipSpace bs else b :: bs

/-- Predicate: the byte is an ASCII digit. -/
def isDigit (b : Nat) : Bool := 0x30 ≤ b ∧ b ≤ 0x39

/-- Drop leading digits. -/
def skipDigits : List Nat → List Nat
  | [] => []
  | b :: bs => if isDigit b then skipDigits bs else b :: bs

/-- Value of a hexadecimal digit. -/
def hexValue (b : Nat) : Option Nat :=
  if 0x30 ≤ b ∧ b ≤ 0x39 then some (b - 0x30)
  else if 0x61 ≤ b ∧ b ≤ 0x66 then some (b - 0x57)
  else if 0x41 ≤ b ∧ b ≤ 0x46 then some (b - 0x37)
  else none

/-- Value of four hexadecimal digits (`getu4`). -/
def hex4 (a b c d : Nat) : Option Nat :=
  match hexValue a, hexValue b, hexValue c, hexValue d with
  | some x, some y, some z, some w => some (((x * 16 + y) * 16 + z) * 16 + w)
  | _, _, _, _ => none

/-- The lower-case hexadecimal digit of a value below 16. -/
def hexDigit (n : Nat) : Nat := if n < 10 then 0x30 + n else 0x57 + n

/-- The code point `utf8.RuneError`. -/
def runeError : Nat := 0xFFFD

/-- `utf8.EncodeRune` for a character. -/
def utf8EncodeChar (c : Char) : List Nat :=
  let n := c.toNat
  if n < 0x80 then [n]
  else if n < 0x800 then [0xC0 + n / 64, 0x80 + n % 64]
  else if n < 0x10000 then [0xE0 + n / 4096, 0x80 + n / 64 % 64, 0x80 + n % 64]
  else [0xF0 + n / 262144, 0x80 + n / 4096 % 64, 0x80 + n / 64 % 64, 0x80 + n % 64]

/-- Predicate: the byte is a UTF-8 continuation byte. -/
def isCont (b : Nat) : Bool := 0x80 ≤ b ∧ b ≤ 0xBF

/-- `utf8.DecodeRune`: the code point and its width in bytes; an invalid or
incomplete sequence gives `(runeError, 1)`. -/
def decodeRune : List Nat → Nat × Nat
  | [] => (runeError, 0)
  | b0 :: rest =>
    if b0 < 0x80 then (b0, 1)
    else if 0xC2 ≤ b0 ∧ b0 ≤ 0xDF then
      match rest with
      | b1 :: _ => if isCont b1 then ((b0 - 0xC0) * 64 + (b1 - 0x80), 2) else (runeError, 1)
      | _ => (runeError, 1)
    else if 0xE0 ≤ b0 ∧ b0 ≤ 0xEF then
      match rest with
      | b1 :: b2 :: _ =>
        if (if b0 = 0xE0 then 0xA0 else 0x80) ≤ b1 ∧ b1 ≤ (if b0 = 0xED then 0x9F else 0xBF)
            ∧ isCont b2 then
          ((b0 - 0xE0) * 4096 + (b1 - 0x80) * 64 + (b2 - 0x80), 3)
        else (runeError, 1)
      | _ => (runeError, 1)
    else if 0xF0 ≤ b0 ∧ b0 ≤ 0xF4 then
      match rest with
      | b1 :: b2 :: b3 :: _ =>
        if (if b0 = 0xF0 then 0x90 else 0x80) ≤ b1 ∧ b1 ≤ (if b0 = 0xF4 then 0x8F else 0xBF)
            ∧ isCont b2 ∧ isCont b3 then
          ((b0 - 0xF0) * 262144 + (b1 - 0x80) * 4096 + (b2 - 0x80) * 64 + (b3 - 0x80), 4)
        else (runeError, 1)
      | _ => (runeError, 1)
    else (runeError, 1)

/-- How the encoder writes one character of a string (HTML escaping on, as in
`json.Marshal`; the library of the repository's time, which has no short form
for U+0008 and U+000C): quote and backslash with a backslash, line feed, carriage
return and tab by their letter, other control characters and `<`, `>`, `&` as
`\u00XX`, U+2028 and U+2029 as `\u202X`, everything else as its UTF-8 bytes. -/
def escapeChar (c : Char) : List Nat :=
  let n := c.toNat
  if n = 0x22 then [0x5C, 0x22]
  else if n = 0x5C then [0x5C, 0x5C]
  else if n = 0x0A then [0x5C, 0x6E]
  else if n = 0x0D then [0x5C, 0x72]
  else if n = 0x09 then [0x5C, 0x74]
  else if n < 0x20 ∨ n = 0x3C ∨ n = 0x3E ∨ n = 0x26 then
    [0x5C, 0x75, 0x30, 0x30, hexDigit (n / 16), hexDigit (n % 16)]
  else if n = 0x2028 ∨ n = 0x2029 then
    [0x5C, 0x75, 0x32, 0x30, 0x32, hexDigit (n % 16)]
  else utf8EncodeChar c

/-- The characters of a string as the encoder writes them, without the quotes. -/
def escapeChars : List Char → List Nat
  | [] => []
  | c :: cs => escapeChar c ++ escapeChars cs

/-- The JSON string literal the encoder writes for a string of valid UTF-8. -/
def encodeString (s : String) : List Nat := 0x22 :: (escapeChars s.toList ++ [0x22])

/-- The UTF-8 bytes of a sequence of characters. -/
def utf8Chars : List Char → List Nat
  | [] => []
  | c :: cs => utf8EncodeChar c ++ utf8Chars cs

/-- The Go string that holds a text: its UTF-8 bytes. -/
def utf8Bytes (s : String) : GoString := utf8Chars s.toList

/-- How the encoder writes a byte below 0x80 of a string (HTML escaping on;
the library of the repository's time, as for `escapeChar`). -/
def escapeByte (b : Nat) : List Nat :=
  if b = 0x22 then [0x5C, 0x22]
  else if b = 0x5C then [0x5C, 0x5C]
  else if b = 0x0A then [0x5C, 0x6E]
  else if b = 0x0D then [0x5C, 0x72]
  else if b = 0x09 then [0x5C, 0x74]
  else if b < 0x20 ∨ b = 0x3C ∨ b = 0x3E ∨ b = 0x26 then
    [0x5C, 0x75, 0x30, 0x30, hexDigit (b / 16), hexDigit (b % 16)]
  else [b]

/-- The loop of the encoder over the bytes of a Go string (HTML escaping on):
a byte below 0x80 is written by `escapeByte`; otherwise `utf8.DecodeRune`
is applied, an invalid byte is written as `\ufffd`, U+2028 and U+2029 as
`\u202X`, and any other character is copied. Every pass takes at least one
byte, so as many passes as there are bytes suffice. -/
def encodeRunes : Nat → List Nat → List Nat
  | 0, _ => []
  | _ + 1, [] => []
  | fuel + 1, b :: rest =>
    if b < 0x80 then escapeByte b ++ encodeRunes fuel rest
    else if (decodeRune (b :: rest)).1 = runeError ∧ (decodeRune (b :: rest)).2 = 1 then
      [0x5C, 0x75, 0x66, 0x66, 0x66, 0x64] ++ encodeRunes fuel rest
    else if (decodeRune (b :: rest)).1 = 0x2028 ∨ (decodeRune (b :: rest)).1 = 0x2029 then
      [0x5C, 0x75, 0x32, 0x30, 0x32, hexDigit ((decodeRune (b :: rest)).1 % 16)]
        ++ encodeRunes fuel ((b :: rest).drop (decodeRune (b :: rest)).2)
    else
      (b :: rest).take (decodeRune (b :: rest)).2
        ++ encodeRunes fuel ((b :: rest).drop (decodeRune (b :: rest)).2)

/-- `json.Marshal` of a Go string: the JSON string literal. -/
def encodeGoString (s : GoString) : List Nat := 0x22 :: (encodeRunes s.length s ++ [0x22])

/-- The character a one-letter escape stands for (`unquoteBytes`). -/
def simpleEscape (e : Nat) : Option Char :=
  if e = 0x22 then some '"'
  else if e = 0x5C then some '\\'
  else if e = 0x2F then some '/'
  else if e = 0x27 then some (Char.ofNat 0x27)
  else if e = 0x62 then some (Char.ofNat 0x08)
  else if e = 0x66 then some (Char.ofNat 0x0C)
  else if e = 0x6E then some (Char.ofNat 0x0A)
  else if e = 0x72 then some (Char.ofNat 0x0D)
  else if e = 0x74 then some (Char.ofNat 0x09)
  else none

/-- Predicate: a one-letter escape the scanner accepts. -/
def scannerEscape (e : Nat) : Bool :=
  e = 0x22 ∨ e = 0x5C ∨ e = 0x2F ∨ e = 0x62 ∨ e = 0x66 ∨ e = 0x6E ∨ e = 0x72 ∨ e = 0x74

/-- Read one character of a string literal: the character and the bytes after
it. The input does not start with the closing quote. A `\u` escape of a high
surrogate followed by a `\u` escape of a low surrogate is one character; a
lone surrogate and an invalid UTF-8 byte are U+FFFD. -/
def readChar : List Nat → Option (Char × List Nat)
  | [] => none
  | b :: rest =>
    if b = 0x5C then
      match rest with
      | [] => none
      | e :: rest1 =>
        if e = 0x75 then
          match rest1 with
          | h1 :: h2 :: h3 :: h4 :: rest2 =>
            match hex4 h1 h2 h3 h4 with
            | none => none
            | some r =>
              if 0xD800 ≤ r ∧ r < 0xE000 then
                match rest2 with
                | 0x5C :: 0x75 :: g1 :: g2 :: g3 :: g4 :: rest3 =>
                  match hex4 g1 g2 g3 g4 with
                  | some r2 =>
                    if r < 0xDC00 ∧ 0xDC00 ≤ r2 ∧ r2 < 0xE000 then
                      some (Char.ofNat ((r - 0xD800) * 1024 + (r2 - 0xDC00) + 0x10000), rest3)
                    else some (Char.ofNat runeError, rest2)
                  | none => some (Char.ofNat runeError, rest2)
                | _ => some (Char.ofNat runeError, rest2)
              else some (Char.ofNat r, rest2)
          | _ => none
        else if scannerEscape e then
          match simpleEscape e with
          | some c => some (c, rest1)
          | none => none
        else none
    else if b < 0x20 then none
    else if b = 0x22 then none
    else if b < 0x80 then some (Char.ofNat b, rest)
    else
      let d := decodeRune (b :: rest)
      some (Char.ofNat d.1, (b :: rest).drop d.2)

/-- Read a string literal after its opening quote: the characters it denotes
and the bytes after the closing quote. -/
def readString : Nat → List Nat → Option (List Char × List Nat)
  | 0, _ => none
  | fuel + 1, bs =>
    match bs with
    | [] => none
    | b :: rest =>
      if b = 0x22 then some ([], rest)
      else
        match readChar (b :: rest) with
        | none => none
        | some (c, rest1) =>
          match readString fuel rest1 with
          | none => none
          | some (cs, rest2) => some (c :: cs, rest2)

/-- Scan a string literal after its opening quote: the bytes after the closing
quote, `none` when the literal is not closed, holds a control byte or a bad
escape. -/
def scanString : List Nat → Option (List Nat)
  | [] => none
  | b :: rest =>
    if b = 0x22 then some rest
    else if b = 0x5C then
      match rest with
      | [] => none
      | e :: rest1 =>
        if e = 0x75 then
          match rest1 with
          | h1 :: h2 :: h3 :: h4 :: rest2 =>
            if (hex4 h1 h2 h3 h4).isSome then scanString rest2 else none
          | _ => none
        else if scannerEscape e then scanString rest1
        else none
    else if b < 0x20 then none
    else scanString rest

/-- Scan the exponent part of a number, if there is one. -/
def scanExp : List Nat → Option (List Nat)
  | [] => some []
  | e :: r =>
    if e = 0x65 ∨ e = 0x45 then
      match r with
      | [] => none
      | s :: r1 =>
        if s = 0x2B ∨ s = 0x2D then
          match r1 with
          | [] => none
          | d :: r2 => if isDigit d then some (skipDigits r2) else none
        else if isDigit s then some (skipDigits r1)
        else none
    else some (e :: r)

/-- Scan the fraction part of a number, if there is one, then the exponent. -/
def scanFrac : List Nat → Option (List Nat)
  | [] => some []
  | p :: r =>
    if p = 0x2E then
      match r with
      | [] => none
      | d :: r1 => if isDigit d then scanExp (skipDigits r1) else none
    else scanExp (p :: r)

/-- Scan the digits of a number after the optional sign. -/
def scanUnsigned : List Nat → Option (List Nat)
  | [] => none
  | d :: r =>
    if d = 0x30 then scanFrac r
    else if 0x31 ≤ d ∧ d ≤ 0x39 then scanFrac (skipDigits r)
    else none

/-- Scan a JSON number: the bytes after it. -/
def scanNumber : List Nat → Option (List Nat)
  | [] => none
  | b :: r => if b = 0x2D then scanUnsigned r else scanUnsigned (b :: r)

/-- Scan `true`, `false`, `null` or a number: the bytes after it. -/
def scanLiteral (bs : List Nat) : Option (List Nat) :=
  if [0x74, 0x72, 0x75, 0x65].isPrefixOf bs then some (bs.drop 4)
  else if [0x66, 0x61, 0x6C, 0x73, 0x65].isPrefixOf bs then some (bs.drop 5)
  else if [0x6E, 0x75, 0x6C, 0x6C].isPrefixOf bs then some (bs.drop 4)
  else scanNumber bs

mutual
/-- Scan one JSON value at the head of the input (no leading white space):
the bytes after it, `none` on a syntax error. -/
def scanValue : Nat → List Nat → Option (List Nat)
  | 0, _ => none
  | fuel + 1, bs =>
    match bs with
    | [] => none
    | b :: rest =>
      if b = 0x22 then scanString rest
      else if b = 0x5B then
        match skipSpace rest with
        | [] => none
        | c :: rest1 => if c = 0x5D then some rest1 else scanElements fuel (c :: rest1)
      else if b = 0x7B then
        match skipSpace rest with
        | [] => none
        | c :: rest1 => if c = 0x7D then some rest1 else scanMembers fuel (c :: rest1)
      else scanLiteral (b :: rest)
/-- Scan the elements of a non-empty array from the head of an element on. -/
def scanElements : Nat → List Nat → Option (List Nat)
  | 0, _ => none
  | fuel + 1, bs =>
    match scanValue fuel bs with
    | none => none
    | some rest =>
      match skipSpace rest with
      | [] => none
      | c :: rest1 =>
        if c = 0x2C then scanElements fuel (skipSpace rest1)
        else if c = 0x5D then some rest1
        else none
/-- Scan the members of a non-empty object from the head of a key on. -/
def scanMembers : Nat → List Nat → Option (List Nat)
  | 0, _ => none
  | fuel + 1, bs =>
    match bs with
    | [] => none
    | q :: r =>
      if q = 0x22 then
        match scanString r with
        | none => none
        | some r1 =>
          match skipSpace r1 with
          | [] => none
          | c :: r2 =>
            if c = 0x3A then
              match scanValue fuel (skipSpace r2) with
              | none => none
              | some r3 =>
                match skipSpace r3 with
                | [] => none
                | s :: r4 =>
                  if s = 0x2C then scanMembers fuel (skipSpace r4)
                  else if s = 0x7D then some r4
                  else none
            else none
      else none
end

/-- The bytes of `bs` in front of its suffix `rest`. -/
def spanBefore (bs rest : List Nat) : List Nat := bs.take (bs.length - rest.length)

/-- `checkValid`: the text is one JSON value, white space around it allowed. -/
def validJSON (bits : List Nat) : Bool :=
  match scanValue (bits.length + 1) (skipSpace bits) with
  | none => false
  | some rest => skipSpace rest = []

/-! ### Encoding -/

/-- Predicate: the text starts with the last two bytes of U+2028 or U+2029. -/
def lineSeparatorTail : List Nat → Bool
  | b1 :: b2 :: _ => b1 = 0x80 ∧ (b2 = 0xA8 ∨ b2 = 0xA9)
  | _ => false

/-- A string literal: the body between two quotes. -/
def quoted (body : List Nat) : List Nat := 0x22 :: (body ++ [0x22])

mutual
/-- The compact text `json.Marshal` writes for a value. -/
def JValue.render : JValue → List Nat
  | .null => [0x6E, 0x75, 0x6C, 0x6C]
  | .bool true => [0x74, 0x72, 0x75, 0x65]
  | .bool false => [0x66, 0x61, 0x6C, 0x73, 0x65]
  | .number lit => lit
  | .string body => quoted body
  | .array items => 0x5B :: (JValue.renderItems items ++ [0x5D])
  | .object fields => 0x7B :: (JValue.renderFields fields ++ [0x7D])
/-- The elements of an array, separated by commas. -/
def JValue.renderItems : List JValue → List Nat
  | [] => []
  | v :: rest =>
    match rest with
    | [] => JValue.render v
    | _ :: _ => JValue.render v ++ 0x2C :: JValue.renderItems rest
/-- The members of an object, separated by commas. -/
def JValue.renderFields : List (List Nat × JValue) → List Nat
  | [] => []
  | (k, v) :: rest =>
    match rest with
    | [] => quoted k ++ 0x3A :: JValue.render v
    | _ :: _ => quoted k ++ 0x3A :: JValue.render v ++ 0x2C :: JValue.renderFields rest
end

/-- Predicate: the bytes between the quotes of a string literal of a compact,
HTML-escaped text. A backslash starts one of the escapes of JSON; no control
byte, quote, `<`, `>` or `&` stands for itself, nor do the three bytes of
U+2028 or U+2029; every other byte may occur, valid UTF-8 or not. -/
def literalBody : List Nat → Bool
  | [] => true
  | b :: rest =>
    if b = 0x5C then
      match rest with
      | [] => false
      | e :: rest1 =>
        if e = 0x75 then
          match rest1 with
          | h1 :: h2 :: h3 :: h4 :: rest2 => (hex4 h1 h2 h3 h4).isSome && literalBody rest2
          | _ => false
        else scannerEscape e && literalBody rest1
    else if b < 0x20 ∨ b = 0x22 ∨ b = 0x3C ∨ b = 0x3E ∨ b = 0x26 then false
    else if b = 0xE2 ∧ lineSeparatorTail rest then false
    else literalBody rest

mutual
/-- Well-formed tree: every number literal is a JSON number, every string and
key is the body of a string literal. -/
def JValue.wf : JValue → Bool
  | .number lit => scanNumber lit = some []
  | .string body => literalBody body
  | .array items => JValue.wfItems items
  | .object fields => JValue.wfFields fields
  | _ => true
/-- Well-formed elements. -/
def JValue.wfItems : List JValue → Bool
  | [] => true
  | v :: rest => JValue.wf v && JValue.wfItems rest
/-- Well-formed members. -/
def JValue.wfFields : List (List Nat × JValue) → Bool
  | [] => true
  | (k, v) :: rest => literalBody k && JValue.wf v && JValue.wfFields rest
end

/-! ### Compaction of a raw message -/

/-- Where the scanner is while it walks over a valid text: outside a string,
inside one, or right after a backslash inside one. -/
inductive ScanMode where
  | out | str | esc
  deriving DecidableEq, Repr

/-- The mode after a byte. -/
def ScanMode.next (m : ScanMode) (b : Nat) : ScanMode :=
  match m with
  | .out => if b = 0x22 then .str else .out
  | .str => if b = 0x5C then .esc else if b = 0x22 then .out else .str
  | .esc => .str

/-- `compact` with HTML escaping on a valid text, byte by byte: `<`, `>`, `&`
become `\u00XX`, the three bytes of U+2028 and U+2029 become `\u202X` (the
two bytes that follow are passed over, `skip` counts them), white space
outside strings is dropped and every other byte is copied. -/
def compactText : Nat → ScanMode → List Nat → List Nat
  | _, _, [] => []
  | skip + 1, m, _ :: bs => compactText skip m bs
  | 0, m, b :: bs =>
    if b = 0x3C ∨ b = 0x3E ∨ b = 0x26 then
      0x5C :: 0x75 :: 0x30 :: 0x30 :: hexDigit (b / 16) :: hexDigit (b % 16)
        :: compactText 0 (m.next b) bs
    else if b = 0xE2 ∧ lineSeparatorTail bs then
      0x5C :: 0x75 :: 0x32 :: 0x30 :: 0x32 :: hexDigit ((bs.getD 1 0) % 16)
        :: compactText 2 m bs
    else if m = .out ∧ isSpace b then compactText 0 .out bs
    else b :: compactText 0 (m.next b) bs

/-- What `json.Marshal` writes for a `json.RawMessage`: the compacted text,
or an error when the text is not valid JSON. -/
def compactRaw (raw : RawMessage) : Except GoError (List Nat) :=
  if validJSON raw then .ok (compactText 0 .out raw)
  else .error "json: error calling MarshalJSON for type json.RawMessage"

/-- Marshal each raw message of a slice, stopping at the first error. -/
def compactAll : List RawMessage → Except GoError (List (List Nat))
  | [] => .ok []
  | raw :: rest =>
    match compactRaw raw with
    | .error e => .error e
    | .ok text =>
      match compactAll rest with
      | .error e => .error e
      | .ok more => .ok (text :: more)

/-! ### Marshalling the envelope -/

/-- The decimal text of a Go `int`. -/
def renderInt (n : Int) : List Nat := (toString n).toList.map Char.toNat

/-- Join texts with commas. -/
def joinComma : List (List Nat) → List Nat
  | [] => []
  | x :: rest =>
    match rest with
    | [] => x
    | _ :: _ => x ++ 0x2C :: joinComma rest

/-- The members of a `map[string]string`, keys in increasing order of their bytes. -/
def renderHeaders (h : List (GoString × GoString)) : List Nat :=
  0x7B :: (joinComma ((h.insertionSort (fun a b => ¬ (b.1 < a.1))).map
    (fun kv => encodeGoString kv.1 ++ 0x3A :: encodeGoString kv.2)) ++ [0x7D])

/-- `json.Marshal` of an `InvocationMessage`, field by field as the struct
tags direct: `type`, `headers`, `invocationId` and `error` are left out when
empty, `target` and `arguments` are always written. Each raw argument is
written compacted and must be valid JSON, or the call fails. The slice of
arguments is not nil. -/
def marshalMessage (msg : InvocationMessageOf GoString) : Except GoError (List Nat) :=
  match compactAll msg.Arguments with
  | .error e => .error e
  | .ok texts =>
    .ok (0x7B :: (joinComma (
      (if msg.MsgType = 0 then [] else [ascii "\"type\":" ++ renderInt msg.MsgType]) ++
      (match msg.Headers with
        | some (kv :: more) => [ascii "\"headers\":" ++ renderHeaders (kv :: more)]
        | _ => []) ++
      (if msg.InvocationID = [] then []
        else [ascii "\"invocationId\":" ++ encodeGoString msg.InvocationID]) ++
      [ascii "\"target\":" ++ encodeGoString msg.Target] ++
      [ascii "\"arguments\":" ++ 0x5B :: (joinComma texts ++ [0x5D])] ++
      (if msg.Error = [] then [] else [ascii "\"error\":" ++ encodeGoString msg.Error]))
      ++ [0x7D]))

/-! ### Unmarshalling the envelope -/

/-- The kinds of JSON value, told apart by the first byte of a valid text. -/
inductive ValueKind where
  | null | bool | number | string | array | object
  deriving DecidableEq, Repr

/-- The kind of a valid JSON text. -/
def kindOf : List Nat → ValueKind
  | [] => .number
  | b :: _ =>
    if b = 0x6E then .null
    else if b = 0x74 ∨ b = 0x66 then .bool
    else if b = 0x22 then .string
    else if b = 0x5B then .array
    else if b = 0x7B then .object
    else .number

/-- The error for a JSON value that does not fit the Go type. -/
def typeError : GoError := "json: cannot unmarshal value into Go value"

/-- The error for a text that is not valid JSON. -/
def syntaxError : GoError := "json: syntax error"

/-- A number text as a Go `int` (`strconv.ParseInt`, 64 bits): digits only. -/
def parseInt : List Nat → Option Int
  | [] => none
  | b :: r =>
    if b = 0x2D then
      match r, digitsValue 0 r with
      | _ :: _, some n => if n ≤ 2 ^ 63 then some (- (n : Int)) else none
      | _, _ => none
    else
      match digitsValue 0 (b :: r) with
      | some n => if n < 2 ^ 63 then some (n : Int) else none
      | none => none

/-- Case folding under which a key selects a struct field: ASCII letters
without regard to case, and the two characters that fold to `s` and `k`. -/
def foldChar (c : Char) : Char :=
  if 0x41 ≤ c.toNat ∧ c.toNat ≤ 0x5A then Char.ofNat (c.toNat + 32)
  else if c.toNat = 0x17F then 's'
  else if c.toNat = 0x212A then 'k'
  else c

/-- The fields of `InvocationMessage` by their JSON names. -/
inductive Field where
  | type | headers | invocationId | target | arguments | error
  deriving DecidableEq, Repr

/-- The field a key of the object selects, if any. -/
def fieldOf (key : List Char) : Option Field :=
  let k := key.map foldChar
  if k = "type".toList then some .type
  else if k = "headers".toList then some .headers
  else if k = "invocationid".toList then some .invocationId
  else if k = "target".toList then some .target
  else if k = "arguments".toList then some .arguments
  else if k = "error".toList then some .error
  else none

/-- Walk the members of a non-empty object from the head of a key on, handing
each key and the text of its value to `set`. -/
def decodeMembers {σ : Type} (set : σ → List Char → List Nat → Except GoError σ) :
    Nat → List Nat → σ → Except GoError σ
  | 0, _, _ => .error syntaxError
  | fuel + 1, bs, st =>
    match bs with
    | [] => .error syntaxError
    | q :: r =>
      if q = 0x22 then
        match readString fuel r with
        | none => .error syntaxError
        | some (key, r1) =>
          match skipSpace r1 with
          | [] => .error syntaxError
          | c :: r2 =>
            if c = 0x3A then
              match scanValue fuel (skipSpace r2) with
              | none => .error syntaxError
              | some r3 =>
                match set st key (spanBefore (skipSpace r2) r3) with
                | .error e => .error e
                | .ok st1 =>
                  match skipSpace r3 with
                  | [] => .error syntaxError
                  | s :: r4 =>
                    if s = 0x2C then decodeMembers set fuel (skipSpace r4) st1
                    else if s = 0x7D then .ok st1
                    else .error syntaxError
            else .error syntaxError
      else .error syntaxError

/-- Decode the text of an object. -/
def decodeObject {σ : Type} (set : σ → List Char → List Nat → Except GoError σ)
    (text : List Nat) (init : σ) : Except GoError σ :=
  match text with
  | [] => .error syntaxError
  | b :: rest =>
    if b = 0x7B then
      match skipSpace rest with
      | [] => .error syntaxError
      | c :: rest1 =>
        if c = 0x7D then .ok init else decodeMembers set (text.length + 1) (c :: rest1) init
    else .error typeError

/-- Decode the text of a string into the Go string it denotes. -/
def decodeString (text : List Nat) : Option String :=
  match text with
  | [] => none
  | _ :: rest => (readString (text.length + 1) rest).map (fun p => String.mk p.1)

/-- Store a member of the `headers` object in the map. -/
def setHeader (m : List (String × String)) (key : List Char) (text : List Nat) :
    Except GoError (List (String × String)) :=
  match kindOf text with
  | .null => .ok ((m.filter (fun kv => kv.1 ≠ String.mk key)) ++ [(String.mk key, "")])
  | .string =>
    match decodeString text with
    | some v => .ok ((m.filter (fun kv => kv.1 ≠ String.mk key)) ++ [(String.mk key, v)])
    | none => .error syntaxError
  | _ => .error typeError

/-- The texts of the elements of a non-empty array, from the head of an
element on. -/
def decodeElements : Nat → List Nat → Option (List RawMessage)
  | 0, _ => none
  | fuel + 1, bs =>
    match scanValue fuel bs with
    | none => none
    | some rest =>
      match skipSpace rest with
      | [] => none
      | c :: rest1 =>
        if c = 0x2C then
          (decodeElements fuel (skipSpace rest1)).map (fun more => spanBefore bs rest :: more)
        else if c = 0x5D then some [spanBefore bs rest]
        else none

/-- Decode the text of an array into `[]json.RawMessage`. -/
def decodeRawArray (text : List Nat) : Option (List RawMessage) :=
  match text with
  | [] => none
  | _ :: rest =>
    match skipSpace rest with
    | [] => none
    | c :: rest1 => if c = 0x5D then some [] else decodeElements (text.length + 1) (c :: rest1)

/-- `json.Unmarshal(raw, &newArgPtr)` where `newArgPtr` holds a fresh pointer to
a value of the given type, for the parameter types `int`, `string`, `bool`,
`[]json.RawMessage` and `interface{}`: the text is checked as a whole, `null`
leaves the zero value, a value of the fitting kind is stored and any other
kind is a type error. For every other parameter type the outcome depends on
the declaration of the type, which is not known here: a type error is
reported. -/
def unmarshalArg : ArgDecoder := fun ty raw =>
  if validJSON raw then
    match scanValue (raw.length + 1) (skipSpace raw) with
    | none => .error syntaxError
    | some rest =>
      let text := spanBefore (skipSpace raw) rest
      match ty, kindOf text with
      | .int, .null => .ok (.int 0)
      | .int, .number =>
        match parseInt text with
        | some n => .ok (.int n)
        | none => .error typeError
      | .string, .null => .ok (.str "")
      | .string, .string =>
        match decodeString text with
        | some v => .ok (.str v)
        | none => .error syntaxError
      | .bool, .null => .ok (.bool false)
      | .bool, .bool => .ok (.bool (text = ascii "true"))
      | .rawMessages, .null => .ok (.raws [])
      | .rawMessages, .array =>
        match decodeRawArray text with
        | some l => .ok (.raws l)
        | none => .error syntaxError
      | .emptyInterface, _ => .ok (.other "interface" text)
      | _, _ => .error typeError
  else .error syntaxError

/-- Store the value of one member of the envelope object. A key that selects
no field is skipped; `null` leaves a number or string field as it is and
makes the map or the slice nil. -/
def setField (msg : InvocationMessage) (key : List Char) (text : List Nat) :
    Except GoError InvocationMessage :=
  match fieldOf key with
  | none => .ok msg
  | some .type =>
    match kindOf text with
    | .null => .ok msg
    | .number =>
      match parseInt text with
      | some n => .ok { msg with MsgType := n }
      | none => .error typeError
    | _ => .error typeError
  | some .headers =>
    match kindOf text with
    | .null => .ok { msg with Headers := none }
    | .object =>
      match decodeObject setHeader text (msg.Headers.getD []) with
      | .ok m => .ok { msg with Headers := some m }
      | .error e => .error e
    | _ => .error typeError
  | some .invocationId =>
    match kindOf text with
    | .null => .ok msg
    | .string =>
      match decodeString text with
      | some v => .ok { msg with InvocationID := v }
      | none => .error syntaxError
    | _ => .error typeError
  | some .target =>
    match kindOf text with
    | .null => .ok msg
    | .string =>
      match decodeString text with
      | some v => .ok { msg with Target := v }
      | none => .error syntaxError
    | _ => .error typeError
  | some .arguments =>
    match kindOf text with
    | .null => .ok { msg with Arguments := [] }
    | .array =>
      match decodeRawArray text with
      | some l => .ok { msg with Arguments := l }
      | none => .error syntaxError
    | _ => .error typeError
  | some .error =>
    match kindOf text with
    | .null => .ok msg
    | .string =>
      match decodeString text with
      | some v => .ok { msg with Error := v }
      | none => .error syntaxError
    | _ => .error typeError

/-- The zero value of `InvocationMessage` (`var msg InvocationMessage`). -/
def zeroMessage : InvocationMessage :=
  { MsgType := 0, Headers := none, InvocationID := "", Target := "", Arguments := [],
    Error := "" }

/-- `json.Unmarshal(bits, &msg)` for a zero `msg InvocationMessage`: the text is
checked as a whole first, then an object is decoded member by member; `null`
leaves the message as it is and any other value is a type error. -/
def unmarshalMessage : MessageDecoder := fun bits =>
  if validJSON bits then
    match kindOf (skipSpace bits) with
    | .null => .ok zeroMessage
    | .object => decodeObject setField (skipSpace bits) zeroMessage
    | _ => .error typeError
  else .error syntaxError

/-! ### Unmarshalling the handshake and negotiate responses -/

/-- Struct `handshakeResponse`. -/
structure handshakeResponse where
  Error : String
  deriving DecidableEq, Repr

/-- Type of `json.Unmarshal(bits, &hsRes)`. -/
abbrev HandshakeDecoder := List Nat → Except GoError handshakeResponse

/-- Decode the text of a string field: `null` leaves the field as it is. -/
def decodeStringField (old : String) (text : List Nat) : Except GoError String :=
  match kindOf text with
  | .null => .ok old
  | .string =>
    match decodeString text with
    | some v => .ok v
    | none => .error syntaxError
  | _ => .error typeError

/-- Store the value of one member of the handshake response object. -/
def setHandshakeField (r : handshakeResponse) (key : List Char) (text : List Nat) :
    Except GoError handshakeResponse :=
  if key.map foldChar = "error".toList then
    match decodeStringField r.Error text with
    | .ok v => .ok { r with Error := v }
    | .error e => .error e
  else .ok r

/-- `json.Unmarshal(bits, &hsRes)` for a zero `hsRes handshakeResponse`. -/
def unmarshalHandshake : HandshakeDecoder := fun bits =>
  if validJSON bits then
    match kindOf (skipSpace bits) with
    | .null => .ok { Error := "" }
    | .object => decodeObject setHandshakeField (skipSpace bits) { Error := "" }
    | _ => .error typeError
  else .error syntaxError

/-- Decode the texts of the elements of an array of strings. -/
def decodeStrings : List RawMessage → Except GoError (List String)
  | [] => .ok []
  | text :: rest =>
    match decodeStringField "" text with
    | .error e => .error e
    | .ok v =>
      match decodeStrings rest with
      | .error e => .error e
      | .ok more => .ok (v :: more)

/-- Store the value of one member of a transport object. -/
def setTransportField (t : transport) (key : List Char) (text : List Nat) :
    Except GoError transport :=
  if key.map foldChar = "transport".toList then
    match decodeStringField t.Name text with
    | .ok v => .ok { t with Name := v }
    | .error e => .error e
  else if key.map foldChar = "transportformats".toList then
    match kindOf text with
    | .null => .ok { t with Formats := [] }
    | .array =>
      match decodeRawArray text with
      | none => .error syntaxError
      | some texts =>
        match decodeStrings texts with
        | .ok l => .ok { t with Formats := l }
        | .error e => .error e
    | _ => .error typeError
  else .ok t

/-- Decode the text of one element of the array of transports. -/
def decodeTransport (text : List Nat) : Except GoError transport :=
  match kindOf text with
  | .null => .ok { Name := "", Formats := [] }
  | .object => decodeObject setTransportField text { Name := "", Formats := [] }
  | _ => .error typeError

/-- Decode the texts of the elements of an array of transports. -/
def decodeTransports : List RawMessage → Except GoError (List transport)
  | [] => .ok []
  | text :: rest =>
    match decodeTransport text with
    | .error e => .error e
    | .ok t =>
      match decodeTransports rest with
      | .error e => .error e
      | .ok more => .ok (t :: more)

/-- Store the value of one member of the negotiate response object. -/
def setNegotiateField (r : negotiateResponse) (key : List Char) (text : List Nat) :
    Except GoError negotiateResponse :=
  if key.map foldChar = "connectionid".toList then
    match decodeStringField r.ConnectionID text with
    | .ok v => .ok { r with ConnectionID := v }
    | .error e => .error e
  else if key.map foldChar = "availabletransports".toList then
    match kindOf text with
    | .null => .ok { r with AvailableTransports := [] }
    | .array =>
      match decodeRawArray text with
      | none => .error syntaxError
      | some texts =>
        match decodeTransports texts with
        | .ok l => .ok { r with AvailableTransports := l }
        | .error e => .error e
    | _ => .error typeError
  else .ok r

/-- `json.Unmarshal(bodyBits, &negRes)` for a zero `negRes negotiateResponse`. -/
def unmarshalNegotiate : NegotiateDecoder := fun bits =>
  if validJSON bits then
    match kindOf (skipSpace bits) with
    | .null => .ok { ConnectionID := "", AvailableTransports := [] }
    | .object =>
      decodeObject setNegotiateField (skipSpace bits)
        { ConnectionID := "", AvailableTransports := [] }
    | _ => .error typeError
  else .error syntaxError

/-! ## Sending (`client.go` lines 168 to 202) -/

/-- An argument handed to `SendInvocation`, by what `json.Marshal` does with
it: a value for which the encoder writes the text of the given tree; a
`json.RawMessage` that is not nil, or a `json.Marshaler` that returns the given
text, which the encoder checks and compacts; or a value it rejects with the
given error (a channel, a function, a failing `Marshaler`). -/
inductive Arg where
  | value (v : JValue)
  | raw (text : RawMessage)
  | unsupported (e : GoError)

/-- `json.Marshal(args[i])`. A tree that is not well formed is no text the
encoder writes: the call is counted as failed. -/
def marshalArg : Arg → Except GoError RawMessage
  | .value v => if v.wf then .ok v.render else .error "json: invalid text"
  | .raw text => compactRaw text
  | .unsupported e => .error e

/-- The loop of `SendInvocation` over the arguments (lines 170 to 176). -/
def marshalArgs : List Arg → Except GoError (List RawMessage)
  | [] => .ok []
  | a :: rest =>
    match marshalArg a with
    | .error e => .error e
    | .ok bits =>
      match marshalArgs rest with
      | .error e => .error e
      | .ok more => .ok (bits :: more)

/-- The socket of a connected client as `SendInvocation` and `handshake` use
it: what `conn.Writer`, the writer's `Write` and its `Close` report. -/
structure ConnWriter where
  Writer : Option GoError
  Write : List Nat → Option GoError
  Close : Option GoError

/-- What `SendInvocation` leaves: the buffers handed to `Write`, and the
returned error. -/
structure SendOutcome where
  written : List (List Nat)
  result : Option GoError
  deriving DecidableEq, Repr

/-- The envelope `SendInvocation` builds (lines 178 to 182). -/
def sendEnvelope (target : GoString) (jsonArgs : List RawMessage) :
    InvocationMessageOf GoString :=
  { MsgType := invocationMessageType, Headers := none, InvocationID := [], Target := target,
    Arguments := jsonArgs, Error := [] }

/-- A decoded message as the Go value it is: every string by its UTF-8 bytes. -/
def InvocationMessageOf.toGo (m : InvocationMessageOf String) : InvocationMessageOf GoString :=
  { MsgType := m.MsgType,
    Headers := m.Headers.map (fun h => h.map (fun kv => (utf8Bytes kv.1, utf8Bytes kv.2))),
    InvocationID := utf8Bytes m.InvocationID, Target := utf8Bytes m.Target,
    Arguments := m.Arguments, Error := utf8Bytes m.Error }

/-- Method `SendInvocation`. -/
def SendInvocation (conn : ConnWriter) (target : GoString) (args : List Arg) : SendOutcome :=
  match marshalArgs args with
  | .error e => ⟨[], some e⟩
  | .ok jsonArgs =>
    match marshalMessage (sendEnvelope target jsonArgs) with
    | .error e => ⟨[], some e⟩
    | .ok bits =>
      match conn.Writer with
      | some e => ⟨[], some e⟩
      | none =>
        match conn.Write (bits ++ [messageTerminator]) with
        | some e => ⟨[bits ++ [messageTerminator]], some e⟩
        | none =>
          match conn.Close with
          | some e => ⟨[bits ++ [messageTerminator]], some e⟩
          | none => ⟨[bits ++ [messageTerminator]], none⟩

/-! ## Handshake and `Listen` (`client.go` lines 109 to 166 and 229 to 277) -/

/-- The text `json.Marshal(hsReq)` gives for the fixed handshake request. -/
def handshakeRequestText : List Nat := ascii "\x7b\"protocol\":\"json\",\"version\":1\x7d"

/-- What `handshake` leaves: the buffers handed to `Write` and how it ended. -/
structure HandshakeOutcome where
  written : List (List Nat)
  result : Completion
  deriving DecidableEq, Repr

/-- Method `handshake` (lines 229 to 277): `conn` is what the socket reports
for the write of the request, `read` what `conn.Reader` and `ReadAll` give for
the response. -/
def handshake (unmarshal : HandshakeDecoder) (conn : ConnWriter) (read : ReadOutcome) :
    HandshakeOutcome :=
  match conn.Writer with
  | some e => ⟨[], .returned (some e)⟩
  | none =>
    match conn.Write (handshakeRequestText ++ [messageTerminator]) with
    | some e => ⟨[handshakeRequestText ++ [messageTerminator]], .returned (some e)⟩
    | none =>
      match conn.Close with
      | some e => ⟨[handshakeRequestText ++ [messageTerminator]], .returned (some e)⟩
      | none =>
        match read with
        | .fail e => ⟨[handshakeRequestText ++ [messageTerminator]], .returned (some e)⟩
        | .data bits =>
          match stripTerminator bits with
          | none =>
            ⟨[handshakeRequestText ++ [messageTerminator]], .panicked "index out of range [-1]"⟩
          | some stripped =>
            match unmarshal stripped with
            | .error e => ⟨[handshakeRequestText ++ [messageTerminator]], .returned (some e)⟩
            | .ok hsRes =>
              if hsRes.Error ≠ "" then
                ⟨[handshakeRequestText ++ [messageTerminator]], .returned (some hsRes.Error)⟩
              else ⟨[handshakeRequestText ++ [messageTerminator]], .returned none⟩

/-- `strings.Replace(s, old, new, 1)` on the characters of `s`, for a
non-empty `old`. -/
def replaceFirst (old new : List Char) : List Char → List Char
  | [] => []
  | c :: cs =>
    if old.isPrefixOf (c :: cs) then new ++ (c :: cs).drop old.length
    else c :: replaceFirst old new cs

/-- Method `getWssURI`. -/
def Client.getWssURI (c : Client) : String :=
  String.mk (replaceFirst "https://".toList "wss://".toList c.getURI.toList) ++ "?id=" ++ c.connID

/-- The four uses of `json.Unmarshal` in the package. -/
structure Decoders where
  negotiate : NegotiateDecoder
  handshake : HandshakeDecoder
  message : MessageDecoder
  argument : ArgDecoder

/-- The decoders of the model of `encoding/json`. -/
def goJSON : Decoders := ⟨unmarshalNegotiate, unmarshalHandshake, unmarshalMessage, unmarshalArg⟩

/-- What the collaborators do during one call of `Listen`: the HTTP side,
what `websocket.Dial` reports for a URI, the socket during the handshake,
whether the context is done when `Listen` reaches its `select`, the reads the
socket then delivers and what `conn.Close` reports. -/
structure ListenEnv where
  http : Http
  Dial : String → Option GoError
  writer : ConnWriter
  handshakeRead : ReadOutcome
  ctxDone : Bool
  reads : List ReadOutcome
  closeResult : Option GoError

/-- What `Listen` leaves: the calls made, how it ended, the client, whether
`c.conn` was set, the negotiate requests sent, the URIs dialled, the buffers
written and the reads never performed. -/
structure ListenOutcome where
  trace : List Event
  result : Completion
  client : Client
  connSet : Bool
  sent : List String
  dialled : List String
  written : List (List Nat)
  unread : List ReadOutcome
  deriving DecidableEq, Repr

/-- Method `Listen` (lines 109 to 166) for a non-nil handler; `sent` lists the
negotiate requests issued before the call. -/
def Client.Listen (dec : Decoders) (env : ListenEnv) (c : Client) (handler : Handler)
    (sent : List String) : ListenOutcome :=
  match c.negotiateOnce env.http dec.negotiate sent with
  | ⟨some e, c1, sent1⟩ => ⟨[], .returned (some e), c1, false, sent1, [], [], env.reads⟩
  | ⟨none, c1, sent1⟩ =>
    match env.Dial c1.getWssURI with
    | some e => ⟨[], .returned (some e), c1, false, sent1, [c1.getWssURI], [], env.reads⟩
    | none =>
      match handshake dec.handshake env.writer env.handshakeRead with
      | ⟨written, .panicked reason⟩ =>
        ⟨[], .panicked reason, c1, false, sent1, [c1.getWssURI], written, env.reads⟩
      | ⟨written, .returned (some e)⟩ =>
        ⟨[], .returned (some e), c1, false, sent1, [c1.getWssURI], written, env.reads⟩
      | ⟨written, .returned none⟩ =>
        if env.ctxDone then
          ⟨[], .returned none, c1, false, sent1, [c1.getWssURI], written, env.reads⟩
        else
          match receiveLoop dec.message dec.argument handler env.closeResult env.reads with
          | ⟨trace, result, unread⟩ =>
            ⟨.onStart :: trace, result, c1, true, sent1, [c1.getWssURI], written, unread⟩

/-! ## The template handler (`handlers/template.go`) -/

/-- Type `HandlerFunc` with the context left out: target and arguments to an error. -/
abbrev HandlerFunc := String → List JValue → Option GoError

/-- Function `defaultField` of the template handler. -/
def defaultField : List (List Nat) :=
  [ [1, 0, 0, 1, 0, 0, 0, 0, 1, 1],
    [1, 0, 0, 1, 0, 0, 0, 0, 0, 0],
    [0, 0, 0, 0, 0, 0, 0, 0, 0, 0],
    [0, 1, 0, 0, 0, 0, 1, 1, 0, 0],
    [0, 1, 0, 0, 0, 0, 0, 0, 0, 0],
    [0, 0, 0, 0, 0, 0, 0, 1, 1, 0],
    [0, 0, 0, 1, 1, 0, 0, 0, 0, 0],
    [0, 1, 0, 0, 0, 0, 0, 0, 0, 0],
    [0, 1, 0, 1, 0, 1, 0, 0, 0, 0],
    [0, 0, 0, 1, 0, 1, 0, 0, 0, 0] ]

/-- The JSON form of a `[][]int`. -/
def JValue.ofField (field : List (List Nat)) : JValue :=
  .array (field.map (fun row => .array (row.map JValue.ofNat)))

/-- Type `templateHandler`: its method `Handle` (`template.go` lines 22 to 31)
with `invoke` the stored `HandlerFunc`; `Handle` and `OnStart` are its only
methods. -/
def templateHandler (invoke : HandlerFunc) : Handler where
  Handle := fun target _ =>
    if target = "requestArrangement" then invoke "ReceiveArrangement" [JValue.ofField defaultField]
    else if target = "requestStep" then invoke "ReceiveStep" [JValue.ofNat 1, JValue.ofNat 0]
    else none
  methods := []

/-! ## Concrete collaborators used in the examples -/

/-- A handler with one typed operation `Foo(ctx, int, string) error` that
returns nil, and a `Handle` that returns nil. -/
def fooMethod : Method where
  name := "Foo"
  ins := [.context, .int, .string]
  body := fun _ => [errorValue none]

/-- The handler exposing `Foo`. -/
def fooHandler : Handler where
  Handle := fun _ _ => none
  methods := [fooMethod]

/-- An invocation envelope with the given target and raw arguments. -/
def invocation (target : String) (args : List RawMessage) : InvocationMessage :=
  { MsgType := invocationMessageType, Headers := none, InvocationID := "",
    Target := target, Arguments := args, Error := "" }

/-- A handler with one typed operation `Count(ctx) int` that returns 3. -/
def countHandler : Handler where
  Handle := fun _ _ => none
  methods := [{ name := "Count", ins := [.context],
                body := fun _ => [{ kind := .Int, nil := false, elemError := none }] }]

/-- A `HandlerFunc` that fails with the name of the target it was asked to invoke. -/
def echoInvoke : HandlerFunc := fun target _ => some ("sent " ++ target)

/-- A `HandlerFunc` that always succeeds. -/
def okInvoke : HandlerFunc := fun _ _ => none

/-- The frame of an invocation of `requestArrangement` without arguments. -/
def arrangementFrame : List Nat :=
  ascii "\x7b\"type\":1,\"target\":\"requestArrangement\",\"arguments\":[]\x7d" ++ [0x1E]

/-- The frame of an invocation of `requestStep` without arguments. -/
def stepFrame : List Nat :=
  ascii "\x7b\"type\":1,\"target\":\"requestStep\",\"arguments\":[]\x7d" ++ [0x1E]

/-- The frame of a close message. -/
def closeFrame : List Nat := ascii "\x7b\"type\":7\x7d" ++ [0x1E]

/-- The frame of a ping message. -/
def pingFrame : List Nat := ascii "\x7b\"type\":6\x7d" ++ [0x1E]

/-- A negotiate response body without a connection identifier. -/
def anonymousBody : List Nat :=
  ascii "\x7b\"availableTransports\":[\x7b\"transport\":\"WebSockets\"\x7d]\x7d"

/-- A negotiate response body with connection identifier `abc123`. -/
def abcBody : List Nat :=
  ascii ("\x7b\"connectionId\":\"abc123\",\"availableTransports\":" ++
    "[\x7b\"transport\":\"WebSockets\",\"transportFormats\":[\"Text\"]\x7d]\x7d")

/-- A server that answers every negotiate request with status 200 and the given body. -/
def constantServer (body : List Nat) : Http where
  NewRequest := fun _ => none
  Do := fun _ _ => .response 200 "200 OK" (.ok body)

/-- A client as `NewClient` returns it for the game server. -/
def freshClient : Client :=
  { name := "gobot", hubName := "gameHub", connID := "",
    connURL := "https://cybertank.sibedge.com:5001" }

/-- A socket on which every operation succeeds. -/
def okConn : ConnWriter := ⟨none, fun _ => none, none⟩

/-- A game session: negotiation answered with identifier `abc123`, the dial
and the handshake succeed, and the socket then delivers the given reads. -/
def gameEnv (reads : List ReadOutcome) (closeResult : Option GoError) : ListenEnv where
  http := constantServer abcBody
  Dial := fun _ => none
  writer := okConn
  handshakeRead := .data (ascii "\x7b\x7d" ++ [0x1E])
  ctxDone := false
  reads := reads
  closeResult := closeResult

/-! ## Auxiliary notions for the properties of JSON texts -/

/-- Predicate: a byte that can occur in a JSON number. -/
def numByte (b : Nat) : Prop :=
  (0x30 ≤ b ∧ b ≤ 0x39) ∨ b = 0x2B ∨ b = 0x2D ∨ b = 0x2E ∨ b = 0x45 ∨ b = 0x65

/-- Predicate: a text in front of which a number ends. -/
def numberEnd (tail : List Nat) : Prop :=
  ∀ b ∈ tail.head?, ¬ (0x30 ≤ b ∧ b ≤ 0x39) ∧ b ≠ 0x2E ∧ b ≠ 0x65 ∧ b ≠ 0x45

/-- Predicate: a text in front of which a value inside an array or object ends. -/
def delimited (tail : List Nat) : Prop :=
  ∀ b ∈ tail.head?, b = 0x2C ∨ b = 0x5D ∨ b = 0x7D

/-- Predicate: a byte a compact value text can start with. -/
def startByte (b : Nat) : Prop :=
  isSpace b = false ∧ b ≠ 0x5D ∧ b ≠ 0x7D ∧ b ≠ 0x2C ∧ b ≠ 0x3A

/-- Hand members, given by the string of the key and the tree of the value, to
`set` one after the other. -/
def feedMembers {σ : Type} (set : σ → List Char → List Nat → Except GoError σ) :
    List (String × JValue) → σ → Except GoError σ
  | [], st => .ok st
  | (k, v) :: rest, st =>
    match set st k.toList v.render with
    | .error e => .error e
    | .ok st1 => feedMembers set rest st1

/-- The tree whose members have the given strings as keys, each written as
the encoder writes it. -/
def keyed (fields : List (String × JValue)) : List (List Nat × JValue) :=
  fields.map (fun kv => (escapeChars kv.1.toList, kv.2))

/-- The members of the envelope that `SendInvocation` builds for a target of
valid UTF-8. -/
def envelopeMembers (target : String) (vs : List JValue) : List (String × JValue) :=
  [("type", .number [0x31]), ("target", .string (escapeChars target.toList)),
   ("arguments", .array vs)]

/-- The tree that the envelope built by `SendInvocation` marshals to, for a
target of valid UTF-8. -/
def envelopeValue (target : String) (vs : List JValue) : JValue :=
  .object (keyed (envelopeMembers target vs))

/-- Predicate: a byte that compaction copies inside a string whatever follows. -/
def plainStr (b : Nat) : Prop :=
  b ≠ 0x3C ∧ b ≠ 0x3E ∧ b ≠ 0x26 ∧ b ≠ 0xE2 ∧ b ≠ 0x5C ∧ b ≠ 0x22

/-- Predicate: a byte that compaction copies outside a string. -/
def plainOut (b : Nat) : Prop := plainStr b ∧ isSpace b = false

/-! # Properties -/

/-! ## Message kinds -/

/-- C10: the seven message kinds carry the consecutive wire codes 1 to 7 in
their declared order (invocation 1, stream-item 2, completion 3,
stream-invocation 4, cancel-invocation 5, ping 6, close 7), pairwise distinct,
none of them 0; the terminator declared before them is 0x1E. -/
theorem messageKinds_codes :
    messageKinds = [1, 2, 3, 4, 5, 6, 7] ∧ messageKinds.Nodup ∧ (0 : Int) ∉ messageKinds ∧
    invocationMessageType = 1 ∧ streamItemMessageType = 2 ∧ completionMessageType = 3 ∧
    streamInvocationMessageType = 4 ∧ cancelInvocationMessageType = 5 ∧
    pingMessageType = 6 ∧ closeMessageType = 7 ∧ messageTerminator = 0x1E := by
  decide

/-! ## Frame stripping -/

theorem messageTerminator_eq : messageTerminator = 0x1E := by decide

theorem lastByte_append_singleton (pre : List Nat) (b : Nat) :
    lastByte (pre ++ [b]) = some b := by
  simp [lastByte]

/-- On a buffer that ends in the terminator the step removes exactly that byte. -/
theorem stripTerminator_terminated (pre : List Nat) :
    stripTerminator (pre ++ [messageTerminator]) = some pre := by
  simp [stripTerminator, lastByte_append_singleton]

/-- On a non-empty buffer that ends in another byte the step changes nothing. -/
theorem stripTerminator_other (pre : List Nat) (b : Nat) (hb : b ≠ messageTerminator) :
    stripTerminator (pre ++ [b]) = some (pre ++ [b]) := by
  simp [stripTerminator, lastByte_append_singleton, hb]

/-- A buffer ending in two terminators keeps one of them. -/
theorem stripTerminator_double (pre : List Nat) :
    stripTerminator (pre ++ [messageTerminator, messageTerminator])
      = some (pre ++ [messageTerminator]) := by
  have h : pre ++ [messageTerminator, messageTerminator]
      = (pre ++ [messageTerminator]) ++ [messageTerminator] := by simp
  rw [h, stripTerminator_terminated]

/-- C7: on the empty buffer the stripping step is not defined: the index
expression `bits[len(bits)-1]` panics, in `readConn` as in `handshake`, so
both end in a panic instead of going on with the buffer unchanged. -/
theorem stripTerminator_empty_panics :
    stripTerminator [] = none ∧
    readConn (.data []) = .panic "index out of range [-1]" ∧
    (handshake unmarshalHandshake okConn (.data [])).result
      = .panicked "index out of range [-1]" := by
  decide

/-- The handshake succeeds on the responses `{}` and `{"error":""}` and fails
with the server's text on `{"error":"boom"}`. -/
theorem handshake_examples :
    (handshake unmarshalHandshake okConn (.data (ascii "\x7b\x7d" ++ [0x1E]))).result
      = .returned none ∧
    (handshake unmarshalHandshake okConn
        (.data (ascii "\x7b\"error\":\"\"\x7d" ++ [0x1E]))).result = .returned none ∧
    (handshake unmarshalHandshake okConn
        (.data (ascii "\x7b\"error\":\"boom\"\x7d" ++ [0x1E]))).result
      = .returned (some "boom") := by
  decide

/-! ## Dispatch -/

theorem MethodByName_name {h : Handler} {t : String} {m : Method}
    (hfind : h.MethodByName t = some m) : m.name = t := by
  have := List.find?_some hfind
  simpa using this

theorem Method.In_add_two (m : Method) (j : Nat) : m.In (j + 2) = (m.ins.drop 1)[j]? := by
  simp [Method.In, List.getElem?_drop, Nat.add_comm]

/-- The argument loop succeeds when every argument decodes into the type at
its position. -/
theorem decodeArgs_decoded (unmarshal : ArgDecoder) (m : Method) :
    ∀ (args : List RawMessage) (k : Nat) (tys : List GoType) (vals : List GoValue),
      (∀ j, j < args.length → m.In (k + j + 2) = tys[j]?) →
      tys.length = args.length →
      List.zipWith unmarshal tys args = vals.map Except.ok →
      decodeArgs unmarshal m k args = .decoded vals := by
  intro args
  induction args with
  | nil =>
    intro k tys vals _ hlen hz
    have ht : tys = [] := List.length_eq_zero.mp hlen
    subst ht
    have hv : vals = [] := by
      cases vals with
      | nil => rfl
      | cons v vs => simp at hz
    subst hv
    rfl
  | cons raw rest ih =>
    intro k tys vals hin hlen hz
    cases tys with
    | nil => simp at hlen
    | cons ty tys1 =>
      cases vals with
      | nil => simp at hz
      | cons v vs =>
        simp only [List.zipWith_cons_cons, List.map_cons, List.cons.injEq] at hz
        have h0 : m.In (k + 2) = some ty := by
          have := hin 0 (by simp)
          simpa using this
        have hrec : decodeArgs unmarshal m (k + 1) rest = .decoded vs := by
          apply ih (k + 1) tys1 vs
          · intro j hj
            have := hin (j + 1) (by simpa using hj)
            have e : k + 1 + j + 2 = k + (j + 1) + 2 := by omega
            rw [e, this]
            simp
          · simpa using hlen
          · exact hz.2
        simp [decodeArgs, h0, hz.1, hrec]

/-- The argument loop reports a decode error as soon as one argument does not
decode, whatever the other arguments do. -/
theorem decodeArgs_decodeError (unmarshal : ArgDecoder) (m : Method) :
    ∀ (args : List RawMessage) (k : Nat) (tys : List GoType),
      (∀ j, j < args.length → m.In (k + j + 2) = tys[j]?) →
      tys.length = args.length →
      (∃ p ∈ tys.zip args, ∃ e, unmarshal p.1 p.2 = .error e) →
      decodeArgs unmarshal m k args = .decodeError := by
  intro args
  induction args with
  | nil =>
    intro k tys _ _ hex
    obtain ⟨p, hp, _⟩ := hex
    simp at hp
  | cons raw rest ih =>
    intro k tys hin hlen hex
    cases tys with
    | nil => simp at hlen
    | cons ty tys1 =>
      have h0 : m.In (k + 2) = some ty := by
        have := hin 0 (by simp)
        simpa using this
      cases hu : unmarshal ty raw with
      | error e => simp [decodeArgs, h0, hu]
      | ok v =>
        have hrec : decodeArgs unmarshal m (k + 1) rest = .decodeError := by
          apply ih (k + 1) tys1
          · intro j hj
            have := hin (j + 1) (by simpa using hj)
            have e : k + 1 + j + 2 = k + (j + 1) + 2 := by omega
            rw [e, this]
            simp
          · simpa using hlen
          · obtain ⟨p, hp, e, he⟩ := hex
            simp only [List.zip_cons_cons, List.mem_cons] at hp
            rcases hp with hp | hp
            · subst hp
              simp [hu] at he
            · exact ⟨p, hp, e, he⟩
        simp [decodeArgs, h0, hu, hrec]

theorem handleReturns_trace (returns : List ReflectValue) :
    (handleReturns returns).trace = [] ∨ (handleReturns returns).trace = [.diagnostic] := by
  unfold handleReturns
  split
  · simp
  · split
    · simp
    · simp
    · split <;> simp

/-- C1: when the handler exposes an operation named as the target (not
`Default`) whose parameters after the receiver are the context followed by as
many parameters as there are raw arguments, and each raw argument decodes into
the type of the parameter at its position, `dispatch` calls that operation
exactly once with the context and the decoded values in order, its result is
derived from what that call returned, and the fallback call of `Handle` is not
made. -/
theorem dispatch_typed_call (unmarshal : ArgDecoder) (h : Handler) (msg : InvocationMessage)
    (m : Method) (params : List GoType) (vals : List GoValue)
    (hfind : h.MethodByName msg.Target = some m)
    (hname : msg.Target ≠ "Default")
    (hins : m.ins = .context :: params)
    (hlen : params.length = msg.Arguments.length)
    (hdec : List.zipWith unmarshal params msg.Arguments = vals.map Except.ok) :
    (dispatch unmarshal h msg).trace.filter Event.isReflectCall
        = [.reflectCall msg.Target (.ctx :: vals)] ∧
    (dispatch unmarshal h msg).trace.filter Event.isHandleCall = [] ∧
    (dispatch unmarshal h msg).result = (handleReturns (m.body (.ctx :: vals))).result := by
  have hn : m.name = msg.Target := MethodByName_name hfind
  have hnum : m.NumIn = msg.Arguments.length + 2 := by
    simp [Method.NumIn, hins, hlen]
  have hloop : decodeArgs unmarshal m 0 msg.Arguments = .decoded vals := by
    apply decodeArgs_decoded unmarshal m msg.Arguments 0 params vals
    · intro j _
      rw [Nat.zero_add, Method.In_add_two, hins]
      simp
    · exact hlen
    · exact hdec
  have hctx : acceptsContext (m.In 1) = true := by
    simp [Method.In, hins, acceptsContext]
  have hd : dispatch unmarshal h msg
      = ⟨.reflectCall msg.Target (.ctx :: vals) :: (handleReturns (m.body (.ctx :: vals))).trace,
         (handleReturns (m.body (.ctx :: vals))).result⟩ := by
    simp [dispatch, hfind, hnum, hn, hname, hloop, hctx]
  rw [hd]
  rcases handleReturns_trace (m.body (.ctx :: vals)) with ht | ht <;>
    simp [ht, Event.isReflectCall, Event.isHandleCall]

theorem dispatch_typed_call_witness :
    (dispatch unmarshalArg fooHandler (invocation "Foo" [ascii "1", ascii "\"x\""])).trace.filter
        Event.isReflectCall = [.reflectCall "Foo" [.ctx, .int 1, .str "x"]] ∧
    (dispatch unmarshalArg fooHandler (invocation "Foo" [ascii "1", ascii "\"x\""])).trace.filter
        Event.isHandleCall = [] ∧
    (dispatch unmarshalArg fooHandler (invocation "Foo" [ascii "1", ascii "\"x\""])).result
      = (handleReturns (fooMethod.body [.ctx, .int 1, .str "x"])).result :=
  dispatch_typed_call unmarshalArg fooHandler (invocation "Foo" [ascii "1", ascii "\"x\""])
    fooMethod [.int, .string] [.int 1, .str "x"] rfl (by decide) rfl rfl rfl

/-- C2: when the handler has no operation named as the target, or that
operation's parameter count differs from the number of raw arguments (its
`NumIn`, which counts receiver and context, is not that number plus two), or
some raw argument does not decode into the type of the parameter at its
position, `dispatch` makes exactly one call, `Handle` with the envelope's
target and its raw arguments as they are, calls no typed operation, and
returns what `Handle` returns. -/
theorem dispatch_fallback (unmarshal : ArgDecoder) (h : Handler) (msg : InvocationMessage)
    (hyp : h.MethodByName msg.Target = none ∨
      ∃ m, h.MethodByName msg.Target = some m ∧
        (m.NumIn ≠ msg.Arguments.length + 2 ∨
         ∃ p ∈ (m.ins.drop 1).zip msg.Arguments, ∃ e, unmarshal p.1 p.2 = .error e)) :
    dispatch unmarshal h msg =
      ⟨[.handleCall msg.Target msg.Arguments],
       .returned (h.Handle msg.Target msg.Arguments)⟩ := by
  rcases hyp with hnone | ⟨m, hfind, hcase⟩
  · simp [dispatch, hnone, fallback]
  · by_cases hnum : m.NumIn = msg.Arguments.length + 2
    · rcases hcase with hne | hex
      · exact absurd hnum hne
      · by_cases hname : m.name = "Default"
        · simp [dispatch, hfind, hname, fallback]
        · have hloop : decodeArgs unmarshal m 0 msg.Arguments = .decodeError := by
            apply decodeArgs_decodeError unmarshal m msg.Arguments 0 (m.ins.drop 1)
            · intro j _
              rw [Nat.zero_add, Method.In_add_two]
            · simp only [Method.NumIn] at hnum
              simp only [List.length_drop]
              omega
            · exact hex
          simp [dispatch, hfind, hnum, hname, hloop, fallback]
    · simp [dispatch, hfind, hnum, fallback]

theorem dispatch_fallback_witness :
    dispatch unmarshalArg fooHandler (invocation "Foo" [ascii "1"]) =
      ⟨[.handleCall "Foo" [ascii "1"]], .returned (fooHandler.Handle "Foo" [ascii "1"])⟩ :=
  dispatch_fallback unmarshalArg fooHandler (invocation "Foo" [ascii "1"])
    (Or.inr ⟨fooMethod, rfl, Or.inl (by decide)⟩)

theorem handleReturns_none : handleReturns [] = ⟨[], .returned none⟩ := rfl

/-- A returned value of type `error`: `dispatch` returns it as it is. -/
theorem handleReturns_errorValue (e : Option GoError) (more : List ReflectValue) :
    handleReturns (errorValue e :: more) = ⟨[], .returned e⟩ := by
  cases e <;> rfl

/-- A returned non-nil pointer or interface whose element is not an error is
reported by the diagnostic only, and `dispatch` returns nil. -/
theorem handleReturns_diagnostic (k : Kind) (hk : k = .Pointer ∨ k = .Interface)
    (more : List ReflectValue) :
    handleReturns ({ kind := k, nil := false, elemError := none } :: more)
      = ⟨[.diagnostic], .returned none⟩ := by
  rcases hk with rfl | rfl <;> rfl

/-- Away from the target `Handle`, whenever method `Handle` runs during
`dispatch` it receives the envelope's target and its raw arguments. -/
theorem dispatch_handleReceives (unmarshal : ArgDecoder) (h : Handler) (msg : InvocationMessage)
    (hne : msg.Target ≠ "Handle") :
    ∀ e ∈ (dispatch unmarshal h msg).trace, ∀ p, e.handleReceives = some p →
      p = (msg.Target, msg.Arguments) := by
  have hfb : ∀ e ∈ (fallback h msg).trace, ∀ p, e.handleReceives = some p →
      p = (msg.Target, msg.Arguments) := by
    intro e he p hp
    simp only [fallback, List.mem_singleton] at he
    subst he
    simpa [Event.handleReceives] using hp.symm
  cases hfind : h.MethodByName msg.Target with
  | none =>
    have hd : dispatch unmarshal h msg = fallback h msg := by simp [dispatch, hfind]
    rw [hd]
    exact hfb
  | some m =>
    by_cases hc : m.NumIn = msg.Arguments.length + 2 ∧ m.name ≠ "Default"
    · cases hloop : decodeArgs unmarshal m 0 msg.Arguments with
      | decodeError =>
        have hd : dispatch unmarshal h msg = fallback h msg := by
          simp [dispatch, hfind, hc, hloop]
        rw [hd]
        exact hfb
      | indexPanic =>
        have hd : (dispatch unmarshal h msg).trace = [] := by
          simp [dispatch, hfind, hc, hloop]
        rw [hd]
        intro e he
        simp at he
      | decoded vals =>
        by_cases hctx : acceptsContext (m.In 1) = true
        · have hd : (dispatch unmarshal h msg).trace
              = .reflectCall msg.Target (.ctx :: vals)
                  :: (handleReturns (m.body (.ctx :: vals))).trace := by
            simp [dispatch, hfind, hc, hloop, hctx]
          rw [hd]
          intro e he p hp
          simp only [List.mem_cons] at he
          rcases he with he | he
          · subst he
            unfold Event.handleReceives at hp
            split at hp
            · rename_i heq
              simp at heq
            · rename_i heq
              simp only [Event.reflectCall.injEq] at heq
              exact absurd heq.1 hne
            · simp at hp
          · rcases handleReturns_trace (m.body (.ctx :: vals)) with ht | ht
            · rw [ht] at he
              simp at he
            · rw [ht] at he
              simp only [List.mem_singleton] at he
              subst he
              simp [Event.handleReceives] at hp
        · have hd : (dispatch unmarshal h msg).trace = [] := by
            simp [dispatch, hfind, hc, hloop, hctx]
          rw [hd]
          intro e he
          simp at he
    · have hd : dispatch unmarshal h msg = fallback h msg := by
        simp only [dispatch, hfind]
        simp only [hc, if_false]
      rw [hd]
      exact hfb

/-- With the target `OnStart` and no arguments `dispatch` does not call
`OnStart`: the method has no context parameter, its `NumIn` is 1, and the
envelope goes to `Handle`. -/
theorem dispatch_target_OnStart (unmarshal : ArgDecoder) (h : Handler) :
    dispatch unmarshal h (invocation "OnStart" [])
      = ⟨[.handleCall "OnStart" []], .returned (h.Handle "OnStart" [])⟩ := by
  have hfind : h.MethodByName "OnStart" = some Handler.onStartMethod := by
    simp [Handler.MethodByName, Handler.methodSet, List.find?, Handler.handleMethod,
      Handler.onStartMethod]
  simp [dispatch, invocation, hfind, Method.NumIn, Handler.onStartMethod, fallback]

/-- C3: with the target `Handle` and two arguments that decode as a string
and a list of raw messages, `dispatch` reaches method `Handle` through the
reflective call: `Handle` receives the decoded first argument as its target
and the decoded second argument as its arguments, not the envelope's target
`Handle` and its two raw arguments. The template handler then acts on
`requestStep`. -/
theorem dispatch_target_Handle :
    dispatch unmarshalArg (templateHandler echoInvoke)
        (invocation "Handle" [ascii "\"requestStep\"", ascii "[]"])
      = ⟨[.reflectCall "Handle" [.ctx, .str "requestStep", .raws []]],
         .returned (some "sent ReceiveStep")⟩ ∧
    (Event.reflectCall "Handle" [.ctx, .str "requestStep", .raws []]).handleReceives
      = some ("requestStep", []) ∧
    ("requestStep", ([] : List RawMessage))
      ≠ ("Handle", [ascii "\"requestStep\"", ascii "[]"]) := by
  decide

/-- C4: a typed operation that returns an `int` makes `dispatch` panic in
`returns[0].IsNil()` after the operation has run; it does not return nil with
a diagnostic. -/
theorem dispatch_int_return_panics :
    dispatch unmarshalArg countHandler (invocation "Count" [])
      = ⟨[.reflectCall "Count" [.ctx]],
         .panicked "reflect: call of reflect.Value.IsNil on non-nillable Value"⟩ := by
  decide

/-! ## The receive loop -/

/-- C5: after a first invocation frame has been dispatched, `Listen` returns
with the result of that dispatch: a second invocation frame waiting on the
socket is never read and never dispatched. In a whole session (negotiation,
dial, handshake, start notification) with the template handler, `Listen`
makes one `Handle` call and returns nil with the second frame unread. -/
theorem Listen_returns_after_dispatch :
    receiveLoop unmarshalMessage unmarshalArg (templateHandler okInvoke) none
        [.data arrangementFrame, .data stepFrame]
      = ⟨[.handleCall "requestArrangement" []], .returned none, [.data stepFrame]⟩ ∧
    freshClient.Listen goJSON (gameEnv [.data arrangementFrame, .data stepFrame] none)
        (templateHandler okInvoke) []
      = ⟨[.onStart, .handleCall "requestArrangement" []], .returned none,
         { freshClient with connID := "abc123" }, true,
         ["https://cybertank.sibedge.com:5001/gameHub/negotiate"],
         ["wss://cybertank.sibedge.com:5001/gameHub?id=abc123"],
         [handshakeRequestText ++ [0x1E]], [.data stepFrame]⟩ := by
  decide

/-- Whenever an invocation frame is read, after any number of reads that fall
through to the next iteration, `Listen` returns what `dispatch` returns for
it, and the reads that follow are not performed. -/
theorem receiveLoop_invocation (unmarshalMsg : MessageDecoder) (unmarshalArg : ArgDecoder)
    (h : Handler) (closeResult : Option GoError) (pre : List ReadOutcome) (r : ReadOutcome)
    (rest : List ReadOutcome) (bits : List Nat) (msg : InvocationMessage)
    (hpre : ∀ q ∈ pre, loopBody unmarshalMsg unmarshalArg h closeResult q = none)
    (hread : readConn r = .ok bits) (hmsg : unmarshalMsg bits = .ok msg)
    (htype : msg.MsgType = invocationMessageType) :
    receiveLoop unmarshalMsg unmarshalArg h closeResult (pre ++ r :: rest)
      = ⟨(dispatch unmarshalArg h msg).trace, (dispatch unmarshalArg h msg).result, rest⟩ := by
  induction pre with
  | nil =>
    have hb : loopBody unmarshalMsg unmarshalArg h closeResult r
        = some (dispatch unmarshalArg h msg) := by
      have h6 : invocationMessageType ≠ pingMessageType := by decide
      simp [loopBody, hread, hmsg, htype, h6]
    simp [receiveLoop, hb]
  | cons q pre ih =>
    have hq := hpre q (by simp)
    have ih1 := ih (fun x hx => hpre x (by simp [hx]))
    simp [receiveLoop, hq, ih1]

/-- A ping frame is skipped and the loop goes on reading. -/
theorem receiveLoop_ping_then_dispatch :
    receiveLoop unmarshalMessage unmarshalArg (templateHandler okInvoke) none
        [.data pingFrame, .data stepFrame, .data arrangementFrame]
      = ⟨[.handleCall "requestStep" []], .returned none, [.data arrangementFrame]⟩ := by
  decide

/-- C6, as stated, fails: when `conn.Close` reports an error, `Listen` returns
that error on a close frame. -/
theorem receiveLoop_close_error :
    (receiveLoop unmarshalMessage unmarshalArg (templateHandler okInvoke)
        (some "failed to close WebSocket") [.data closeFrame]).result
      = .returned (some "failed to close WebSocket") ∧
    (receiveLoop unmarshalMessage unmarshalArg (templateHandler okInvoke)
        (some "failed to close WebSocket") [.data closeFrame]).result
      ≠ .returned none := by
  decide

/-- C6, amended: when a close frame is read, after any number of reads that
fall through to the next iteration, `Listen` calls `conn.Close` with the
normal-closure status, makes no other call, and returns what `conn.Close`
reports: no error when the close succeeds, the close error otherwise. The
reads that follow are not performed. -/
theorem receiveLoop_close (unmarshalMsg : MessageDecoder) (unmarshalArg : ArgDecoder)
    (h : Handler) (closeResult : Option GoError) (pre : List ReadOutcome) (r : ReadOutcome)
    (rest : List ReadOutcome) (bits : List Nat) (msg : InvocationMessage)
    (hpre : ∀ q ∈ pre, loopBody unmarshalMsg unmarshalArg h closeResult q = none)
    (hread : readConn r = .ok bits) (hmsg : unmarshalMsg bits = .ok msg)
    (htype : msg.MsgType = closeMessageType) :
    receiveLoop unmarshalMsg unmarshalArg h closeResult (pre ++ r :: rest)
      = ⟨[.connClose StatusNormalClosure "received close message from SignalR service"],
         .returned closeResult, rest⟩ := by
  induction pre with
  | nil =>
    have hb : loopBody unmarshalMsg unmarshalArg h closeResult r
        = some ⟨[.connClose StatusNormalClosure "received close message from SignalR service"],
            .returned closeResult⟩ := by
      have h6 : closeMessageType ≠ pingMessageType := by decide
      have h1 : closeMessageType ≠ invocationMessageType := by decide
      have h4 : closeMessageType ≠ streamInvocationMessageType := by decide
      have h2 : closeMessageType ≠ streamItemMessageType := by decide
      have h5 : closeMessageType ≠ cancelInvocationMessageType := by decide
      have h3 : closeMessageType ≠ completionMessageType := by decide
      simp [loopBody, hread, hmsg, htype, h6, h1, h4, h2, h5, h3]
    simp [receiveLoop, hb]
  | cons q pre ih =>
    have hq := hpre q (by simp)
    have ih1 := ih (fun x hx => hpre x (by simp [hx]))
    simp [receiveLoop, hq, ih1]

theorem receiveLoop_close_witness :
    receiveLoop unmarshalMessage unmarshalArg (templateHandler okInvoke)
        (some "failed to close WebSocket") ([.data pingFrame] ++ .data closeFrame :: [.data stepFrame])
      = ⟨[.connClose StatusNormalClosure "received close message from SignalR service"],
         .returned (some "failed to close WebSocket"), [.data stepFrame]⟩ :=
  receiveLoop_close unmarshalMessage unmarshalArg (templateHandler okInvoke)
    (some "failed to close WebSocket") [.data pingFrame] (.data closeFrame) [.data stepFrame]
    (ascii "\x7b\"type\":7\x7d")
    { MsgType := 7, Headers := none, InvocationID := "", Target := "", Arguments := [],
      Error := "" }
    (by decide) (by decide) (by rfl) (by decide)

/-! ## Negotiation -/

/-- C8, as stated, fails: when the server's successful response carries no
connection identifier, the first `negotiateOnce` succeeds and leaves the
cached identifier empty, and the second call issues a second HTTP request. -/
theorem negotiateOnce_empty_id_repeats :
    (freshClient.negotiateOnce (constantServer anonymousBody) unmarshalNegotiate []).err = none ∧
    ((freshClient.negotiateOnce (constantServer anonymousBody) unmarshalNegotiate []).client.negotiateOnce
        (constantServer anonymousBody) unmarshalNegotiate
        (freshClient.negotiateOnce (constantServer anonymousBody) unmarshalNegotiate []).sent).sent
      = [ "https://cybertank.sibedge.com:5001/gameHub/negotiate",
          "https://cybertank.sibedge.com:5001/gameHub/negotiate" ] := by
  decide

theorem negotiate_sent (http : Http) (unmarshal : NegotiateDecoder) (c : Client)
    (sent : List String) (res : negotiateResponse) (sent1 : List String)
    (h : c.negotiate http unmarshal sent = (.ok res, sent1)) :
    sent1 = sent ++ [c.getURI ++ "/negotiate"] := by
  unfold Client.negotiate at h
  dsimp only at h
  split at h
  · simp at h
  · split at h
    · simp at h
    · split at h
      · simp at h
      · split at h
        · simp at h
        · split at h
          · simp at h
          · simp only [Prod.mk.injEq] at h
            exact h.2.symm

/-- C8, amended: if a first `negotiateOnce` succeeds and leaves a non-empty
connection identifier cached, a second `negotiateOnce` on the same client
issues no HTTP request, returns no error and leaves the client, with its
cached identifier, unchanged; when the client had no identifier before, the
two calls together issue exactly one negotiate request. -/
theorem negotiateOnce_twice (http : Http) (unmarshal : NegotiateDecoder) (c : Client)
    (sent : List String)
    (hok : (c.negotiateOnce http unmarshal sent).err = none)
    (hid : (c.negotiateOnce http unmarshal sent).client.connID ≠ "") :
    (c.negotiateOnce http unmarshal sent).client.negotiateOnce http unmarshal
        (c.negotiateOnce http unmarshal sent).sent
      = ⟨none, (c.negotiateOnce http unmarshal sent).client,
          (c.negotiateOnce http unmarshal sent).sent⟩ ∧
    (c.connID = "" →
      (c.negotiateOnce http unmarshal sent).sent = sent ++ [c.getURI ++ "/negotiate"]) := by
  constructor
  · generalize c.negotiateOnce http unmarshal sent = o at hid
    simp [Client.negotiateOnce, hid]
  · intro hc
    unfold Client.negotiateOnce at hok ⊢
    simp only [hc, if_true] at hok ⊢
    split
    · rename_i e sent1 heq
      simp [heq] at hok
    · rename_i res sent1 heq
      have hs := negotiate_sent http unmarshal c sent res sent1 heq
      split <;> simp [hs]

theorem negotiateOnce_twice_witness :
    (freshClient.negotiateOnce (constantServer abcBody) unmarshalNegotiate []).client.negotiateOnce
        (constantServer abcBody) unmarshalNegotiate
        (freshClient.negotiateOnce (constantServer abcBody) unmarshalNegotiate []).sent
      = ⟨none, (freshClient.negotiateOnce (constantServer abcBody) unmarshalNegotiate []).client,
          (freshClient.negotiateOnce (constantServer abcBody) unmarshalNegotiate []).sent⟩ ∧
    (freshClient.connID = "" →
      (freshClient.negotiateOnce (constantServer abcBody) unmarshalNegotiate []).sent
        = [] ++ [freshClient.getURI ++ "/negotiate"]) :=
  negotiateOnce_twice (constantServer abcBody) unmarshalNegotiate freshClient [] (by decide) (by decide)

/-! ## JSON texts -/

theorem Char.scalar (c : Char) :
    c.toNat < 0xD800 ∨ (0xDFFF < c.toNat ∧ c.toNat < 0x110000) := by
  have h := c.valid
  simp only [UInt32.isValidChar, Nat.isValidChar] at h
  exact h

theorem decodeRune_utf8EncodeChar (c : Char) (tail : List Nat) (h : 0x80 ≤ c.toNat) :
    decodeRune (utf8EncodeChar c ++ tail) = (c.toNat, (utf8EncodeChar c).length) := by
  have hv := Char.scalar c
  unfold utf8EncodeChar
  generalize c.toNat = n at h hv
  have h1 : ¬ n < 0x80 := by omega
  simp only [h1, if_false]
  by_cases h2 : n < 0x800
  · simp only [h2, if_true, List.cons_append, List.nil_append, decodeRune, isCont,
      List.length_cons, List.length_nil]
    have a1 : ¬ (0xC0 + n / 64 < 0x80) := by omega
    have a2 : 0xC2 ≤ 0xC0 + n / 64 ∧ 0xC0 + n / 64 ≤ 0xDF := by omega
    have a3 : 0x80 ≤ 0x80 + n % 64 ∧ 0x80 + n % 64 ≤ 0xBF := by omega
    simp only [a1, a2, a3, if_false, if_true, and_self, decide_True]
    rw [Prod.mk.injEq]
    constructor <;> omega
  · simp only [h2, if_false]
    by_cases h3 : n < 0x10000
    · simp only [h3, if_true, List.cons_append, List.nil_append, decodeRune, isCont,
        List.length_cons, List.length_nil]
      have a1 : ¬ (0xE0 + n / 4096 < 0x80) := by omega
      have a2 : ¬ (0xC2 ≤ 0xE0 + n / 4096 ∧ 0xE0 + n / 4096 ≤ 0xDF) := by omega
      have a3 : 0xE0 ≤ 0xE0 + n / 4096 ∧ 0xE0 + n / 4096 ≤ 0xEF := by omega
      have a4 : (if 0xE0 + n / 4096 = 0xE0 then 0xA0 else 0x80) ≤ 0x80 + n / 64 % 64 := by
        split <;> omega
      have a5 : 0x80 + n / 64 % 64 ≤ (if 0xE0 + n / 4096 = 0xED then 0x9F else 0xBF) := by
        split <;> omega
      have a6 : 0x80 ≤ 0x80 + n % 64 ∧ 0x80 + n % 64 ≤ 0xBF := by omega
      simp only [a1, a2, a3, a4, a5, a6, if_false, if_true, and_self, decide_True]
      rw [Prod.mk.injEq]
      constructor <;> omega
    · simp only [h3, if_false, List.cons_append, List.nil_append, decodeRune, isCont,
        List.length_cons, List.length_nil]
      have a1 : ¬ (0xF0 + n / 262144 < 0x80) := by omega
      have a2 : ¬ (0xC2 ≤ 0xF0 + n / 262144 ∧ 0xF0 + n / 262144 ≤ 0xDF) := by omega
      have a3 : ¬ (0xE0 ≤ 0xF0 + n / 262144 ∧ 0xF0 + n / 262144 ≤ 0xEF) := by omega
      have a3' : 0xF0 ≤ 0xF0 + n / 262144 ∧ 0xF0 + n / 262144 ≤ 0xF4 := by omega
      have a4 : (if 0xF0 + n / 262144 = 0xF0 then 0x90 else 0x80) ≤ 0x80 + n / 4096 % 64 := by
        split <;> omega
      have a5 : 0x80 + n / 4096 % 64 ≤ (if 0xF0 + n / 262144 = 0xF4 then 0x8F else 0xBF) := by
        split <;> omega
      have a6 : 0x80 ≤ 0x80 + n / 64 % 64 ∧ 0x80 + n / 64 % 64 ≤ 0xBF := by omega
      have a7 : 0x80 ≤ 0x80 + n % 64 ∧ 0x80 + n % 64 ≤ 0xBF := by omega
      simp only [a1, a2, a3, a3', a4, a5, a6, a7, if_false, if_true, and_self, decide_True]
      rw [Prod.mk.injEq]
      constructor <;> omega

theorem hex4_low : ∀ n, n < 64 →
    hex4 0x30 0x30 (hexDigit (n / 16)) (hexDigit (n % 16)) = some n := by
  decide

theorem Char.eq_ofNat (c : Char) {k : Nat} (h : c.toNat = k) : c = Char.ofNat k := by
  rw [← h, Char.ofNat_toNat]

theorem readChar_escapeChar (c : Char) (tail : List Nat) :
    readChar (escapeChar c ++ tail) = some (c, tail) := by
  unfold escapeChar
  by_cases h1 : c.toNat = 0x22
  · have hc := Char.eq_ofNat c h1
    subst hc
    simp [readChar, scannerEscape, simpleEscape]
  by_cases h2 : c.toNat = 0x5C
  · have hc := Char.eq_ofNat c h2
    subst hc
    simp [readChar, scannerEscape, simpleEscape]
  by_cases h3 : c.toNat = 0x0A
  · have hc := Char.eq_ofNat c h3
    subst hc
    simp [readChar, scannerEscape, simpleEscape]
  by_cases h4 : c.toNat = 0x0D
  · have hc := Char.eq_ofNat c h4
    subst hc
    simp [readChar, scannerEscape, simpleEscape]
  by_cases h5 : c.toNat = 0x09
  · have hc := Char.eq_ofNat c h5
    subst hc
    simp [readChar, scannerEscape, simpleEscape]
  simp only [h1, h2, h3, h4, h5, if_false]
  by_cases h6 : c.toNat < 0x20 ∨ c.toNat = 0x3C ∨ c.toNat = 0x3E ∨ c.toNat = 0x26
  · have hlt : c.toNat < 64 := by omega
    have hx := hex4_low c.toNat hlt
    have hs : ¬ (0xD800 ≤ c.toNat ∧ c.toNat < 0xE000) := by omega
    simp only [h6, if_true, List.cons_append, List.nil_append, readChar, hx, hs, if_false]
    simp [Char.ofNat_toNat]
  simp only [h6, if_false]
  by_cases h7 : c.toNat = 0x2028 ∨ c.toNat = 0x2029
  · rcases h7 with h7 | h7
    · have hc := Char.eq_ofNat c h7
      subst hc
      simp [readChar, hex4, hexValue, hexDigit]
    · have hc := Char.eq_ofNat c h7
      subst hc
      simp [readChar, hex4, hexValue, hexDigit]
  simp only [h7, if_false]
  by_cases h8 : c.toNat < 0x80
  · have he : utf8EncodeChar c = [c.toNat] := by simp [utf8EncodeChar, h8]
    have a1 : ¬ c.toNat = 0x5C := h2
    have a2 : ¬ c.toNat < 0x20 := by omega
    simp only [he, List.cons_append, List.nil_append, readChar, a1, a2, h1, h8, if_false,
      if_true, Char.ofNat_toNat]
  · have hd := decodeRune_utf8EncodeChar c tail (by omega)
    have hne : ∃ b bs, utf8EncodeChar c = b :: bs ∧ 0x80 ≤ b := by
      unfold utf8EncodeChar
      simp only [h8, if_false]
      split
      · exact ⟨_, _, rfl, by omega⟩
      · split
        · exact ⟨_, _, rfl, by omega⟩
        · exact ⟨_, _, rfl, by omega⟩
    obtain ⟨b, bs, hbs, hb⟩ := hne
    rw [hbs] at hd ⊢
    have a1 : ¬ b = 0x5C := by omega
    have a2 : ¬ b < 0x20 := by omega
    have a3 : ¬ b = 0x22 := by omega
    have a4 : ¬ b < 0x80 := by omega
    simp only [List.cons_append] at hd ⊢
    simp only [readChar, a1, a2, a3, a4, if_false, hd, Char.ofNat_toNat]
    simp

/-- The text of a character starts with a byte that is not a quote. -/
theorem escapeChar_head (c : Char) : ∃ b bs, escapeChar c = b :: bs ∧ b ≠ 0x22 := by
  unfold escapeChar
  dsimp only
  split
  · exact ⟨_, _, rfl, by decide⟩
  split
  · exact ⟨_, _, rfl, by decide⟩
  split
  · exact ⟨_, _, rfl, by decide⟩
  split
  · exact ⟨_, _, rfl, by decide⟩
  split
  · exact ⟨_, _, rfl, by decide⟩
  split
  · exact ⟨_, _, rfl, by decide⟩
  split
  · exact ⟨_, _, rfl, by decide⟩
  unfold utf8EncodeChar
  dsimp only
  split
  · exact ⟨_, _, rfl, by omega⟩
  split
  · exact ⟨_, _, rfl, by omega⟩
  split
  · exact ⟨_, _, rfl, by omega⟩
  · exact ⟨_, _, rfl, by omega⟩

theorem escapeChars_length (cs : List Char) : cs.length ≤ (escapeChars cs).length := by
  induction cs with
  | nil => simp [escapeChars]
  | cons c cs ih =>
    obtain ⟨b, bs, hb, _⟩ := escapeChar_head c
    simp only [escapeChars, List.length_append, List.length_cons, hb]
    omega

/-- Reading the text of a string gives the string back. -/
theorem readString_escapeChars (cs : List Char) :
    ∀ (tail : List Nat) (fuel : Nat), cs.length < fuel →
      readString fuel (escapeChars cs ++ 0x22 :: tail) = some (cs, tail) := by
  induction cs with
  | nil =>
    intro tail fuel hf
    obtain ⟨f, rfl⟩ : ∃ f, fuel = f + 1 := ⟨fuel - 1, by omega⟩
    simp [escapeChars, readString]
  | cons c cs ih =>
    intro tail fuel hf
    obtain ⟨f, rfl⟩ : ∃ f, fuel = f + 1 := ⟨fuel - 1, by omega⟩
    have hrec := ih tail f (by simpa using hf)
    have hch := readChar_escapeChar c (escapeChars cs ++ 0x22 :: tail)
    obtain ⟨b, bs, hb, hq⟩ := escapeChar_head c
    simp only [escapeChars, List.append_assoc]
    rw [hb] at hch ⊢
    simp only [List.cons_append] at hch ⊢
    simp only [readString, hq, if_false, hch, hrec]

theorem readString_encodeString (s : String) (tail : List Nat) (fuel : Nat)
    (hf : s.length < fuel) :
    readString fuel (escapeChars s.toList ++ 0x22 :: tail) = some (s.toList, tail) :=
  readString_escapeChars s.toList tail fuel hf

theorem encodeString_eq (s : String) (tail : List Nat) :
    encodeString s ++ tail = 0x22 :: (escapeChars s.toList ++ 0x22 :: tail) := by
  simp [encodeString]

theorem encodeString_length (s : String) : s.length + 2 ≤ (encodeString s).length := by
  have := escapeChars_length s.toList
  simp only [encodeString, List.length_cons, List.length_append, List.length_nil]
  have hl : s.length = s.toList.length := rfl
  omega

/-! ### Number texts -/

theorem skipDigits_append (l tail : List Nat) (h : numberEnd tail) :
    skipDigits (l ++ tail) = skipDigits l ++ tail := by
  induction l with
  | nil =>
    cases tail with
    | nil => rfl
    | cons b bs =>
      have := h b (by simp)
      simp [skipDigits, isDigit, this.1]
  | cons b bs ih =>
    by_cases hb : isDigit b = true
    · simp [skipDigits, hb, ih]
    · simp [skipDigits, hb]

theorem skipDigits_consumed (l : List Nat) :
    ∃ p, l = p ++ skipDigits l ∧ ∀ b ∈ p, numByte b := by
  induction l with
  | nil => exact ⟨[], rfl, by simp⟩
  | cons b bs ih =>
    by_cases hb : isDigit b = true
    · obtain ⟨p, hp, hall⟩ := ih
      refine ⟨b :: p, ?_, ?_⟩
      · simp only [skipDigits, hb, if_true, List.cons_append]
        rw [← hp]
      · intro x hx
        simp only [List.mem_cons] at hx
        rcases hx with hx | hx
        · subst hx
          simp only [isDigit, decide_eq_true_eq] at hb
          exact Or.inl hb
        · exact hall x hx
    · exact ⟨[], by simp [skipDigits, hb], by simp⟩

theorem scanExp_append (l r tail : List Nat) (h : numberEnd tail) (hs : scanExp l = some r) :
    scanExp (l ++ tail) = some (r ++ tail) := by
  cases l with
  | nil =>
    simp only [scanExp, Option.some.injEq] at hs
    subst hs
    cases tail with
    | nil => rfl
    | cons b bs =>
      have := h b (by simp)
      simp [scanExp, this.2.2.1, this.2.2.2]
  | cons e l1 =>
    by_cases he : e = 0x65 ∨ e = 0x45
    · simp only [scanExp, he, if_true] at hs
      simp only [List.cons_append, scanExp, he, if_true]
      cases l1 with
      | nil => simp at hs
      | cons s l2 =>
        simp only [List.cons_append]
        simp only at hs
        by_cases hsg : s = 0x2B ∨ s = 0x2D
        · simp only [hsg, if_true] at hs ⊢
          cases l2 with
          | nil => simp at hs
          | cons d l3 =>
            simp only [List.cons_append]
            simp only at hs
            by_cases hd : isDigit d = true
            · simp only [hd, if_true, Option.some.injEq] at hs ⊢
              rw [skipDigits_append _ _ h, hs]
            · simp [hd] at hs
        · simp only [hsg, if_false] at hs ⊢
          by_cases hd : isDigit s = true
          · simp only [hd, if_true, Option.some.injEq] at hs ⊢
            rw [skipDigits_append _ _ h, hs]
          · simp [hd] at hs
    · simp only [scanExp, he, if_false, Option.some.injEq] at hs
      subst hs
      simp [scanExp, he]

theorem scanFrac_append (l r tail : List Nat) (h : numberEnd tail) (hs : scanFrac l = some r) :
    scanFrac (l ++ tail) = some (r ++ tail) := by
  cases l with
  | nil =>
    simp only [scanFrac, Option.some.injEq] at hs
    subst hs
    cases tail with
    | nil => rfl
    | cons b bs =>
      have hb := h b (by simp)
      have := scanExp_append [] [] (b :: bs) h rfl
      simp only [List.nil_append] at this
      simp [scanFrac, hb.2.1, this]
  | cons p l1 =>
    by_cases hp : p = 0x2E
    · simp only [scanFrac, hp, if_true] at hs
      simp only [List.cons_append, scanFrac, hp, if_true]
      cases l1 with
      | nil => simp at hs
      | cons d l2 =>
        simp only [List.cons_append]
        simp only at hs
        by_cases hd : isDigit d = true
        · simp only [hd, if_true] at hs ⊢
          rw [skipDigits_append _ _ h]
          exact scanExp_append _ _ _ h hs
        · simp [hd] at hs
    · simp only [scanFrac, hp, if_false] at hs
      simp only [List.cons_append, scanFrac, hp, if_false]
      exact scanExp_append (p :: l1) r tail h hs

theorem scanUnsigned_append (l r tail : List Nat) (h : numberEnd tail)
    (hs : scanUnsigned l = some r) : scanUnsigned (l ++ tail) = some (r ++ tail) := by
  cases l with
  | nil => simp [scanUnsigned] at hs
  | cons d l1 =>
    simp only [scanUnsigned] at hs
    simp only [List.cons_append, scanUnsigned]
    split at hs
    · rename_i h0
      simp only [h0, if_true]
      exact scanFrac_append _ _ _ h hs
    · rename_i h0
      split at hs
      · rename_i h1
        simp only [h0, h1, if_false, if_true]
        rw [skipDigits_append _ _ h]
        exact scanFrac_append _ _ _ h hs
      · simp at hs

theorem scanNumber_append (l r tail : List Nat) (h : numberEnd tail)
    (hs : scanNumber l = some r) : scanNumber (l ++ tail) = some (r ++ tail) := by
  cases l with
  | nil => simp [scanNumber] at hs
  | cons b l1 =>
    simp only [scanNumber] at hs
    simp only [List.cons_append, scanNumber]
    split at hs
    · rename_i h0
      simp only [h0, if_true]
      exact scanUnsigned_append _ _ _ h hs
    · rename_i h0
      simp only [h0, if_false]
      exact scanUnsigned_append (b :: l1) r tail h hs

theorem isDigit_numByte {b : Nat} (h : isDigit b = true) : numByte b := by
  simp only [isDigit, decide_eq_true_eq] at h
  exact Or.inl h

theorem consumed_cons {b : Nat} {l r : List Nat} (hb : numByte b)
    (h : ∃ p, l = p ++ r ∧ ∀ x ∈ p, numByte x) :
    ∃ p, b :: l = p ++ r ∧ ∀ x ∈ p, numByte x := by
  obtain ⟨p, hp, hall⟩ := h
  refine ⟨b :: p, by simp [hp], ?_⟩
  intro x hx
  simp only [List.mem_cons] at hx
  rcases hx with hx | hx
  · subst hx; exact hb
  · exact hall x hx

theorem consumed_trans {l m r : List Nat}
    (h1 : ∃ p, l = p ++ m ∧ ∀ x ∈ p, numByte x)
    (h2 : ∃ p, m = p ++ r ∧ ∀ x ∈ p, numByte x) :
    ∃ p, l = p ++ r ∧ ∀ x ∈ p, numByte x := by
  obtain ⟨p, hp, hall⟩ := h1
  obtain ⟨q, hq, hall2⟩ := h2
  refine ⟨p ++ q, by simp [hp, hq], ?_⟩
  intro x hx
  simp only [List.mem_append] at hx
  rcases hx with hx | hx
  · exact hall x hx
  · exact hall2 x hx

theorem scanExp_consumed (l r : List Nat) (hs : scanExp l = some r) :
    ∃ p, l = p ++ r ∧ ∀ b ∈ p, numByte b := by
  cases l with
  | nil =>
    simp only [scanExp, Option.some.injEq] at hs
    subst hs
    exact ⟨[], rfl, by simp⟩
  | cons e l1 =>
    by_cases he : e = 0x65 ∨ e = 0x45
    · have hne : numByte e := by
        rcases he with he | he
        · exact Or.inr (Or.inr (Or.inr (Or.inr (Or.inr he))))
        · exact Or.inr (Or.inr (Or.inr (Or.inr (Or.inl he))))
      simp only [scanExp, he, if_true] at hs
      apply consumed_cons hne
      cases l1 with
      | nil => simp at hs
      | cons s l2 =>
        simp only at hs
        by_cases hsg : s = 0x2B ∨ s = 0x2D
        · have hns : numByte s := by
            rcases hsg with hsg | hsg
            · exact Or.inr (Or.inl hsg)
            · exact Or.inr (Or.inr (Or.inl hsg))
          simp only [hsg, if_true] at hs
          apply consumed_cons hns
          cases l2 with
          | nil => simp at hs
          | cons d l3 =>
            simp only at hs
            by_cases hd : isDigit d = true
            · simp only [hd, if_true, Option.some.injEq] at hs
              apply consumed_cons (isDigit_numByte hd)
              rw [← hs]
              exact skipDigits_consumed l3
            · simp [hd] at hs
        · simp only [hsg, if_false] at hs
          by_cases hd : isDigit s = true
          · simp only [hd, if_true, Option.some.injEq] at hs
            apply consumed_cons (isDigit_numByte hd)
            rw [← hs]
            exact skipDigits_consumed l2
          · simp [hd] at hs
    · simp only [scanExp, he, if_false, Option.some.injEq] at hs
      subst hs
      exact ⟨[], rfl, by simp⟩

theorem scanFrac_consumed (l r : List Nat) (hs : scanFrac l = some r) :
    ∃ p, l = p ++ r ∧ ∀ b ∈ p, numByte b := by
  cases l with
  | nil =>
    simp only [scanFrac, Option.some.injEq] at hs
    subst hs
    exact ⟨[], rfl, by simp⟩
  | cons p l1 =>
    by_cases hp : p = 0x2E
    · simp only [scanFrac, hp, if_true] at hs
      apply consumed_cons (Or.inr (Or.inr (Or.inr (Or.inl hp))))
      cases l1 with
      | nil => simp at hs
      | cons d l2 =>
        simp only at hs
        by_cases hd : isDigit d = true
        · simp only [hd, if_true] at hs
          apply consumed_cons (isDigit_numByte hd)
          exact consumed_trans (skipDigits_consumed l2) (scanExp_consumed _ _ hs)
        · simp [hd] at hs
    · simp only [scanFrac, hp, if_false] at hs
      exact scanExp_consumed _ _ hs

theorem scanUnsigned_consumed (l r : List Nat) (hs : scanUnsigned l = some r) :
    ∃ p, l = p ++ r ∧ ∀ b ∈ p, numByte b := by
  cases l with
  | nil => simp [scanUnsigned] at hs
  | cons d l1 =>
    simp only [scanUnsigned] at hs
    split at hs
    · rename_i h0
      exact consumed_cons (Or.inl (by omega)) (scanFrac_consumed _ _ hs)
    · split at hs
      · rename_i h1
        exact consumed_cons (Or.inl (by omega))
          (consumed_trans (skipDigits_consumed l1) (scanFrac_consumed _ _ hs))
      · simp at hs

theorem scanNumber_consumed (l r : List Nat) (hs : scanNumber l = some r) :
    ∃ p, l = p ++ r ∧ ∀ b ∈ p, numByte b := by
  cases l with
  | nil => simp [scanNumber] at hs
  | cons b l1 =>
    simp only [scanNumber] at hs
    split at hs
    · rename_i h0
      exact consumed_cons (Or.inr (Or.inr (Or.inl h0))) (scanUnsigned_consumed _ _ hs)
    · exact scanUnsigned_consumed _ _ hs

/-- A number text consists of number bytes. -/
theorem number_bytes (lit : List Nat) (h : scanNumber lit = some []) :
    ∀ b ∈ lit, numByte b := by
  obtain ⟨p, hp, hall⟩ := scanNumber_consumed lit [] h
  simp only [List.append_nil] at hp
  subst hp
  exact hall

/-- A number text starts with a sign or a digit. -/
theorem number_head (lit : List Nat) (h : scanNumber lit = some []) :
    ∃ b bs, lit = b :: bs ∧ (b = 0x2D ∨ (0x30 ≤ b ∧ b ≤ 0x39)) := by
  cases lit with
  | nil => simp [scanNumber] at h
  | cons b bs =>
    refine ⟨b, bs, rfl, ?_⟩
    simp only [scanNumber] at h
    split at h
    · rename_i h0; exact Or.inl h0
    · simp only [scanUnsigned] at h
      split at h
      · rename_i h1; exact Or.inr (by omega)
      · split at h
        · rename_i h2; exact Or.inr (by omega)
        · simp at h

/-! ### Compaction, byte by byte -/

theorem compactText_str_byte (b : Nat) (bs : List Nat)
    (h1 : ¬ (b = 0x3C ∨ b = 0x3E ∨ b = 0x26)) (h2 : b ≠ 0x5C) (h3 : b ≠ 0x22)
    (h4 : ¬ (b = 0xE2 ∧ lineSeparatorTail bs = true)) :
    compactText 0 .str (b :: bs) = b :: compactText 0 .str bs := by
  simp only [compactText, h1, h4, if_false, ScanMode.next, h2, h3]
  simp

theorem compactText_str_plain (b : Nat) (bs : List Nat) (h : plainStr b) :
    compactText 0 .str (b :: bs) = b :: compactText 0 .str bs := by
  unfold plainStr at h
  exact compactText_str_byte b bs (by omega) (by omega) (by omega) (by omega)

theorem compactText_out_plain (b : Nat) (bs : List Nat) (h : plainOut b) :
    compactText 0 .out (b :: bs) = b :: compactText 0 .out bs := by
  obtain ⟨hp, hsp⟩ := h
  unfold plainStr at hp
  have h1 : ¬ (b = 0x3C ∨ b = 0x3E ∨ b = 0x26) := by omega
  have h4 : ¬ (b = 0xE2 ∧ lineSeparatorTail bs = true) := by omega
  have h3 : b ≠ 0x22 := by omega
  simp only [compactText, h1, h4, if_false, ScanMode.next, h3, hsp]
  simp

theorem compactText_out_plain_list (l tail : List Nat) (h : ∀ b ∈ l, plainOut b) :
    compactText 0 .out (l ++ tail) = l ++ compactText 0 .out tail := by
  induction l with
  | nil => rfl
  | cons b bs ih =>
    rw [List.cons_append, compactText_out_plain _ _ (h b (by simp)),
      ih (fun x hx => h x (by simp [hx])), List.cons_append]

theorem compactText_escape (e : Nat) (bs : List Nat)
    (he : ¬ (e = 0x3C ∨ e = 0x3E ∨ e = 0x26)) (he2 : e ≠ 0xE2) :
    compactText 0 .str (0x5C :: e :: bs) = 0x5C :: e :: compactText 0 .str bs := by
  have h4 : ¬ (e = 0xE2 ∧ lineSeparatorTail bs = true) := by omega
  simp [compactText, ScanMode.next, he, h4]

/-! ### The body of a string literal -/

theorem hexValue_byte {b : Nat} (h : (hexValue b).isSome = true) :
    (0x30 ≤ b ∧ b ≤ 0x39) ∨ (0x61 ≤ b ∧ b ≤ 0x66) ∨ (0x41 ≤ b ∧ b ≤ 0x46) := by
  unfold hexValue at h
  split at h
  · omega
  split at h
  · omega
  split at h
  · omega
  · simp at h

theorem hex4_bytes {a b c d : Nat} (h : (hex4 a b c d).isSome = true) :
    (hexValue a).isSome = true ∧ (hexValue b).isSome = true ∧
      (hexValue c).isSome = true ∧ (hexValue d).isSome = true := by
  unfold hex4 at h
  cases ha : hexValue a <;> cases hb : hexValue b <;> cases hc : hexValue c <;>
    cases hd : hexValue d <;> simp [ha, hb, hc, hd] at h ⊢

theorem scannerEscape_byte {e : Nat} (h : scannerEscape e = true) :
    e = 0x22 ∨ e = 0x5C ∨ e = 0x2F ∨ e = 0x62 ∨ e = 0x66 ∨ e = 0x6E ∨ e = 0x72 ∨ e = 0x74 := by
  simpa [scannerEscape] using h

/-- The shapes of the body of a string literal: empty, a one-letter escape, a
`\u` escape, or a byte that stands for itself, each in front of a body. -/
theorem literalBody_cases (body : List Nat) (h : literalBody body = true) :
    body = [] ∨
    (∃ e rest, body = 0x5C :: e :: rest ∧ e ≠ 0x75 ∧ scannerEscape e = true ∧
      literalBody rest = true) ∨
    (∃ h1 h2 h3 h4 rest, body = 0x5C :: 0x75 :: h1 :: h2 :: h3 :: h4 :: rest ∧
      (hex4 h1 h2 h3 h4).isSome = true ∧ literalBody rest = true) ∨
    (∃ b rest, body = b :: rest ∧ b ≠ 0x5C ∧ 0x20 ≤ b ∧ b ≠ 0x22 ∧
      ¬ (b = 0x3C ∨ b = 0x3E ∨ b = 0x26) ∧ ¬ (b = 0xE2 ∧ lineSeparatorTail rest = true) ∧
      literalBody rest = true) := by
  cases body with
  | nil => exact Or.inl rfl
  | cons b rest =>
    right
    unfold literalBody at h
    by_cases hb : b = 0x5C
    · subst hb
      simp only [if_true] at h
      cases rest with
      | nil => simp at h
      | cons e rest1 =>
        simp only at h
        by_cases he : e = 0x75
        · subst he
          simp only [if_true] at h
          right; left
          rcases rest1 with _ | ⟨h1, _ | ⟨h2, _ | ⟨h3, _ | ⟨h4, rest2⟩⟩⟩⟩
          · simp at h
          · simp at h
          · simp at h
          · simp at h
          · simp only [Bool.and_eq_true] at h
            exact ⟨h1, h2, h3, h4, rest2, rfl, h.1, h.2⟩
        · left
          simp only [he, if_false, Bool.and_eq_true] at h
          exact ⟨e, rest1, rfl, he, h.1, h.2⟩
    · right; right
      simp only [hb, if_false] at h
      by_cases h2 : b < 0x20 ∨ b = 0x22 ∨ b = 0x3C ∨ b = 0x3E ∨ b = 0x26
      · simp [h2] at h
      · simp only [h2, if_false] at h
        by_cases h3 : b = 0xE2 ∧ lineSeparatorTail rest = true
        · simp [h3] at h
        · simp only [h3, if_false] at h
          exact ⟨b, rest, rfl, hb, by omega, by omega, by omega, h3, h⟩

/-- Every byte of the body of a string literal is at least a space. -/
theorem literalBody_ge : ∀ (n : Nat) (body : List Nat), body.length ≤ n →
    literalBody body = true → ∀ b ∈ body, 0x20 ≤ b := by
  intro n
  induction n with
  | zero =>
    intro body hn _ b hb
    cases body with
    | nil => simp at hb
    | cons x xs => simp at hn
  | succ n ih =>
    intro body hn h b hb
    rcases literalBody_cases body h with h0 | ⟨e, rest, rfl, _, he, hr⟩ |
      ⟨h1, h2, h3, h4, rest, rfl, hx, hr⟩ | ⟨x, rest, rfl, _, hx, _, _, _, hr⟩
    · subst h0; simp at hb
    · simp only [List.length_cons] at hn
      have := scannerEscape_byte he
      simp only [List.mem_cons] at hb
      rcases hb with hb | hb | hb
      · omega
      · omega
      · exact ih rest (by omega) hr b hb
    · simp only [List.length_cons] at hn
      obtain ⟨a1, a2, a3, a4⟩ := hex4_bytes hx
      have b1 := hexValue_byte a1
      have b2 := hexValue_byte a2
      have b3 := hexValue_byte a3
      have b4 := hexValue_byte a4
      simp only [List.mem_cons] at hb
      rcases hb with hb | hb | hb | hb | hb | hb | hb
      · omega
      · omega
      · omega
      · omega
      · omega
      · omega
      · exact ih rest (by omega) hr b hb
    · simp only [List.length_cons] at hn
      simp only [List.mem_cons] at hb
      rcases hb with hb | hb
      · omega
      · exact ih rest (by omega) hr b hb

theorem scanString_quote (tail : List Nat) : scanString (0x22 :: tail) = some tail := by
  rw [scanString.eq_def]
  simp only [if_true]

theorem scanString_escape (e : Nat) (rest : List Nat) (h1 : e ≠ 0x75)
    (h2 : scannerEscape e = true) : scanString (0x5C :: e :: rest) = scanString rest := by
  rw [scanString.eq_def]
  have h0 : ¬ (0x5C : Nat) = 0x22 := by decide
  simp only [h0, h1, h2, if_false, if_true]

theorem scanString_hex (h1 h2 h3 h4 : Nat) (rest : List Nat)
    (h : (hex4 h1 h2 h3 h4).isSome = true) :
    scanString (0x5C :: 0x75 :: h1 :: h2 :: h3 :: h4 :: rest) = scanString rest := by
  rw [scanString.eq_def]
  have h0 : ¬ (0x5C : Nat) = 0x22 := by decide
  simp only [h0, h, if_false, if_true]

theorem scanString_byte (b : Nat) (rest : List Nat) (h1 : b ≠ 0x5C) (h2 : 0x20 ≤ b)
    (h3 : b ≠ 0x22) : scanString (b :: rest) = scanString rest := by
  rw [scanString.eq_def]
  have h4 : ¬ b < 0x20 := by omega
  simp only [h1, h3, h4, if_false]

/-- The scanner walks over the body of a string literal up to its closing quote. -/
theorem scanString_body : ∀ (n : Nat) (body : List Nat), body.length ≤ n →
    literalBody body = true → ∀ tail, scanString (body ++ 0x22 :: tail) = some tail := by
  intro n
  induction n with
  | zero =>
    intro body hn _ tail
    cases body with
    | nil => exact scanString_quote tail
    | cons x xs => simp at hn
  | succ n ih =>
    intro body hn h tail
    rcases literalBody_cases body h with h0 | ⟨e, rest, rfl, hne, he, hr⟩ |
      ⟨h1, h2, h3, h4, rest, rfl, hx, hr⟩ | ⟨x, rest, rfl, hx1, hx2, hx3, _, _, hr⟩
    · subst h0; exact scanString_quote tail
    · simp only [List.length_cons] at hn
      have hrec := ih rest (by omega) hr tail
      simp only [List.cons_append]
      rw [scanString_escape _ _ hne he, hrec]
    · simp only [List.length_cons] at hn
      have hrec := ih rest (by omega) hr tail
      simp only [List.cons_append]
      rw [scanString_hex _ _ _ _ _ hx, hrec]
    · simp only [List.length_cons] at hn
      have hrec := ih rest (by omega) hr tail
      simp only [List.cons_append]
      rw [scanString_byte _ _ hx1 hx2 hx3, hrec]

theorem lineSeparatorTail_append_quote (l tail : List Nat) :
    lineSeparatorTail (l ++ 0x22 :: tail) = lineSeparatorTail l := by
  rcases l with _ | ⟨a, _ | ⟨b, rest⟩⟩
  · cases tail <;> simp [lineSeparatorTail]
  · simp [lineSeparatorTail]
  · simp [lineSeparatorTail]

theorem hexValue_plain {b : Nat} (h : (hexValue b).isSome = true) : plainStr b := by
  have := hexValue_byte h
  unfold plainStr
  omega

/-- Compaction copies the body of a string literal and its closing quote. -/
theorem compactText_body : ∀ (n : Nat) (body : List Nat), body.length ≤ n →
    literalBody body = true → ∀ tail,
    compactText 0 .str (body ++ 0x22 :: tail) = body ++ 0x22 :: compactText 0 .out tail := by
  intro n
  induction n with
  | zero =>
    intro body hn _ tail
    cases body with
    | nil => simp [compactText, ScanMode.next]
    | cons x xs => simp at hn
  | succ n ih =>
    intro body hn h tail
    rcases literalBody_cases body h with h0 | ⟨e, rest, rfl, hne, he, hr⟩ |
      ⟨h1, h2, h3, h4, rest, rfl, hx, hr⟩ | ⟨x, rest, rfl, hx1, hx2, hx3, hx4, hx5, hr⟩
    · subst h0; simp [compactText, ScanMode.next]
    · simp only [List.length_cons] at hn
      have hrec := ih rest (by omega) hr tail
      have hb := scannerEscape_byte he
      simp only [List.cons_append]
      rw [compactText_escape _ _ (by omega) (by omega), hrec]
    · simp only [List.length_cons] at hn
      have hrec := ih rest (by omega) hr tail
      obtain ⟨a1, a2, a3, a4⟩ := hex4_bytes hx
      simp only [List.cons_append]
      rw [compactText_escape _ _ (by omega) (by omega),
        compactText_str_plain _ _ (hexValue_plain a1), compactText_str_plain _ _ (hexValue_plain a2),
        compactText_str_plain _ _ (hexValue_plain a3), compactText_str_plain _ _ (hexValue_plain a4),
        hrec]
    · simp only [List.length_cons] at hn
      have hrec := ih rest (by omega) hr tail
      simp only [List.cons_append]
      rw [compactText_str_byte _ _ hx4 hx1 hx3
        (by rw [lineSeparatorTail_append_quote]; exact hx5), hrec]

theorem literalBody_plain (b : Nat) (rest : List Nat) (h1 : b ≠ 0x5C) (h2 : 0x20 ≤ b)
    (h3 : b ≠ 0x22) (h4 : ¬ (b = 0x3C ∨ b = 0x3E ∨ b = 0x26))
    (h5 : ¬ (b = 0xE2 ∧ lineSeparatorTail rest = true)) :
    literalBody (b :: rest) = literalBody rest := by
  have h6 : ¬ (b < 0x20 ∨ b = 0x22 ∨ b = 0x3C ∨ b = 0x3E ∨ b = 0x26) := by omega
  rw [literalBody.eq_def]
  simp only [h1, h5, h6, if_false]

theorem literalBody_escape (e : Nat) (rest : List Nat) (h1 : e ≠ 0x75)
    (h2 : scannerEscape e = true) :
    literalBody (0x5C :: e :: rest) = literalBody rest := by
  rw [literalBody.eq_def]
  simp only [h1, h2, if_false, if_true, Bool.true_and]

theorem literalBody_hex (h1 h2 h3 h4 : Nat) (rest : List Nat)
    (h : (hex4 h1 h2 h3 h4).isSome = true) :
    literalBody (0x5C :: 0x75 :: h1 :: h2 :: h3 :: h4 :: rest) = literalBody rest := by
  rw [literalBody.eq_def]
  simp only [h, if_true, Bool.true_and]

theorem literalBody_escapeChar (c : Char) (rest : List Nat) :
    literalBody (escapeChar c ++ rest) = literalBody rest := by
  have hv := Char.scalar c
  unfold escapeChar
  dsimp only
  split
  · exact literalBody_escape _ _ (by decide) (by decide)
  split
  · exact literalBody_escape _ _ (by decide) (by decide)
  split
  · exact literalBody_escape _ _ (by decide) (by decide)
  split
  · exact literalBody_escape _ _ (by decide) (by decide)
  split
  · exact literalBody_escape _ _ (by decide) (by decide)
  split
  · rename_i h6
    have hlt : c.toNat < 64 := by omega
    have hx := hex4_low c.toNat hlt
    exact literalBody_hex _ _ _ _ _ (by rw [hx]; rfl)
  split
  · rename_i h7
    refine literalBody_hex _ _ _ _ _ ?_
    rcases h7 with h7 | h7 <;> rw [h7] <;> decide
  rename_i h1 h2 h3 h4 h5 h6 h7
  unfold utf8EncodeChar
  dsimp only
  split
  · simp only [List.cons_append, List.nil_append]
    exact literalBody_plain _ _ (by omega) (by omega) (by omega) (by omega) (by omega)
  split
  · simp only [List.cons_append, List.nil_append]
    rw [literalBody_plain _ _ (by omega) (by omega) (by omega) (by omega) (by omega),
      literalBody_plain _ _ (by omega) (by omega) (by omega) (by omega) (by omega)]
  split
  · simp only [List.cons_append, List.nil_append]
    rw [literalBody_plain _ _ (by omega) (by omega) (by omega) (by omega)
        (by simp only [lineSeparatorTail, decide_eq_true_eq]; omega),
      literalBody_plain _ _ (by omega) (by omega) (by omega) (by omega) (by omega),
      literalBody_plain _ _ (by omega) (by omega) (by omega) (by omega) (by omega)]
  · simp only [List.cons_append, List.nil_append]
    rw [literalBody_plain _ _ (by omega) (by omega) (by omega) (by omega) (by omega),
      literalBody_plain _ _ (by omega) (by omega) (by omega) (by omega) (by omega),
      literalBody_plain _ _ (by omega) (by omega) (by omega) (by omega) (by omega),
      literalBody_plain _ _ (by omega) (by omega) (by omega) (by omega) (by omega)]

/-- What the encoder writes for a string of valid UTF-8 is the body of a string
literal. -/
theorem literalBody_escapeChars (cs : List Char) : literalBody (escapeChars cs) = true := by
  induction cs with
  | nil => rfl
  | cons c cs ih =>
    simp only [escapeChars]
    rw [literalBody_escapeChar, ih]

/-! ### The encoder on the bytes of valid UTF-8 -/

theorem utf8EncodeChar_head (c : Char) (h : 0x80 ≤ c.toNat) :
    ∃ b b1 bs, utf8EncodeChar c = b :: b1 :: bs ∧ 0x80 ≤ b := by
  unfold utf8EncodeChar
  dsimp only
  split
  · omega
  split
  · exact ⟨_, _, _, rfl, by omega⟩
  split
  · exact ⟨_, _, _, rfl, by omega⟩
  · exact ⟨_, _, _, rfl, by omega⟩

theorem utf8EncodeChar_length (c : Char) : 1 ≤ (utf8EncodeChar c).length := by
  unfold utf8EncodeChar
  dsimp only
  split
  · simp
  split
  · simp
  split
  · simp
  · simp

theorem utf8Chars_length (cs : List Char) : cs.length ≤ (utf8Chars cs).length := by
  induction cs with
  | nil => simp [utf8Chars]
  | cons c cs ih =>
    have := utf8EncodeChar_length c
    simp only [utf8Chars, List.length_append, List.length_cons]
    omega

theorem escapeChar_ascii (c : Char) (h : c.toNat < 0x80) : escapeChar c = escapeByte c.toNat := by
  have h7 : ¬ (c.toNat = 0x2028 ∨ c.toNat = 0x2029) := by omega
  simp only [escapeChar, escapeByte, utf8EncodeChar, h, h7, if_true, if_false]

theorem encodeRunes_utf8EncodeChar (c : Char) (rest : List Nat) (fuel : Nat) :
    encodeRunes (fuel + 1) (utf8EncodeChar c ++ rest) = escapeChar c ++ encodeRunes fuel rest := by
  by_cases h : c.toNat < 0x80
  · have he : utf8EncodeChar c = [c.toNat] := by simp [utf8EncodeChar, h]
    rw [he, escapeChar_ascii c h]
    simp only [List.cons_append, List.nil_append, encodeRunes, h, if_true]
    rfl
  · obtain ⟨b, b1, bs, hb, hge⟩ := utf8EncodeChar_head c (by omega)
    have hd := decodeRune_utf8EncodeChar c rest (by omega)
    have hlen : (utf8EncodeChar c).length = bs.length + 2 := by rw [hb]; simp
    have htake : List.take (bs.length + 2) (utf8EncodeChar c ++ rest) = utf8EncodeChar c := by
      rw [← hlen]; exact List.take_left _ _
    have hdrop : List.drop (bs.length + 2) (utf8EncodeChar c ++ rest) = rest := by
      rw [← hlen]; exact List.drop_left _ _
    have hesc : escapeChar c = if c.toNat = 0x2028 ∨ c.toNat = 0x2029 then
        [0x5C, 0x75, 0x32, 0x30, 0x32, hexDigit (c.toNat % 16)] else utf8EncodeChar c := by
      have a1 : ¬ c.toNat = 0x22 := by omega
      have a2 : ¬ c.toNat = 0x5C := by omega
      have a3 : ¬ c.toNat = 0x0A := by omega
      have a4 : ¬ c.toNat = 0x0D := by omega
      have a5 : ¬ c.toNat = 0x09 := by omega
      have a6 : ¬ (c.toNat < 0x20 ∨ c.toNat = 0x3C ∨ c.toNat = 0x3E ∨ c.toNat = 0x26) := by omega
      simp only [escapeChar, a1, a2, a3, a4, a5, a6, if_false]
    rw [hlen] at hd
    rw [hesc]
    rw [hb] at hd htake hdrop ⊢
    simp only [List.cons_append] at hd htake hdrop ⊢
    have hb80 : ¬ b < 0x80 := by omega
    have h1 : ¬ (c.toNat = runeError ∧ bs.length + 2 = 1) := by omega
    simp only [encodeRunes, hb80, if_false, hd, h1, htake, hdrop]
    split <;> simp

theorem decodeRune_size (b : Nat) (rest : List Nat) : 1 ≤ (decodeRune (b :: rest)).2 := by
  rw [decodeRune.eq_def]
  by_cases h1 : b < 0x80
  · simp [h1]
  by_cases h2 : 0xC2 ≤ b ∧ b ≤ 0xDF
  · rcases rest with _ | ⟨b1, r1⟩
    · simp [h1, h2]
    · simp only [h1, h2, if_false, if_true, and_self]
      split_ifs <;> simp
  by_cases h3 : 0xE0 ≤ b ∧ b ≤ 0xEF
  · rcases rest with _ | ⟨b1, _ | ⟨b2, r2⟩⟩
    · simp [h1, h2, h3]
    · simp [h1, h2, h3]
    · simp only [h1, h2, h3, if_false, if_true, and_self]
      split_ifs <;> simp
  by_cases h4 : 0xF0 ≤ b ∧ b ≤ 0xF4
  · rcases rest with _ | ⟨b1, _ | ⟨b2, _ | ⟨b3, r3⟩⟩⟩
    · simp [h1, h2, h3, h4]
    · simp [h1, h2, h3, h4]
    · simp [h1, h2, h3, h4]
    · simp only [h1, h2, h3, h4, if_false, if_true, and_self]
      split_ifs <;> simp
  · simp [h1, h2, h3, h4]

/-- The encoder's loop has taken every byte once it was given as many passes
as there are bytes: more passes change nothing. -/
theorem encodeRunes_fuel : ∀ (f g : Nat) (s : List Nat), s.length ≤ f → s.length ≤ g →
    encodeRunes f s = encodeRunes g s := by
  intro f
  induction f with
  | zero =>
    intro g s hf _
    cases s with
    | nil => cases g <;> rfl
    | cons b rest => simp at hf
  | succ f ih =>
    intro g s hf hg
    cases s with
    | nil => cases g <;> rfl
    | cons b rest =>
      obtain ⟨g, rfl⟩ : ∃ k, g = k + 1 := ⟨g - 1, by simp at hg; omega⟩
      simp only [List.length_cons] at hf hg
      have hsz := decodeRune_size b rest
      have hdrop : ((b :: rest).drop (decodeRune (b :: rest)).2).length ≤ rest.length := by
        simp only [List.length_drop, List.length_cons]
        omega
      simp only [encodeRunes]
      rw [ih g rest (by omega) (by omega),
        ih g ((b :: rest).drop (decodeRune (b :: rest)).2) (by omega) (by omega)]

/-- On the bytes of valid UTF-8 the encoder writes each character as
`escapeChar` does. -/
theorem encodeRunes_utf8Chars (cs : List Char) : ∀ fuel, cs.length ≤ fuel →
    encodeRunes fuel (utf8Chars cs) = escapeChars cs := by
  induction cs with
  | nil =>
    intro fuel _
    cases fuel <;> simp [utf8Chars, escapeChars, encodeRunes]
  | cons c cs ih =>
    intro fuel hf
    obtain ⟨f, rfl⟩ : ∃ f, fuel = f + 1 := ⟨fuel - 1, by simp at hf; omega⟩
    simp only [utf8Chars, escapeChars]
    rw [encodeRunes_utf8EncodeChar, ih f (by simpa using hf)]

theorem encodeGoString_utf8Bytes (s : String) : encodeGoString (utf8Bytes s) = encodeString s := by
  have h := utf8Chars_length s.toList
  simp only [encodeGoString, encodeString, utf8Bytes]
  rw [encodeRunes_utf8Chars _ _ h]

/-! ### Scanning the text of a value -/

theorem delimited_numberEnd {tail : List Nat} (h : delimited tail) : numberEnd tail := by
  intro b hb
  have := h b hb
  omega

theorem delimited_cons_comma (l : List Nat) : delimited (0x2C :: l) := by
  intro b hb
  simp at hb
  omega

theorem delimited_cons_bracket (l : List Nat) : delimited (0x5D :: l) := by
  intro b hb
  simp at hb
  omega

theorem delimited_cons_brace (l : List Nat) : delimited (0x7D :: l) := by
  intro b hb
  simp at hb
  omega

theorem skipSpace_start {b : Nat} (bs : List Nat) (h : startByte b) :
    skipSpace (b :: bs) = b :: bs := by
  simp [skipSpace, h.1]

theorem renderItems_single (v : JValue) : JValue.renderItems [v] = v.render := by
  simp [JValue.renderItems]

theorem renderItems_cons2 (v w : JValue) (more : List JValue) :
    JValue.renderItems (v :: w :: more)
      = v.render ++ 0x2C :: JValue.renderItems (w :: more) := by
  rw [JValue.renderItems]

theorem renderFields_single (k : List Nat) (v : JValue) :
    JValue.renderFields [(k, v)] = quoted k ++ 0x3A :: v.render := by
  simp [JValue.renderFields]

theorem renderFields_cons2 (k : List Nat) (v : JValue) (w : List Nat × JValue)
    (more : List (List Nat × JValue)) :
    JValue.renderFields ((k, v) :: w :: more)
      = quoted k ++ 0x3A :: v.render ++ 0x2C :: JValue.renderFields (w :: more) := by
  rw [JValue.renderFields]

theorem quoted_eq (body tail : List Nat) :
    quoted body ++ tail = 0x22 :: (body ++ 0x22 :: tail) := by
  simp [quoted]

theorem quoted_escapeChars (s : String) : quoted (escapeChars s.toList) = encodeString s := rfl

theorem scanString_quoted (body tail : List Nat) (h : literalBody body = true) :
    scanString (body ++ 0x22 :: tail) = some tail :=
  scanString_body body.length body (Nat.le_refl _) h tail

theorem quoted_bytes (body : List Nat) (h : literalBody body = true) :
    ∀ b ∈ quoted body, 0x20 ≤ b := by
  intro b hb
  simp only [quoted, List.mem_cons, List.mem_append, List.mem_singleton] at hb
  rcases hb with hb | hb | hb
  · omega
  · exact literalBody_ge body.length body (Nat.le_refl _) h b hb
  · simp at hb
    omega

theorem render_head (v : JValue) (hwf : v.wf = true) :
    ∃ b bs, v.render = b :: bs ∧ startByte b := by
  cases v with
  | null => exact ⟨0x6E, [0x75, 0x6C, 0x6C], by simp [JValue.render], by simp [startByte, isSpace]⟩
  | bool b =>
    cases b
    · exact ⟨0x66, [0x61, 0x6C, 0x73, 0x65], by simp [JValue.render], by simp [startByte, isSpace]⟩
    · exact ⟨0x74, [0x72, 0x75, 0x65], by simp [JValue.render], by simp [startByte, isSpace]⟩
  | number lit =>
    simp only [JValue.wf, decide_eq_true_eq] at hwf
    obtain ⟨b, bs, hl, hb⟩ := number_head lit hwf
    refine ⟨b, bs, by simp [JValue.render, hl], ?_⟩
    unfold startByte isSpace
    simp only [decide_eq_false_iff_not]
    omega
  | string body =>
    exact ⟨0x22, body ++ [0x22], by simp [JValue.render, quoted],
      by simp [startByte, isSpace]⟩
  | array items =>
    exact ⟨0x5B, JValue.renderItems items ++ [0x5D], by simp [JValue.render], by simp [startByte, isSpace]⟩
  | object fields =>
    exact ⟨0x7B, JValue.renderFields fields ++ [0x7D], by simp [JValue.render], by simp [startByte, isSpace]⟩

theorem renderItems_head (v : JValue) (rest : List JValue) (hwf : v.wf = true) :
    ∃ b bs, JValue.renderItems (v :: rest) = b :: bs ∧ startByte b := by
  obtain ⟨b, bs, hb, hs⟩ := render_head v hwf
  cases rest with
  | nil => exact ⟨b, bs, by rw [renderItems_single, hb], hs⟩
  | cons w more =>
    exact ⟨b, bs ++ 0x2C :: JValue.renderItems (w :: more),
      by rw [renderItems_cons2, hb, List.cons_append], hs⟩

theorem renderFields_head (k : List Nat) (v : JValue) (rest : List (List Nat × JValue)) :
    ∃ bs, JValue.renderFields ((k, v) :: rest) = 0x22 :: bs := by
  cases rest with
  | nil =>
    exact ⟨k ++ 0x22 :: 0x3A :: v.render,
      by simp [renderFields_single, quoted]⟩
  | cons w more =>
    exact ⟨k ++ 0x22 :: 0x3A :: (v.render ++ 0x2C
        :: JValue.renderFields (w :: more)),
      by simp [renderFields_cons2, quoted]⟩

theorem skipSpace_colon (l : List Nat) : skipSpace (0x3A :: l) = 0x3A :: l := by
  simp [skipSpace, isSpace]

theorem skipSpace_comma (l : List Nat) : skipSpace (0x2C :: l) = 0x2C :: l := by
  simp [skipSpace, isSpace]

theorem skipSpace_bracket (l : List Nat) : skipSpace (0x5D :: l) = 0x5D :: l := by
  simp [skipSpace, isSpace]

theorem skipSpace_brace (l : List Nat) : skipSpace (0x7D :: l) = 0x7D :: l := by
  simp [skipSpace, isSpace]

theorem skipSpace_quote (l : List Nat) : skipSpace (0x22 :: l) = 0x22 :: l := by
  simp [skipSpace, isSpace]

mutual
/-- The scanner accepts the text of a well-formed value and stops right after it. -/
theorem scanValue_render : ∀ (v : JValue), v.wf = true → ∀ (tail : List Nat) (fuel : Nat),
    delimited tail → v.render.length < fuel → scanValue fuel (v.render ++ tail) = some tail
  | .null, _, tail, fuel, _, hf => by
    obtain ⟨f, rfl⟩ : ∃ f, fuel = f + 1 := ⟨fuel - 1, by omega⟩
    simp [JValue.render, scanValue, scanLiteral, List.isPrefixOf]
  | .bool true, _, tail, fuel, _, hf => by
    obtain ⟨f, rfl⟩ : ∃ f, fuel = f + 1 := ⟨fuel - 1, by omega⟩
    simp [JValue.render, scanValue, scanLiteral, List.isPrefixOf]
  | .bool false, _, tail, fuel, _, hf => by
    obtain ⟨f, rfl⟩ : ∃ f, fuel = f + 1 := ⟨fuel - 1, by omega⟩
    simp [JValue.render, scanValue, scanLiteral, List.isPrefixOf]
  | .number lit, hwf, tail, fuel, hd, hf => by
    obtain ⟨f, rfl⟩ : ∃ f, fuel = f + 1 := ⟨fuel - 1, by omega⟩
    simp only [JValue.wf, decide_eq_true_eq] at hwf
    obtain ⟨b, bs, hl, hb⟩ := number_head lit hwf
    have happ := scanNumber_append lit [] tail (delimited_numberEnd hd) hwf
    simp only [List.nil_append] at happ
    subst hl
    have h1 : b ≠ 0x22 := by omega
    have h2 : b ≠ 0x5B := by omega
    have h3 : b ≠ 0x7B := by omega
    have h4 : ¬ 0x74 = b := by omega
    have h5 : ¬ 0x66 = b := by omega
    have h6 : ¬ 0x6E = b := by omega
    simp only [List.cons_append] at happ
    simp [JValue.render, scanValue, scanLiteral, List.isPrefixOf, h1, h2, h3, h4, h5, h6, happ]
  | .string body, hwf, tail, fuel, _, hf => by
    obtain ⟨f, rfl⟩ : ∃ f, fuel = f + 1 := ⟨fuel - 1, by omega⟩
    simp only [JValue.wf] at hwf
    have hr := scanString_quoted body tail hwf
    simp only [JValue.render, quoted_eq, scanValue, if_true, hr]
  | .array items, hwf, tail, fuel, _, hf => by
    obtain ⟨f, rfl⟩ : ∃ f, fuel = f + 1 := ⟨fuel - 1, by omega⟩
    simp only [JValue.wf] at hwf
    simp only [JValue.render, List.length_cons, List.length_append, List.length_nil] at hf
    cases items with
    | nil => simp [JValue.render, JValue.renderItems, scanValue, skipSpace, isSpace]
    | cons v rest =>
      have hv : v.wf = true := by
        simp only [JValue.wfItems, Bool.and_eq_true] at hwf
        exact hwf.1
      obtain ⟨b, bs, hb, hs⟩ := renderItems_head v rest hv
      have hrec := scanElements_renderItems (v :: rest) (by simp) hwf tail f (by omega)
      have h1 : (0x5B : Nat) ≠ 0x22 := by decide
      simp only [JValue.render, List.cons_append, List.append_assoc, scanValue, h1, if_false,
        if_true]
      rw [hb] at hrec ⊢
      simp only [List.cons_append] at hrec ⊢
      rw [skipSpace_start _ hs]
      simp only [hs.2.1, if_false]
      exact hrec
  | .object fields, hwf, tail, fuel, _, hf => by
    obtain ⟨f, rfl⟩ : ∃ f, fuel = f + 1 := ⟨fuel - 1, by omega⟩
    simp only [JValue.wf] at hwf
    simp only [JValue.render, List.length_cons, List.length_append, List.length_nil] at hf
    cases fields with
    | nil => simp [JValue.render, JValue.renderFields, scanValue, skipSpace, isSpace]
    | cons kv rest =>
      obtain ⟨k, v⟩ := kv
      obtain ⟨bs, hb⟩ := renderFields_head k v rest
      have hrec := scanMembers_renderFields ((k, v) :: rest) (by simp) hwf tail f (by omega)
      have h1 : (0x7B : Nat) ≠ 0x22 := by decide
      have h2 : (0x7B : Nat) ≠ 0x5B := by decide
      have h3 : (0x22 : Nat) ≠ 0x7D := by decide
      simp only [JValue.render, List.cons_append, List.append_assoc, scanValue, h1, h2, if_false,
        if_true]
      rw [hb] at hrec ⊢
      simp only [List.cons_append] at hrec ⊢
      rw [skipSpace_quote]
      simp only [h3, if_false]
      exact hrec
/-- The scanner accepts the elements of an array up to its closing bracket. -/
theorem scanElements_renderItems : ∀ (items : List JValue), items ≠ [] →
    JValue.wfItems items = true → ∀ (tail : List Nat) (fuel : Nat),
    (JValue.renderItems items).length + 1 < fuel →
    scanElements fuel (JValue.renderItems items ++ 0x5D :: tail) = some tail
  | [], hne, _, _, _, _ => absurd rfl hne
  | v :: rest, _, hwf, tail, fuel, hf => by
    obtain ⟨f, rfl⟩ : ∃ f, fuel = f + 1 := ⟨fuel - 1, by omega⟩
    simp only [JValue.wfItems, Bool.and_eq_true] at hwf
    cases rest with
    | nil =>
      rw [renderItems_single] at hf ⊢
      have hv := scanValue_render v hwf.1 (0x5D :: tail) f (delimited_cons_bracket tail)
        (by omega)
      have h1 : (0x5D : Nat) ≠ 0x2C := by decide
      simp only [scanElements, hv, skipSpace_bracket, h1, if_false, if_true]
    | cons w more =>
      rw [renderItems_cons2] at hf ⊢
      simp only [List.length_append, List.length_cons] at hf
      have hv := scanValue_render v hwf.1
        (0x2C :: (JValue.renderItems (w :: more) ++ 0x5D :: tail)) f
        (delimited_cons_comma _) (by omega)
      have hw : w.wf = true := by
        have := hwf.2
        simp only [JValue.wfItems, Bool.and_eq_true] at this
        exact this.1
      obtain ⟨b, bs, hb, hs⟩ := renderItems_head w more hw
      have hrec := scanElements_renderItems (w :: more) (by simp) hwf.2 tail f (by omega)
      simp only [List.append_assoc, List.cons_append, scanElements, hv, skipSpace_comma, if_true]
      rw [hb] at hrec ⊢
      simp only [List.cons_append] at hrec ⊢
      rw [skipSpace_start _ hs]
      exact hrec
/-- The scanner accepts the members of an object up to its closing brace. -/
theorem scanMembers_renderFields : ∀ (fields : List (List Nat × JValue)), fields ≠ [] →
    JValue.wfFields fields = true → ∀ (tail : List Nat) (fuel : Nat),
    (JValue.renderFields fields).length + 1 < fuel →
    scanMembers fuel (JValue.renderFields fields ++ 0x7D :: tail) = some tail
  | [], hne, _, _, _, _ => absurd rfl hne
  | (k, v) :: rest, _, hwf, tail, fuel, hf => by
    obtain ⟨f, rfl⟩ : ∃ f, fuel = f + 1 := ⟨fuel - 1, by omega⟩
    simp only [JValue.wfFields, Bool.and_eq_true] at hwf
    obtain ⟨b, bs, hb, hs⟩ := render_head v hwf.1.2
    cases rest with
    | nil =>
      rw [renderFields_single] at hf ⊢
      simp only [List.length_append, List.length_cons] at hf
      have hk := scanString_quoted k (0x3A :: (v.render ++ 0x7D :: tail)) hwf.1.1
      have hv := scanValue_render v hwf.1.2 (0x7D :: tail) f (delimited_cons_brace tail)
        (by omega)
      have h1 : (0x7D : Nat) ≠ 0x2C := by decide
      simp only [List.append_assoc, List.cons_append, quoted_eq,
        scanMembers, if_true, hk, skipSpace_colon]
      rw [hb] at hv ⊢
      simp only [List.cons_append] at hv ⊢
      rw [skipSpace_start _ hs]
      simp only [hv, skipSpace_brace, h1, if_false, if_true]
    | cons w more =>
      obtain ⟨k2, v2⟩ := w
      rw [renderFields_cons2] at hf ⊢
      simp only [List.length_append, List.length_cons] at hf
      have hk := scanString_quoted k
        (0x3A :: (v.render ++ 0x2C :: (JValue.renderFields ((k2, v2) :: more) ++ 0x7D :: tail)))
        hwf.1.1
      have hv := scanValue_render v hwf.1.2
        (0x2C :: (JValue.renderFields ((k2, v2) :: more) ++ 0x7D :: tail)) f
        (delimited_cons_comma _) (by omega)
      obtain ⟨bs2, hb2⟩ := renderFields_head k2 v2 more
      have hrec := scanMembers_renderFields ((k2, v2) :: more) (by simp) hwf.2 tail f (by omega)
      simp only [List.append_assoc, List.cons_append, quoted_eq,
        scanMembers, if_true, hk, skipSpace_colon]
      rw [hb] at hv ⊢
      simp only [List.cons_append] at hv ⊢
      rw [skipSpace_start _ hs]
      simp only [hv, skipSpace_comma, if_true]
      rw [hb2] at hrec ⊢
      simp only [List.cons_append] at hrec ⊢
      rw [skipSpace_quote]
      exact hrec
end

/-! ### Bytes of a rendered value -/

theorem numByte_ge {b : Nat} (h : numByte b) : 0x20 ≤ b := by
  unfold numByte at h
  omega

mutual
/-- Every byte of the text of a well-formed value is at least a space. -/
theorem render_bytes : ∀ (v : JValue), v.wf = true → ∀ b ∈ v.render, 0x20 ≤ b
  | .null, _, b, hb => by
    simp [JValue.render] at hb
    omega
  | .bool true, _, b, hb => by
    simp [JValue.render] at hb
    omega
  | .bool false, _, b, hb => by
    simp [JValue.render] at hb
    omega
  | .number lit, hwf, b, hb => by
    simp only [JValue.wf, decide_eq_true_eq] at hwf
    simp only [JValue.render] at hb
    exact numByte_ge (number_bytes lit hwf b hb)
  | .string body, hwf, b, hb => by
    simp only [JValue.wf] at hwf
    simp only [JValue.render] at hb
    exact quoted_bytes body hwf b hb
  | .array items, hwf, b, hb => by
    simp only [JValue.wf] at hwf
    simp only [JValue.render, List.mem_cons, List.mem_append, List.mem_singleton] at hb
    rcases hb with hb | hb | hb
    · omega
    · exact renderItems_bytes items hwf b hb
    · simp at hb
      omega
  | .object fields, hwf, b, hb => by
    simp only [JValue.wf] at hwf
    simp only [JValue.render, List.mem_cons, List.mem_append, List.mem_singleton] at hb
    rcases hb with hb | hb | hb
    · omega
    · exact renderFields_bytes fields hwf b hb
    · simp at hb
      omega
/-- The same for the elements of an array. -/
theorem renderItems_bytes : ∀ (items : List JValue), JValue.wfItems items = true →
    ∀ b ∈ JValue.renderItems items, 0x20 ≤ b
  | [], _, b, hb => by simp [JValue.renderItems] at hb
  | [v], hwf, b, hb => by
    simp only [JValue.wfItems, Bool.and_eq_true] at hwf
    rw [renderItems_single] at hb
    exact render_bytes v hwf.1 b hb
  | v :: w :: more, hwf, b, hb => by
    simp only [JValue.wfItems, Bool.and_eq_true] at hwf
    rw [renderItems_cons2] at hb
    simp only [List.mem_append, List.mem_cons] at hb
    rcases hb with hb | hb | hb
    · exact render_bytes v hwf.1 b hb
    · omega
    · exact renderItems_bytes (w :: more) (by simp [JValue.wfItems, hwf.2]) b hb
/-- The same for the members of an object. -/
theorem renderFields_bytes : ∀ (fields : List (List Nat × JValue)),
    JValue.wfFields fields = true → ∀ b ∈ JValue.renderFields fields, 0x20 ≤ b
  | [], _, b, hb => by simp [JValue.renderFields] at hb
  | [(k, v)], hwf, b, hb => by
    simp only [JValue.wfFields, Bool.and_eq_true] at hwf
    rw [renderFields_single] at hb
    simp only [List.mem_append, List.mem_cons] at hb
    rcases hb with hb | hb | hb
    · exact quoted_bytes k hwf.1.1 b hb
    · omega
    · exact render_bytes v hwf.1.2 b hb
  | (k, v) :: w :: more, hwf, b, hb => by
    simp only [JValue.wfFields, Bool.and_eq_true] at hwf
    rw [renderFields_cons2] at hb
    simp only [List.mem_append, List.mem_cons] at hb
    rcases hb with (hb | hb | hb) | hb | hb
    · exact quoted_bytes k hwf.1.1 b hb
    · omega
    · exact render_bytes v hwf.1.2 b hb
    · omega
    · exact renderFields_bytes (w :: more)
        (by simp only [JValue.wfFields, Bool.and_eq_true]; exact hwf.2) b hb
end

/-! ### Decoding what was encoded -/

theorem spanBefore_append (x rest : List Nat) : spanBefore (x ++ rest) rest = x := by
  simp [spanBefore]

theorem decodeElements_renderItems : ∀ (items : List JValue), items ≠ [] →
    JValue.wfItems items = true → ∀ (tail : List Nat) (fuel : Nat),
    (JValue.renderItems items).length + 1 < fuel →
    decodeElements fuel (JValue.renderItems items ++ 0x5D :: tail)
      = some (items.map JValue.render)
  | [], hne, _, _, _, _ => absurd rfl hne
  | [v], _, hwf, tail, fuel, hf => by
    obtain ⟨f, rfl⟩ : ∃ f, fuel = f + 1 := ⟨fuel - 1, by omega⟩
    simp only [JValue.wfItems, Bool.and_eq_true] at hwf
    rw [renderItems_single] at hf ⊢
    have hv := scanValue_render v hwf.1 (0x5D :: tail) f (delimited_cons_bracket tail)
      (by omega)
    have h1 : (0x5D : Nat) ≠ 0x2C := by decide
    simp only [decodeElements, hv, skipSpace_bracket, h1, if_false, if_true, spanBefore_append,
      List.map_cons, List.map_nil]
  | v :: w :: more, _, hwf, tail, fuel, hf => by
    obtain ⟨f, rfl⟩ : ∃ f, fuel = f + 1 := ⟨fuel - 1, by omega⟩
    simp only [JValue.wfItems, Bool.and_eq_true] at hwf
    rw [renderItems_cons2] at hf ⊢
    simp only [List.length_append, List.length_cons] at hf
    have hv := scanValue_render v hwf.1
      (0x2C :: (JValue.renderItems (w :: more) ++ 0x5D :: tail)) f
      (delimited_cons_comma _) (by omega)
    obtain ⟨b, bs, hb, hs⟩ := renderItems_head w more hwf.2.1
    have hrec := decodeElements_renderItems (w :: more) (by simp)
      (by simp [JValue.wfItems, hwf.2]) tail f (by omega)
    simp only [List.append_assoc, List.cons_append, decodeElements, hv, skipSpace_comma, if_true,
      spanBefore_append]
    rw [hb] at hrec ⊢
    simp only [List.cons_append] at hrec ⊢
    rw [skipSpace_start _ hs, hrec]
    simp

theorem decodeRawArray_render (items : List JValue) (hwf : JValue.wfItems items = true) :
    decodeRawArray (JValue.array items).render = some (items.map JValue.render) := by
  cases items with
  | nil => simp [decodeRawArray, JValue.render, JValue.renderItems, skipSpace, isSpace]
  | cons v rest =>
    have hv : v.wf = true := by
      simp only [JValue.wfItems, Bool.and_eq_true] at hwf
      exact hwf.1
    obtain ⟨b, bs, hb, hs⟩ := renderItems_head v rest hv
    have hrec := decodeElements_renderItems (v :: rest) (by simp) hwf []
      ((JValue.array (v :: rest)).render.length + 1)
      (by simp [JValue.render])
    simp only [decodeRawArray, JValue.render]
    rw [hb] at hrec ⊢
    simp only [List.cons_append] at hrec ⊢
    rw [skipSpace_start _ hs]
    simp only [hs.2.1, if_false]
    simpa [JValue.render, hb] using hrec

theorem decodeMembers_renderFields {σ : Type}
    (set : σ → List Char → List Nat → Except GoError σ) :
    ∀ (fields : List (String × JValue)), fields ≠ [] → JValue.wfFields (keyed fields) = true →
    ∀ (tail : List Nat) (fuel : Nat) (st : σ),
    (JValue.renderFields (keyed fields)).length + 1 < fuel →
    decodeMembers set fuel (JValue.renderFields (keyed fields) ++ 0x7D :: tail) st
      = feedMembers set fields st
  | [], hne, _, _, _, _, _ => absurd rfl hne
  | [(k, v)], _, hwf, tail, fuel, st, hf => by
    obtain ⟨f, rfl⟩ : ∃ f, fuel = f + 1 := ⟨fuel - 1, by omega⟩
    simp only [keyed, List.map_cons, List.map_nil] at hwf hf ⊢
    simp only [JValue.wfFields, Bool.and_eq_true] at hwf
    have hkl := encodeString_length k
    obtain ⟨b, bs, hb, hs⟩ := render_head v hwf.1.2
    rw [renderFields_single, quoted_escapeChars] at hf ⊢
    simp only [List.length_append, List.length_cons] at hf
    have hk := readString_encodeString k (0x3A :: (v.render ++ 0x7D :: tail)) f (by omega)
    have hv := scanValue_render v hwf.1.2 (0x7D :: tail) f (delimited_cons_brace tail)
      (by omega)
    have hsp := spanBefore_append v.render (0x7D :: tail)
    have h1 : (0x7D : Nat) ≠ 0x2C := by decide
    simp only [List.append_assoc, List.cons_append, encodeString_eq,
      decodeMembers, if_true, hk, skipSpace_colon, feedMembers]
    rw [hb] at hv hsp ⊢
    simp only [List.cons_append] at hv hsp ⊢
    rw [skipSpace_start _ hs]
    simp only [hv, hsp]
    cases set st k.toList (b :: bs) with
    | error e => rfl
    | ok st1 => simp only [skipSpace_brace, h1, if_false, if_true]
  | (k, v) :: (k2, v2) :: more, _, hwf, tail, fuel, st, hf => by
    obtain ⟨f, rfl⟩ : ∃ f, fuel = f + 1 := ⟨fuel - 1, by omega⟩
    have hrec := fun (hw : JValue.wfFields (keyed ((k2, v2) :: more)) = true)
        (hl : (JValue.renderFields (keyed ((k2, v2) :: more))).length + 1 < f) st1 =>
      decodeMembers_renderFields set ((k2, v2) :: more) (by simp) hw tail f st1 hl
    simp only [keyed, List.map_cons] at hwf hf hrec ⊢
    simp only [JValue.wfFields, Bool.and_eq_true] at hwf
    have hkl := encodeString_length k
    obtain ⟨b, bs, hb, hs⟩ := render_head v hwf.1.2
    rw [renderFields_cons2, quoted_escapeChars] at hf ⊢
    simp only [List.length_append, List.length_cons] at hf
    have hk := readString_encodeString k
      (0x3A :: (v.render ++ 0x2C :: (JValue.renderFields ((escapeChars k2.toList, v2)
        :: List.map (fun kv => (escapeChars kv.1.toList, kv.2)) more) ++ 0x7D :: tail)))
      f (by omega)
    have hv := scanValue_render v hwf.1.2
      (0x2C :: (JValue.renderFields ((escapeChars k2.toList, v2)
        :: List.map (fun kv => (escapeChars kv.1.toList, kv.2)) more) ++ 0x7D :: tail)) f
      (delimited_cons_comma _) (by omega)
    have hsp := spanBefore_append v.render
      (0x2C :: (JValue.renderFields ((escapeChars k2.toList, v2)
        :: List.map (fun kv => (escapeChars kv.1.toList, kv.2)) more) ++ 0x7D :: tail))
    obtain ⟨bs2, hb2⟩ := renderFields_head (escapeChars k2.toList) v2
      (List.map (fun kv => (escapeChars kv.1.toList, kv.2)) more)
    have hrec2 := hrec (by simp only [JValue.wfFields, Bool.and_eq_true]; exact hwf.2)
      (by omega)
    simp only [List.append_assoc, List.cons_append, encodeString_eq,
      decodeMembers, if_true, hk, skipSpace_colon]
    rw [feedMembers]
    rw [hb] at hv hsp ⊢
    simp only [List.cons_append] at hv hsp ⊢
    rw [skipSpace_start _ hs]
    simp only [hv, hsp]
    cases set st k.toList (b :: bs) with
    | error e => rfl
    | ok st1 =>
      have hr := hrec2 st1
      simp only [skipSpace_comma, if_true]
      rw [hb2] at hr ⊢
      simp only [List.cons_append] at hr ⊢
      rw [skipSpace_quote]
      exact hr

/-! ### Valid texts -/

theorem wfItems_iff (vs : List JValue) :
    JValue.wfItems vs = true ↔ ∀ v ∈ vs, v.wf = true := by
  induction vs with
  | nil => simp [JValue.wfItems]
  | cons v rest ih => simp [JValue.wfItems, ih]

theorem joinComma_map_render (vs : List JValue) :
    joinComma (vs.map JValue.render) = JValue.renderItems vs := by
  induction vs with
  | nil => simp [joinComma, JValue.renderItems]
  | cons v rest ih =>
    cases rest with
    | nil => simp [joinComma, renderItems_single]
    | cons w more =>
      rw [renderItems_cons2, ← ih]
      simp [joinComma]

theorem validJSON_render (v : JValue) (hwf : v.wf = true) : validJSON v.render = true := by
  obtain ⟨b, bs, hb, hs⟩ := render_head v hwf
  have h := scanValue_render v hwf [] (v.render.length + 1) (by intro b hb; simp at hb)
    (by omega)
  simp only [List.append_nil] at h
  unfold validJSON
  rw [hb] at h ⊢
  rw [skipSpace_start _ hs, h]
  simp [skipSpace]

/-! ### Compaction leaves the text of a value as it is -/

theorem compactText_quoted (body tail : List Nat) (h : literalBody body = true) :
    compactText 0 .out (quoted body ++ tail) = quoted body ++ compactText 0 .out tail := by
  have hq : ∀ l, compactText 0 .out (0x22 :: l) = 0x22 :: compactText 0 .str l := by
    intro l
    simp [compactText, ScanMode.next, isSpace]
  rw [quoted_eq, quoted_eq, hq, compactText_body body.length body (Nat.le_refl _) h]

theorem numByte_plainOut {b : Nat} (h : numByte b) : plainOut b := by
  unfold numByte at h
  unfold plainOut plainStr isSpace
  simp only [decide_eq_false_iff_not]
  omega

theorem plainOut_of_mem {b : Nat}
    (h : b = 0x5B ∨ b = 0x5D ∨ b = 0x7B ∨ b = 0x7D ∨ b = 0x2C ∨ b = 0x3A
      ∨ (0x61 ≤ b ∧ b ≤ 0x7A)) : plainOut b := by
  unfold plainOut plainStr isSpace
  simp only [decide_eq_false_iff_not]
  omega

mutual
/-- Compaction copies the text of a well-formed value. -/
theorem compactText_render : ∀ (v : JValue), v.wf = true → ∀ (tail : List Nat),
    compactText 0 .out (v.render ++ tail) = v.render ++ compactText 0 .out tail
  | .null, _, tail => by
    apply compactText_out_plain_list
    intro b hb
    simp [JValue.render] at hb
    exact plainOut_of_mem (by omega)
  | .bool true, _, tail => by
    apply compactText_out_plain_list
    intro b hb
    simp [JValue.render] at hb
    exact plainOut_of_mem (by omega)
  | .bool false, _, tail => by
    apply compactText_out_plain_list
    intro b hb
    simp [JValue.render] at hb
    exact plainOut_of_mem (by omega)
  | .number lit, hwf, tail => by
    simp only [JValue.wf, decide_eq_true_eq] at hwf
    apply compactText_out_plain_list
    intro b hb
    exact numByte_plainOut (number_bytes lit hwf b hb)
  | .string body, hwf, tail => by
    simp only [JValue.wf] at hwf
    simp only [JValue.render]
    exact compactText_quoted body tail hwf
  | .array items, hwf, tail => by
    simp only [JValue.wf] at hwf
    simp only [JValue.render, List.cons_append, List.append_assoc]
    rw [compactText_out_plain _ _ (plainOut_of_mem (by omega)),
      compactText_renderItems items hwf, List.nil_append,
      compactText_out_plain _ _ (plainOut_of_mem (by omega)), List.nil_append]
  | .object fields, hwf, tail => by
    simp only [JValue.wf] at hwf
    simp only [JValue.render, List.cons_append, List.append_assoc]
    rw [compactText_out_plain _ _ (plainOut_of_mem (by omega)),
      compactText_renderFields fields hwf, List.nil_append,
      compactText_out_plain _ _ (plainOut_of_mem (by omega)), List.nil_append]
/-- The same for the elements of an array. -/
theorem compactText_renderItems : ∀ (items : List JValue), JValue.wfItems items = true →
    ∀ (tail : List Nat),
    compactText 0 .out (JValue.renderItems items ++ tail)
      = JValue.renderItems items ++ compactText 0 .out tail
  | [], _, tail => by simp [JValue.renderItems]
  | [v], hwf, tail => by
    simp only [JValue.wfItems, Bool.and_eq_true] at hwf
    rw [renderItems_single]
    exact compactText_render v hwf.1 tail
  | v :: w :: more, hwf, tail => by
    simp only [JValue.wfItems, Bool.and_eq_true] at hwf
    rw [renderItems_cons2]
    simp only [List.append_assoc, List.cons_append]
    rw [compactText_render v hwf.1, compactText_out_plain _ _ (plainOut_of_mem (by omega)),
      compactText_renderItems (w :: more) (by simp [JValue.wfItems, hwf.2])]
/-- The same for the members of an object. -/
theorem compactText_renderFields : ∀ (fields : List (List Nat × JValue)),
    JValue.wfFields fields = true → ∀ (tail : List Nat),
    compactText 0 .out (JValue.renderFields fields ++ tail)
      = JValue.renderFields fields ++ compactText 0 .out tail
  | [], _, tail => by simp [JValue.renderFields]
  | [(k, v)], hwf, tail => by
    simp only [JValue.wfFields, Bool.and_eq_true] at hwf
    rw [renderFields_single]
    simp only [List.append_assoc, List.cons_append]
    rw [compactText_quoted _ _ hwf.1.1, compactText_out_plain _ _ (plainOut_of_mem (by omega)),
      compactText_render v hwf.1.2]
  | (k, v) :: w :: more, hwf, tail => by
    simp only [JValue.wfFields, Bool.and_eq_true] at hwf
    rw [renderFields_cons2]
    simp only [List.append_assoc, List.cons_append]
    rw [compactText_quoted _ _ hwf.1.1, compactText_out_plain _ _ (plainOut_of_mem (by omega)),
      compactText_render v hwf.1.2, compactText_out_plain _ _ (plainOut_of_mem (by omega)),
      compactText_renderFields (w :: more)
        (by simp only [JValue.wfFields, Bool.and_eq_true]; exact hwf.2)]
end

theorem compactRaw_render (v : JValue) (hwf : v.wf = true) :
    compactRaw v.render = .ok v.render := by
  have h := compactText_render v hwf []
  simp only [List.append_nil] at h
  have h0 : compactText 0 ScanMode.out [] = [] := rfl
  rw [h0, List.append_nil] at h
  simp [compactRaw, validJSON_render v hwf, h]

theorem compactAll_render (vs : List JValue) (hwf : ∀ v ∈ vs, v.wf = true) :
    compactAll (vs.map JValue.render) = .ok (vs.map JValue.render) := by
  induction vs with
  | nil => rfl
  | cons v rest ih =>
    have hv := compactRaw_render v (hwf v (by simp))
    have hr := ih (fun w hw => hwf w (by simp [hw]))
    simp [compactAll, hv, hr]

/-! ### Every valid text compacts to the text of a tree -/

theorem compactText_skipSpace (bs : List Nat) :
    compactText 0 .out (skipSpace bs) = compactText 0 .out bs := by
  induction bs with
  | nil => rfl
  | cons b rest ih =>
    by_cases hb : isSpace b = true
    · have hb2 := hb
      simp only [isSpace, decide_eq_true_eq] at hb2
      have h1 : ¬ (b = 0x3C ∨ b = 0x3E ∨ b = 0x26) := by omega
      have h2 : ¬ (b = 0xE2 ∧ lineSeparatorTail rest = true) := by omega
      simp only [skipSpace, hb, if_true, ih]
      simp [compactText, h1, h2, hb]
    · simp [skipSpace, hb]

theorem compactText_str_quote (l : List Nat) :
    compactText 0 .str (0x22 :: l) = 0x22 :: compactText 0 .out l := by
  simp [compactText, ScanMode.next]

theorem compactText_out_quote (l : List Nat) :
    compactText 0 .out (0x22 :: l) = 0x22 :: compactText 0 .str l := by
  simp [compactText, ScanMode.next, isSpace]

theorem compactText_str_html (b : Nat) (bs : List Nat) (h : b = 0x3C ∨ b = 0x3E ∨ b = 0x26) :
    compactText 0 .str (b :: bs)
      = 0x5C :: 0x75 :: 0x30 :: 0x30 :: hexDigit (b / 16) :: hexDigit (b % 16)
        :: compactText 0 .str bs := by
  have h1 : b ≠ 0x5C := by omega
  have h2 : b ≠ 0x22 := by omega
  simp [compactText, h, ScanMode.next, h1, h2]

theorem compactText_str_separator (b2 : Nat) (bs : List Nat) (h : b2 = 0xA8 ∨ b2 = 0xA9) :
    compactText 0 .str (0xE2 :: 0x80 :: b2 :: bs)
      = 0x5C :: 0x75 :: 0x32 :: 0x30 :: 0x32 :: hexDigit (b2 % 16)
        :: compactText 0 .str bs := by
  simp [compactText, lineSeparatorTail, h]

theorem lineSeparatorTail_cases {l : List Nat} (h : lineSeparatorTail l = true) :
    ∃ b2 rest, l = 0x80 :: b2 :: rest ∧ (b2 = 0xA8 ∨ b2 = 0xA9) := by
  rcases l with _ | ⟨a, _ | ⟨b, rest⟩⟩
  · simp [lineSeparatorTail] at h
  · simp [lineSeparatorTail] at h
  · simp only [lineSeparatorTail, Bool.and_eq_true, Bool.or_eq_true, decide_eq_true_eq] at h
    exact ⟨b, rest, by rw [h.1], h.2⟩

/-- Compaction of a string literal after its opening quote, up to the closing
quote the scanner finds, is the body of a string literal. -/
theorem compactText_scanString : ∀ (n : Nat) (bs rest : List Nat), bs.length ≤ n →
    scanString bs = some rest →
    ∃ body, literalBody body = true ∧
      compactText 0 .str bs = body ++ 0x22 :: compactText 0 .out rest ∧
      (∀ x, body.head? = some x → x = 0x5C ∨ bs.head? = some x) ∧
      (lineSeparatorTail body = true → lineSeparatorTail bs = true) := by
  intro n
  induction n with
  | zero =>
    intro bs rest hn h
    cases bs with
    | nil => rw [scanString.eq_def] at h; simp at h
    | cons x xs => simp at hn
  | succ n ih =>
    intro bs rest hn h
    cases bs with
    | nil => rw [scanString.eq_def] at h; simp at h
    | cons b rest0 =>
      simp only [List.length_cons] at hn
      by_cases hq : b = 0x22
      · subst hq
        rw [scanString_quote] at h
        simp only [Option.some.injEq] at h
        subst h
        exact ⟨[], rfl, by rw [compactText_str_quote]; rfl, by simp, by simp [lineSeparatorTail]⟩
      by_cases hbs : b = 0x5C
      · subst hbs
        cases rest0 with
        | nil => rw [scanString.eq_def] at h; simp at h
        | cons e rest1 =>
          simp only [List.length_cons] at hn
          by_cases he : e = 0x75
          · subst he
            rcases rest1 with _ | ⟨h1, _ | ⟨h2, _ | ⟨h3, _ | ⟨h4, rest2⟩⟩⟩⟩
            · rw [scanString.eq_def] at h; simp at h
            · rw [scanString.eq_def] at h; simp at h
            · rw [scanString.eq_def] at h; simp at h
            · rw [scanString.eq_def] at h; simp at h
            · simp only [List.length_cons] at hn
              by_cases hx : (hex4 h1 h2 h3 h4).isSome = true
              · rw [scanString_hex _ _ _ _ _ hx] at h
                obtain ⟨body, hb1, hb2, _, _⟩ := ih rest2 rest (by omega) h
                obtain ⟨a1, a2, a3, a4⟩ := hex4_bytes hx
                refine ⟨0x5C :: 0x75 :: h1 :: h2 :: h3 :: h4 :: body, ?_, ?_, ?_, ?_⟩
                · rw [literalBody_hex _ _ _ _ _ hx]; exact hb1
                · rw [compactText_escape _ _ (by omega) (by omega),
                    compactText_str_plain _ _ (hexValue_plain a1),
                    compactText_str_plain _ _ (hexValue_plain a2),
                    compactText_str_plain _ _ (hexValue_plain a3),
                    compactText_str_plain _ _ (hexValue_plain a4), hb2]
                  rfl
                · intro x hx; left; simpa using hx.symm
                · intro hl; simp [lineSeparatorTail] at hl
              · rw [scanString.eq_def] at h; simp [hx] at h
          · by_cases hs : scannerEscape e = true
            · rw [scanString_escape _ _ he hs] at h
              obtain ⟨body, hb1, hb2, _, _⟩ := ih rest1 rest (by omega) h
              have hb := scannerEscape_byte hs
              refine ⟨0x5C :: e :: body, ?_, ?_, ?_, ?_⟩
              · rw [literalBody_escape _ _ he hs]; exact hb1
              · rw [compactText_escape _ _ (by omega) (by omega), hb2]
                rfl
              · intro x hx; left; simpa using hx.symm
              · intro hl; simp [lineSeparatorTail] at hl
            · rw [scanString.eq_def] at h; simp [he, hs] at h
      by_cases hlt : b < 0x20
      · rw [scanString.eq_def] at h; simp [hq, hbs, hlt] at h
      rw [scanString_byte _ _ hbs (by omega) hq] at h
      by_cases hsp : b = 0x3C ∨ b = 0x3E ∨ b = 0x26
      · obtain ⟨body, hb1, hb2, _, _⟩ := ih rest0 rest (by omega) h
        have hx := hex4_low b (by omega)
        refine ⟨0x5C :: 0x75 :: 0x30 :: 0x30 :: hexDigit (b / 16) :: hexDigit (b % 16) :: body,
          ?_, ?_, ?_, ?_⟩
        · rw [literalBody_hex _ _ _ _ _ (by rw [hx]; rfl)]; exact hb1
        · rw [compactText_str_html _ _ hsp, hb2]
          rfl
        · intro x hx; left; simpa using hx.symm
        · intro hl; simp [lineSeparatorTail] at hl
      by_cases hls : b = 0xE2 ∧ lineSeparatorTail rest0 = true
      · obtain ⟨hbe, hl⟩ := hls
        subst hbe
        obtain ⟨b2, rest2, rfl, hb2⟩ := lineSeparatorTail_cases hl
        simp only [List.length_cons] at hn
        rw [scanString_byte _ _ (by decide) (by decide) (by decide),
          scanString_byte _ _ (by omega) (by omega) (by omega)] at h
        obtain ⟨body, hb1, hbc, _, _⟩ := ih rest2 rest (by omega) h
        refine ⟨0x5C :: 0x75 :: 0x32 :: 0x30 :: 0x32 :: hexDigit (b2 % 16) :: body,
          ?_, ?_, ?_, ?_⟩
        · rw [literalBody_hex _ _ _ _ _
            (by rcases hb2 with hb2 | hb2 <;> rw [hb2] <;> decide)]
          exact hb1
        · rw [compactText_str_separator _ _ hb2, hbc]
          rfl
        · intro x hx; left; simpa using hx.symm
        · intro hl; simp [lineSeparatorTail] at hl
      · obtain ⟨body, hb1, hb2, hh, hh2⟩ := ih rest0 rest (by omega) h
        have hnb : ¬ (b = 0xE2 ∧ lineSeparatorTail body = true) := by
          intro hc
          exact hls ⟨hc.1, hh2 hc.2⟩
        refine ⟨b :: body, ?_, ?_, ?_, ?_⟩
        · rw [literalBody_plain _ _ hbs (by omega) hq hsp hnb]; exact hb1
        · rw [compactText_str_byte _ _ hsp hbs hq hls, hb2]
          rfl
        · intro x hx; right; simpa using hx
        · intro hl
          obtain ⟨y, more, hy, hy2⟩ := lineSeparatorTail_cases hl
          simp only [List.cons.injEq] at hy
          obtain ⟨hy0, hy1⟩ := hy
          subst hy0
          subst hy1
          rcases hh y (by simp) with hc | hc
          · omega
          · cases rest0 with
            | nil => simp at hc
            | cons z zs =>
              simp only [List.head?_cons, Option.some.injEq] at hc
              subst hc
              simp [lineSeparatorTail, hy2]

/-! ### The literal of a number the scanner accepts -/

theorem skipDigits_prefix (l : List Nat) :
    ∃ p, l = p ++ skipDigits l ∧ ∀ b ∈ p, isDigit b = true := by
  induction l with
  | nil => exact ⟨[], rfl, by simp⟩
  | cons b bs ih =>
    by_cases hb : isDigit b = true
    · obtain ⟨p, hp, hall⟩ := ih
      refine ⟨b :: p, ?_, ?_⟩
      · simp only [skipDigits, hb, if_true, List.cons_append]
        rw [← hp]
      · intro x hx
        simp only [List.mem_cons] at hx
        rcases hx with hx | hx
        · rw [hx]; exact hb
        · exact hall x hx
    · exact ⟨[], by simp [skipDigits, hb], by simp⟩

theorem skipDigits_digits (p l : List Nat) (hp : ∀ b ∈ p, isDigit b = true) :
    skipDigits (p ++ l) = skipDigits l := by
  induction p with
  | nil => rfl
  | cons b bs ih =>
    have hb := hp b (by simp)
    simp only [List.cons_append, skipDigits, hb, if_true]
    exact ih (fun x hx => hp x (by simp [hx]))

theorem skipDigits_head (l : List Nat) (h : ∀ b ∈ l.head?, isDigit b = false) :
    skipDigits l = l := by
  cases l with
  | nil => rfl
  | cons b bs =>
    have := h b (by simp)
    simp [skipDigits, this]

theorem scanExp_prefix (l r : List Nat) (hs : scanExp l = some r) :
    ∃ p, l = p ++ r ∧ scanExp p = some [] ∧ ∀ b ∈ p.head?, isDigit b = false := by
  cases l with
  | nil =>
    simp only [scanExp, Option.some.injEq] at hs
    subst hs
    exact ⟨[], rfl, rfl, by simp⟩
  | cons e l1 =>
    by_cases he : e = 0x65 ∨ e = 0x45
    · have hed : isDigit e = false := by
        simp only [isDigit, decide_eq_false_iff_not]
        omega
      simp only [scanExp, he, if_true] at hs
      cases l1 with
      | nil => simp at hs
      | cons s l2 =>
        simp only at hs
        by_cases hsg : s = 0x2B ∨ s = 0x2D
        · simp only [hsg, if_true] at hs
          cases l2 with
          | nil => simp at hs
          | cons d l3 =>
            simp only at hs
            by_cases hd : isDigit d = true
            · simp only [hd, if_true, Option.some.injEq] at hs
              obtain ⟨pd, hpd, hdig⟩ := skipDigits_prefix l3
              have h0 := skipDigits_digits pd [] hdig
              simp only [List.append_nil] at h0
              refine ⟨e :: s :: d :: pd, ?_, ?_, ?_⟩
              · rw [← hs]
                simp only [List.cons_append]
                rw [← hpd]
              · simp only [scanExp, he, hsg, hd, if_true, h0]
                rfl
              · intro b hb
                simp only [List.head?_cons, Option.mem_def, Option.some.injEq] at hb
                rw [← hb]; exact hed
            · simp [hd] at hs
        · simp only [hsg, if_false] at hs
          by_cases hd : isDigit s = true
          · simp only [hd, if_true, Option.some.injEq] at hs
            obtain ⟨pd, hpd, hdig⟩ := skipDigits_prefix l2
            have h0 := skipDigits_digits pd [] hdig
            simp only [List.append_nil] at h0
            refine ⟨e :: s :: pd, ?_, ?_, ?_⟩
            · rw [← hs]
              simp only [List.cons_append]
              rw [← hpd]
            · simp only [scanExp, he, hsg, hd, if_true, if_false, h0]
              rfl
            · intro b hb
              simp only [List.head?_cons, Option.mem_def, Option.some.injEq] at hb
              rw [← hb]; exact hed
          · simp [hd] at hs
    · simp only [scanExp, he, if_false, Option.some.injEq] at hs
      subst hs
      exact ⟨[], rfl, rfl, by simp⟩

theorem scanFrac_prefix (l r : List Nat) (hs : scanFrac l = some r) :
    ∃ p, l = p ++ r ∧ scanFrac p = some [] ∧ ∀ b ∈ p.head?, isDigit b = false := by
  cases l with
  | nil =>
    simp only [scanFrac, Option.some.injEq] at hs
    subst hs
    exact ⟨[], rfl, rfl, by simp⟩
  | cons c l1 =>
    by_cases hc : c = 0x2E
    · simp only [scanFrac, hc, if_true] at hs
      cases l1 with
      | nil => simp at hs
      | cons d l2 =>
        simp only at hs
        by_cases hd : isDigit d = true
        · simp only [hd, if_true] at hs
          obtain ⟨pd, hpd, hdig⟩ := skipDigits_prefix l2
          obtain ⟨pe, hpe, hse, hhe⟩ := scanExp_prefix _ _ hs
          have h0 : skipDigits (pd ++ pe) = pe := by
            rw [skipDigits_digits pd pe hdig, skipDigits_head pe hhe]
          refine ⟨c :: d :: (pd ++ pe), ?_, ?_, ?_⟩
          · simp only [List.cons_append, List.append_assoc]
            rw [← hpe, ← hpd]
          · simp only [scanFrac, hc, hd, if_true, h0, hse]
          · intro b hb
            simp only [List.head?_cons, Option.mem_def, Option.some.injEq] at hb
            rw [← hb, hc]; decide
        · simp [hd] at hs
    · simp only [scanFrac, hc, if_false] at hs
      obtain ⟨pe, hpe, hse, hhe⟩ := scanExp_prefix _ _ hs
      refine ⟨pe, hpe, ?_, hhe⟩
      cases pe with
      | nil => rfl
      | cons x xs =>
        have hx : x = c := by
          have := congrArg List.head? hpe
          simpa using this.symm
        subst hx
        simp only [scanFrac, hc, if_false, hse]

theorem scanUnsigned_prefix (l r : List Nat) (hs : scanUnsigned l = some r) :
    ∃ p, l = p ++ r ∧ scanUnsigned p = some [] ∧ ∀ b ∈ p.head?, b ≠ 0x2D := by
  cases l with
  | nil => simp [scanUnsigned] at hs
  | cons d l1 =>
    by_cases h0 : d = 0x30
    · simp only [scanUnsigned, h0, if_true] at hs
      obtain ⟨pf, hpf, hsf, _⟩ := scanFrac_prefix _ _ hs
      refine ⟨d :: pf, ?_, ?_, ?_⟩
      · simp only [List.cons_append]
        rw [← hpf]
      · simp only [scanUnsigned, h0, if_true, hsf]
      · intro b hb
        simp only [List.head?_cons, Option.mem_def, Option.some.injEq] at hb
        omega
    · by_cases h1 : 0x31 ≤ d ∧ d ≤ 0x39
      · simp only [scanUnsigned, h0, h1, if_false, if_true, and_self] at hs
        obtain ⟨pd, hpd, hdig⟩ := skipDigits_prefix l1
        obtain ⟨pf, hpf, hsf, hhf⟩ := scanFrac_prefix _ _ hs
        have h2 : skipDigits (pd ++ pf) = pf := by
          rw [skipDigits_digits pd pf hdig, skipDigits_head pf hhf]
        refine ⟨d :: (pd ++ pf), ?_, ?_, ?_⟩
        · simp only [List.cons_append, List.append_assoc]
          rw [← hpf, ← hpd]
        · simp only [scanUnsigned, h0, h1, if_false, if_true, and_self, h2, hsf]
        · intro b hb
          simp only [List.head?_cons, Option.mem_def, Option.some.injEq] at hb
          omega
      · simp [scanUnsigned, h0, h1] at hs

/-- What the scanner takes for a number is a number literal in front of the rest. -/
theorem scanNumber_prefix (l r : List Nat) (hs : scanNumber l = some r) :
    ∃ p, l = p ++ r ∧ scanNumber p = some [] := by
  cases l with
  | nil => simp [scanNumber] at hs
  | cons b l1 =>
    by_cases hb : b = 0x2D
    · simp only [scanNumber, hb, if_true] at hs
      obtain ⟨pu, hpu, hsu, _⟩ := scanUnsigned_prefix _ _ hs
      refine ⟨b :: pu, ?_, ?_⟩
      · simp only [List.cons_append]
        rw [← hpu]
      · simp only [scanNumber, hb, if_true, hsu]
    · simp only [scanNumber, hb, if_false] at hs
      obtain ⟨pu, hpu, hsu, hhu⟩ := scanUnsigned_prefix _ _ hs
      refine ⟨pu, hpu, ?_⟩
      cases pu with
      | nil => simp [scanUnsigned] at hsu
      | cons x xs =>
        have hx : x ≠ 0x2D := hhu x (by simp)
        simp only [scanNumber, hx, if_false, hsu]

/-! ### The tree of a valid text -/

theorem isPrefixOf_drop (p bs : List Nat) (h : p.isPrefixOf bs = true) :
    bs = p ++ bs.drop p.length := by
  have h1 := List.isPrefixOf_iff_prefix.mp h
  exact (List.prefix_iff_eq_append.mp h1).symm

theorem compactText_scanLiteral (bs rest : List Nat) (h : scanLiteral bs = some rest) :
    ∃ v : JValue, v.wf = true ∧
      compactText 0 .out bs = v.render ++ compactText 0 .out rest := by
  unfold scanLiteral at h
  by_cases h1 : [0x74, 0x72, 0x75, 0x65].isPrefixOf bs = true
  · rw [if_pos h1] at h
    have hr : bs.drop 4 = rest := Option.some.inj h
    have hb := isPrefixOf_drop _ _ h1
    rw [← hr]
    refine ⟨.bool true, rfl, ?_⟩
    rw [congrArg (compactText 0 .out) hb]
    apply compactText_out_plain_list
    intro b hm
    simp at hm
    exact plainOut_of_mem (by omega)
  by_cases h2 : [0x66, 0x61, 0x6C, 0x73, 0x65].isPrefixOf bs = true
  · rw [if_neg h1, if_pos h2] at h
    have hr : bs.drop 5 = rest := Option.some.inj h
    have hb := isPrefixOf_drop _ _ h2
    rw [← hr]
    refine ⟨.bool false, rfl, ?_⟩
    rw [congrArg (compactText 0 .out) hb]
    apply compactText_out_plain_list
    intro b hm
    simp at hm
    exact plainOut_of_mem (by omega)
  by_cases h3 : [0x6E, 0x75, 0x6C, 0x6C].isPrefixOf bs = true
  · rw [if_neg h1, if_neg h2, if_pos h3] at h
    have hr : bs.drop 4 = rest := Option.some.inj h
    have hb := isPrefixOf_drop _ _ h3
    rw [← hr]
    refine ⟨.null, rfl, ?_⟩
    rw [congrArg (compactText 0 .out) hb]
    apply compactText_out_plain_list
    intro b hm
    simp at hm
    exact plainOut_of_mem (by omega)
  rw [if_neg h1, if_neg h2, if_neg h3] at h
  obtain ⟨lit, hl, hs⟩ := scanNumber_prefix _ _ h
  refine ⟨.number lit, by simp [JValue.wf, hs], ?_⟩
  rw [hl]
  apply compactText_out_plain_list
  intro b hm
  exact numByte_plainOut (number_bytes lit hs b hm)

/-- Compaction of what the scanner accepts is the text of a well-formed tree:
for a value, for the elements of an array up to its closing bracket and for
the members of an object up to its closing brace. -/
theorem compactText_scan (fuel : Nat) :
    (∀ bs rest, scanValue fuel bs = some rest →
      ∃ v : JValue, v.wf = true ∧
        compactText 0 .out bs = v.render ++ compactText 0 .out rest) ∧
    (∀ bs rest, scanElements fuel bs = some rest →
      ∃ items : List JValue, items ≠ [] ∧ JValue.wfItems items = true ∧
        compactText 0 .out bs
          = JValue.renderItems items ++ 0x5D :: compactText 0 .out rest) ∧
    (∀ bs rest, scanMembers fuel bs = some rest →
      ∃ fields : List (List Nat × JValue), fields ≠ [] ∧ JValue.wfFields fields = true ∧
        compactText 0 .out bs
          = JValue.renderFields fields ++ 0x7D :: compactText 0 .out rest) := by
  induction fuel with
  | zero =>
    refine ⟨?_, ?_, ?_⟩
    · intro bs rest h; simp [scanValue] at h
    · intro bs rest h; simp [scanElements] at h
    · intro bs rest h; simp [scanMembers] at h
  | succ fuel ih =>
    obtain ⟨ihV, ihE, ihM⟩ := ih
    have hopen : ∀ l, compactText 0 .out (0x5B :: l) = 0x5B :: compactText 0 .out l :=
      fun l => compactText_out_plain _ _ (plainOut_of_mem (by omega))
    have hclose : ∀ l, compactText 0 .out (0x5D :: l) = 0x5D :: compactText 0 .out l :=
      fun l => compactText_out_plain _ _ (plainOut_of_mem (by omega))
    have hopenB : ∀ l, compactText 0 .out (0x7B :: l) = 0x7B :: compactText 0 .out l :=
      fun l => compactText_out_plain _ _ (plainOut_of_mem (by omega))
    have hcloseB : ∀ l, compactText 0 .out (0x7D :: l) = 0x7D :: compactText 0 .out l :=
      fun l => compactText_out_plain _ _ (plainOut_of_mem (by omega))
    have hcomma : ∀ l, compactText 0 .out (0x2C :: l) = 0x2C :: compactText 0 .out l :=
      fun l => compactText_out_plain _ _ (plainOut_of_mem (by omega))
    have hcolon : ∀ l, compactText 0 .out (0x3A :: l) = 0x3A :: compactText 0 .out l :=
      fun l => compactText_out_plain _ _ (plainOut_of_mem (by omega))
    refine ⟨?_, ?_, ?_⟩
    · intro bs rest h
      cases bs with
      | nil => simp [scanValue] at h
      | cons b rest0 =>
        simp only [scanValue] at h
        by_cases hq : b = 0x22
        · subst hq
          simp only [if_true] at h
          obtain ⟨body, hb1, hb2, _, _⟩ :=
            compactText_scanString rest0.length rest0 rest (Nat.le_refl _) h
          refine ⟨.string body, by simp [JValue.wf, hb1], ?_⟩
          rw [compactText_out_quote, hb2]
          simp [JValue.render, quoted]
        by_cases ha : b = 0x5B
        · subst ha
          have e0 : compactText 0 .out rest0 = compactText 0 .out (skipSpace rest0) :=
            (compactText_skipSpace rest0).symm
          cases hsk : skipSpace rest0 with
          | nil => simp [hsk] at h
          | cons c rest1 =>
            rw [hsk] at e0
            simp only [hq, hsk, if_false, if_true] at h
            by_cases hc : c = 0x5D
            · subst hc
              simp only [if_true, Option.some.injEq] at h
              subst h
              refine ⟨.array [], by simp [JValue.wf, JValue.wfItems], ?_⟩
              rw [hopen, e0, hclose]
              simp [JValue.render, JValue.renderItems]
            · simp only [hc, if_false] at h
              obtain ⟨items, _, hw, hc2⟩ := ihE _ _ h
              refine ⟨.array items, by simp [JValue.wf, hw], ?_⟩
              rw [hopen, e0, hc2]
              simp [JValue.render]
        by_cases ho : b = 0x7B
        · subst ho
          have e0 : compactText 0 .out rest0 = compactText 0 .out (skipSpace rest0) :=
            (compactText_skipSpace rest0).symm
          cases hsk : skipSpace rest0 with
          | nil => simp [hsk] at h
          | cons c rest1 =>
            rw [hsk] at e0
            simp only [hq, ha, hsk, if_false, if_true] at h
            by_cases hc : c = 0x7D
            · subst hc
              simp only [if_true, Option.some.injEq] at h
              subst h
              refine ⟨.object [], by simp [JValue.wf, JValue.wfFields], ?_⟩
              rw [hopenB, e0, hcloseB]
              simp [JValue.render, JValue.renderFields]
            · simp only [hc, if_false] at h
              obtain ⟨fields, _, hw, hc2⟩ := ihM _ _ h
              refine ⟨.object fields, by simp [JValue.wf, hw], ?_⟩
              rw [hopenB, e0, hc2]
              simp [JValue.render]
        simp only [hq, ha, ho, if_false] at h
        exact compactText_scanLiteral _ _ h
    · intro bs rest h
      simp only [scanElements] at h
      cases hv : scanValue fuel bs with
      | none => simp [hv] at h
      | some r1 =>
        obtain ⟨v, hvw, hvc⟩ := ihV _ _ hv
        have e1 : compactText 0 .out r1 = compactText 0 .out (skipSpace r1) :=
          (compactText_skipSpace r1).symm
        cases hsk : skipSpace r1 with
        | nil => simp [hv, hsk] at h
        | cons c r2 =>
          rw [hsk] at e1
          simp only [hv, hsk] at h
          by_cases hc : c = 0x2C
          · subst hc
            simp only [if_true] at h
            obtain ⟨items, hne, hw, hc2⟩ := ihE _ _ h
            obtain ⟨w, more, rfl⟩ : ∃ w more, items = w :: more := by
              cases items with
              | nil => exact absurd rfl hne
              | cons w more => exact ⟨w, more, rfl⟩
            refine ⟨v :: w :: more, by simp, ?_, ?_⟩
            · rw [JValue.wfItems, hvw, hw]; rfl
            · rw [hvc, e1, hcomma, ← compactText_skipSpace r2, hc2, renderItems_cons2]
              simp
          · by_cases hd : c = 0x5D
            · subst hd
              simp only [hc, if_false, if_true, Option.some.injEq] at h
              subst h
              refine ⟨[v], by simp, by simp [JValue.wfItems, hvw], ?_⟩
              rw [hvc, e1, hclose, renderItems_single]
            · simp [hc, hd] at h
    · intro bs rest h
      cases bs with
      | nil => simp [scanMembers] at h
      | cons q r =>
        simp only [scanMembers] at h
        by_cases hq : q = 0x22
        · subst hq
          simp only [if_true] at h
          cases hk : scanString r with
          | none => simp [hk] at h
          | some r1 =>
            obtain ⟨k, hk1, hk2, _, _⟩ :=
              compactText_scanString r.length r r1 (Nat.le_refl _) hk
            have e1 : compactText 0 .out r1 = compactText 0 .out (skipSpace r1) :=
              (compactText_skipSpace r1).symm
            cases hsk : skipSpace r1 with
            | nil => simp [hk, hsk] at h
            | cons c r2 =>
              rw [hsk] at e1
              simp only [hk, hsk] at h
              by_cases hc : c = 0x3A
              · subst hc
                simp only [if_true] at h
                cases hv : scanValue fuel (skipSpace r2) with
                | none => simp [hv] at h
                | some r3 =>
                  obtain ⟨v, hvw, hvc⟩ := ihV _ _ hv
                  rw [compactText_skipSpace] at hvc
                  have e3 : compactText 0 .out r3 = compactText 0 .out (skipSpace r3) :=
                    (compactText_skipSpace r3).symm
                  cases hsk3 : skipSpace r3 with
                  | nil => simp [hv, hsk3] at h
                  | cons s r4 =>
                    rw [hsk3] at e3
                    simp only [hv, hsk3] at h
                    by_cases hs : s = 0x2C
                    · subst hs
                      simp only [if_true] at h
                      obtain ⟨fields, hne, hw, hc2⟩ := ihM _ _ h
                      obtain ⟨w, more, rfl⟩ : ∃ w more, fields = w :: more := by
                        cases fields with
                        | nil => exact absurd rfl hne
                        | cons w more => exact ⟨w, more, rfl⟩
                      refine ⟨(k, v) :: w :: more, by simp, ?_, ?_⟩
                      · rw [JValue.wfFields, hk1, hvw, hw]; rfl
                      · rw [compactText_out_quote, hk2, e1, hcolon, hvc, e3, hcomma,
                          ← compactText_skipSpace r4, hc2, renderFields_cons2]
                        simp [quoted]
                    · by_cases hd : s = 0x7D
                      · subst hd
                        simp only [hs, if_false, if_true, Option.some.injEq] at h
                        subst h
                        refine ⟨[(k, v)], by simp, by simp [JValue.wfFields, hk1, hvw], ?_⟩
                        rw [compactText_out_quote, hk2, e1, hcolon, hvc, e3, hcloseB,
                          renderFields_single]
                        simp [quoted]
                      · simp [hs, hd] at h
              · simp [hc] at h
        · simp [hq] at h

/-- What `json.Marshal` writes for a valid raw message is the text of a
well-formed tree. -/
theorem compactRaw_tree (raw text : List Nat) (h : compactRaw raw = .ok text) :
    ∃ v : JValue, v.wf = true ∧ text = v.render := by
  unfold compactRaw at h
  by_cases hv : validJSON raw = true
  · simp only [hv, if_true, Except.ok.injEq] at h
    unfold validJSON at hv
    cases hs : scanValue (raw.length + 1) (skipSpace raw) with
    | none => simp [hs] at hv
    | some rest =>
      simp only [hs, decide_eq_true_eq] at hv
      obtain ⟨v, hw, hc⟩ := (compactText_scan (raw.length + 1)).1 _ _ hs
      refine ⟨v, hw, ?_⟩
      rw [← h, ← compactText_skipSpace raw, hc, ← compactText_skipSpace rest, hv]
      simp [compactText]
  · simp [hv] at h

/-! ### The frame of `SendInvocation` -/

theorem marshalArgs_values (vs : List JValue) (hwf : ∀ v ∈ vs, v.wf = true) :
    marshalArgs (vs.map Arg.value) = .ok (vs.map JValue.render) := by
  induction vs with
  | nil => rfl
  | cons v rest ih =>
    have hv := hwf v (by simp)
    have hr := ih (fun w hw => hwf w (by simp [hw]))
    simp [marshalArgs, marshalArg, hv, hr]

/-- The text of an argument that marshals is the text of a well-formed tree. -/
theorem marshalArg_tree (a : Arg) (text : RawMessage) (h : marshalArg a = .ok text) :
    ∃ v : JValue, v.wf = true ∧ text = v.render := by
  cases a with
  | value v =>
    by_cases hv : v.wf = true
    · simp only [marshalArg, hv, if_true, Except.ok.injEq] at h
      exact ⟨v, hv, h.symm⟩
    · simp [marshalArg, hv] at h
  | raw raw => exact compactRaw_tree raw text h
  | unsupported e => simp [marshalArg] at h

/-- The texts of arguments that all marshal are the texts of well-formed
trees, in order. -/
theorem marshalArgs_ok : ∀ (args : List Arg) (jsonArgs : List RawMessage),
    marshalArgs args = .ok jsonArgs →
    ∃ vs : List JValue, (∀ v ∈ vs, v.wf = true) ∧ jsonArgs = vs.map JValue.render
  | [], jsonArgs, h => by
    simp only [marshalArgs, Except.ok.injEq] at h
    exact ⟨[], by simp, h.symm⟩
  | a :: rest, jsonArgs, h => by
    cases ha : marshalArg a with
    | error e => simp [marshalArgs, ha] at h
    | ok text =>
      cases hr : marshalArgs rest with
      | error e => simp [marshalArgs, ha, hr] at h
      | ok more =>
        obtain ⟨v, hv, ht⟩ := marshalArg_tree a text ha
        obtain ⟨vs, hwf, hj⟩ := marshalArgs_ok rest more hr
        simp only [marshalArgs, ha, hr, Except.ok.injEq] at h
        refine ⟨v :: vs, ?_, by simp [← h, hj, ht]⟩
        intro w hw
        simp only [List.mem_cons] at hw
        rcases hw with hw | hw
        · rw [hw]; exact hv
        · exact hwf w hw

theorem envelopeValue_wf (target : String) (vs : List JValue) (hwf : ∀ v ∈ vs, v.wf = true) :
    (envelopeValue target vs).wf = true := by
  have := (wfItems_iff vs).mpr hwf
  simp [envelopeValue, envelopeMembers, keyed, JValue.wf, JValue.wfFields,
    literalBody_escapeChars, this, scanNumber, scanUnsigned, scanFrac, skipDigits]

theorem marshalMessage_sendEnvelope (target : String) (vs : List JValue)
    (hwf : ∀ v ∈ vs, v.wf = true) :
    marshalMessage (sendEnvelope (utf8Bytes target) (vs.map JValue.render))
      = .ok (envelopeValue target vs).render := by
  have hall := compactAll_render vs hwf
  have h1 : invocationMessageType ≠ 0 := by decide
  have h2 : ascii "\"type\":" ++ renderInt invocationMessageType
      = encodeString "type" ++ 0x3A :: [0x31] := by decide
  have h3 : ascii "\"target\":" = encodeString "target" ++ [0x3A] := by decide
  have h4 : ascii "\"arguments\":" = encodeString "arguments" ++ [0x3A] := by decide
  unfold marshalMessage
  simp only [sendEnvelope, hall, h1, if_false, if_true, h2, h3, h4, joinComma_map_render,
    List.append_nil, List.nil_append, List.singleton_append, joinComma,
    envelopeValue, envelopeMembers, keyed, List.map_cons, List.map_nil, JValue.render,
    renderFields_cons2, renderFields_single, quoted_escapeChars, encodeGoString_utf8Bytes]
  simp

theorem String.mk_toList (s : String) : String.mk s.toList = s := rfl

theorem decodeString_encodeString (s : String) :
    decodeString (encodeString s) = some s := by
  have hl := encodeString_length s
  have hr := readString_encodeString s [] ((encodeString s).length + 1) (by omega)
  unfold decodeString
  simp only [encodeString] at hr ⊢
  rw [hr]
  rfl

theorem unmarshalMessage_render (target : String) (vs : List JValue)
    (hwf : ∀ v ∈ vs, v.wf = true) :
    unmarshalMessage (envelopeValue target vs).render
      = .ok { MsgType := invocationMessageType, Headers := none, InvocationID := "",
              Target := target, Arguments := vs.map JValue.render, Error := "" } := by
  have hw := envelopeValue_wf target vs hwf
  have hvalid := validJSON_render _ hw
  have hitems := (wfItems_iff vs).mpr hwf
  have hfields : JValue.wfFields (keyed (envelopeMembers target vs)) = true := by
    simpa [envelopeValue, JValue.wf] using hw
  have hmem := decodeMembers_renderFields setField (envelopeMembers target vs)
    (by simp [envelopeMembers]) hfields []
    ((envelopeValue target vs).render.length + 1) zeroMessage
    (by simp [envelopeValue, JValue.render])
  obtain ⟨bs, hb⟩ := renderFields_head (escapeChars "type".toList) (JValue.number [0x31])
    (keyed [("target", JValue.string (escapeChars target.toList)),
      ("arguments", JValue.array vs)])
  have hkeyed : keyed (envelopeMembers target vs)
      = (escapeChars "type".toList, JValue.number [0x31])
        :: keyed [("target", JValue.string (escapeChars target.toList)),
            ("arguments", JValue.array vs)] := rfl
  have hk1 : fieldOf "type".toList = some Field.type := by decide
  have hk2 : fieldOf "target".toList = some Field.target := by decide
  have hk3 : fieldOf "arguments".toList = some Field.arguments := by decide
  have hfeed : feedMembers setField (envelopeMembers target vs) zeroMessage
      = .ok { MsgType := invocationMessageType, Headers := none, InvocationID := "",
              Target := target, Arguments := vs.map JValue.render, Error := "" } := by
    have hp : parseInt [0x31] = some 1 := by decide
    have hkn : kindOf (JValue.number [0x31]).render = ValueKind.number := by decide
    have hks : kindOf (JValue.string (escapeChars target.toList)).render
        = ValueKind.string := by
      simp [JValue.render, quoted, kindOf]
    have hka : kindOf (JValue.array vs).render = ValueKind.array := by
      simp [JValue.render, kindOf]
    have hds : decodeString (JValue.string (escapeChars target.toList)).render
        = some target := by
      simp only [JValue.render, quoted_escapeChars]
      exact decodeString_encodeString target
    have hda := decodeRawArray_render vs hitems
    have hn : (JValue.number [0x31]).render = [0x31] := by simp [JValue.render]
    simp only [envelopeMembers, feedMembers, setField, hk1, hk2, hk3, hkn, hks, hka, hds, hda,
      hn, hp]
    rfl
  unfold unmarshalMessage
  simp only [hvalid, if_true]
  have hrender : (envelopeValue target vs).render
      = 0x7B :: (JValue.renderFields (keyed (envelopeMembers target vs)) ++ [0x7D]) := by
    simp [envelopeValue, JValue.render]
  rw [hrender] at hmem ⊢
  have hsk : skipSpace (0x7B :: (JValue.renderFields (keyed (envelopeMembers target vs))
        ++ [0x7D]))
      = 0x7B :: (JValue.renderFields (keyed (envelopeMembers target vs)) ++ [0x7D]) := by
    simp [skipSpace, isSpace]
  rw [hsk]
  have hk : kindOf (0x7B :: (JValue.renderFields (keyed (envelopeMembers target vs))
        ++ [0x7D])) = ValueKind.object := by
    simp [kindOf]
  simp only [hk, decodeObject, if_true]
  rw [hkeyed, hb] at hmem ⊢
  simp only [List.cons_append] at hmem ⊢
  rw [skipSpace_quote]
  have h3 : (0x22 : Nat) ≠ 0x7D := by decide
  simp only [h3, if_false]
  rw [← hfeed]
  convert hmem using 2

theorem terminator_not_mem_render (v : JValue) (hwf : v.wf = true) :
    messageTerminator ∉ v.render := by
  intro h
  have := render_bytes v hwf _ h
  rw [messageTerminator_eq] at this
  omega

/-- C9, as stated, fails for a target that is not valid UTF-8. For the target
of the single byte 0xFF and no arguments, `SendInvocation` writes the frame
`{"type":1,"target":"\ufffd","arguments":[]}` and one terminator byte, since
`json.Marshal` writes an invalid byte as `\ufffd`; stripping and decoding the
frame gives the target U+FFFD, a string of the three bytes EF BF BD, not the
target of the envelope that was sent. -/
theorem SendInvocation_invalid_target :
    SendInvocation okConn [0xFF] []
      = ⟨[ascii "\x7b\"type\":1,\"target\":\"\\ufffd\",\"arguments\":[]\x7d" ++ [0x1E]],
         none⟩ ∧
    readConn (.data (ascii "\x7b\"type\":1,\"target\":\"\\ufffd\",\"arguments\":[]\x7d"
        ++ [0x1E]))
      = .ok (ascii "\x7b\"type\":1,\"target\":\"\\ufffd\",\"arguments\":[]\x7d") ∧
    unmarshalMessage (ascii "\x7b\"type\":1,\"target\":\"\\ufffd\",\"arguments\":[]\x7d")
      = .ok { MsgType := invocationMessageType, Headers := none, InvocationID := "",
              Target := String.mk [Char.ofNat 0xFFFD], Arguments := [], Error := "" } ∧
    utf8Bytes (String.mk [Char.ofNat 0xFFFD]) = [0xEF, 0xBF, 0xBD] ∧
    InvocationMessageOf.toGo
        { MsgType := invocationMessageType, Headers := none, InvocationID := "",
          Target := String.mk [Char.ofNat 0xFFFD], Arguments := [], Error := "" }
      ≠ sendEnvelope [0xFF] [] := by
  refine ⟨by decide, rfl, rfl, by decide, by decide⟩

/-- C9, amended: for every target that is valid UTF-8 (the bytes of a string
of Unicode characters) and every list of arguments that all marshal,
`SendInvocation` marshals the envelope to a payload, hands to the socket
exactly the payload followed by one terminator byte (when the socket gives a
writer), the payload holds no terminator byte, `readConn` strips the frame
back to the payload, and `json.Unmarshal` of it gives an `InvocationMessage`
that is the envelope in every field: the invocation kind, the target, no
headers, no invocation identifier, no error text, and the marshalled
arguments in order. -/
theorem SendInvocation_roundtrip (conn : ConnWriter) (target : String) (args : List Arg)
    (jsonArgs : List RawMessage) (hargs : marshalArgs args = .ok jsonArgs) :
    ∃ payload decoded,
      marshalMessage (sendEnvelope (utf8Bytes target) jsonArgs) = .ok payload ∧
      (SendInvocation conn (utf8Bytes target) args).written
        = (match conn.Writer with
           | none => [payload ++ [messageTerminator]]
           | some _ => []) ∧
      messageTerminator ∉ payload ∧
      readConn (.data (payload ++ [messageTerminator])) = .ok payload ∧
      unmarshalMessage payload = .ok decoded ∧
      decoded.toGo = sendEnvelope (utf8Bytes target) jsonArgs ∧
      decoded.MsgType = invocationMessageType ∧
      decoded.Target = target ∧
      decoded.InvocationID = "" ∧
      decoded.Error = "" ∧
      decoded.Arguments = jsonArgs := by
  obtain ⟨vs, hwf, rfl⟩ := marshalArgs_ok args jsonArgs hargs
  refine ⟨(envelopeValue target vs).render,
    { MsgType := invocationMessageType, Headers := none, InvocationID := "",
      Target := target, Arguments := vs.map JValue.render, Error := "" },
    marshalMessage_sendEnvelope target vs hwf, ?_,
    terminator_not_mem_render _ (envelopeValue_wf target vs hwf), ?_,
    unmarshalMessage_render target vs hwf, rfl, rfl, rfl, rfl, rfl, rfl⟩
  · simp only [SendInvocation, hargs, marshalMessage_sendEnvelope target vs hwf]
    cases conn.Writer with
    | some e => rfl
    | none =>
      cases conn.Write ((envelopeValue target vs).render ++ [messageTerminator]) with
      | some e => rfl
      | none => cases conn.Close <;> rfl
  · simp only [readConn, stripTerminator_terminated]

theorem SendInvocation_roundtrip_witness :
    ∃ payload decoded,
      marshalMessage (sendEnvelope (utf8Bytes "ReceiveStep") [[0x31], ascii "\"\\/\""])
        = .ok payload ∧
      (SendInvocation okConn (utf8Bytes "ReceiveStep")
          [.value (JValue.ofNat 1), .raw (ascii " \"\\/\" ")]).written
        = (match okConn.Writer with
           | none => [payload ++ [messageTerminator]]
           | some _ => []) ∧
      messageTerminator ∉ payload ∧
      readConn (.data (payload ++ [messageTerminator])) = .ok payload ∧
      unmarshalMessage payload = .ok decoded ∧
      decoded.toGo = sendEnvelope (utf8Bytes "ReceiveStep") [[0x31], ascii "\"\\/\""] ∧
      decoded.MsgType = invocationMessageType ∧
      decoded.Target = "ReceiveStep" ∧
      decoded.InvocationID = "" ∧
      decoded.Error = "" ∧
      decoded.Arguments = [[0x31], ascii "\"\\/\""] :=
  SendInvocation_roundtrip okConn "ReceiveStep"
    [.value (JValue.ofNat 1), .raw (ascii " \"\\/\" ")] [[0x31], ascii "\"\\/\""] rfl

/-- The frame that the template handler's answer to `requestStep` puts on the wire. -/
theorem SendInvocation_example :
    (SendInvocation okConn (utf8Bytes "ReceiveStep")
        [.value (JValue.ofNat 1), .value (JValue.ofNat 0)])
      = ⟨[ascii "\x7b\"type\":1,\"target\":\"ReceiveStep\",\"arguments\":[1,0]\x7d" ++ [0x1E]],
         none⟩ := by
  decide

end Signalr
